import Mathlib

/-! The TOON codec of `src/script.js`.

A shallow embedding of the encoder (`convertToToon`, `formatValue`) and of the
decoder (`parseToon`, `parseValue`) of `src/script.js`, followed by theorems
about them.

Conventions of the embedding.

* A JavaScript string is a list of characters (`Str`).
* A JavaScript value is a `Value`; an object is the list of its own
  properties in the order in which `Object.keys` enumerates them
  (`isKeyOrdered`).  The decoder lists the properties of an object it builds
  in the order of their creation (`storeProp`), which is the order of
  `Object.keys` unless a key is an array index; `keyOrder` gives the order of
  `Object.keys` from the order of creation.  Of the prototype chain the model
  has the accessor `__proto__` of `Object.prototype`: an assignment under that
  key stores no
  field (`setProp`), and a read of it on a value without such a field gives
  the prototype (`getProp`).  The function members of the prototypes
  (`constructor`, `toString`, ...) print an implementation-defined text and
  are not in the model: a theorem that reads a property an element lacks
  carries the hypothesis that the key names no such member.
* A Number is a double, given by the decimal that `String` prints for it
  (`JSNum`); `toNumber` rounds an exact decimal to the nearest double, and
  `-0` is identified with `0`.
* A call that throws a `TypeError` in JavaScript returns `none`.
-/

namespace Toon

/-- JavaScript string, as the list of its characters. -/
abbrev Str := List Char

/-! ## Character classes of the regular expressions -/

/-- Class `\d`: the ASCII digits. -/
def isDigit (c : Char) : Bool :=
  decide (48 ≤ c.toNat) && decide (c.toNat ≤ 57)

/-- Class `\w`: ASCII letters, ASCII digits and the underscore. -/
def isWord (c : Char) : Bool :=
  isDigit c || (decide (65 ≤ c.toNat) && decide (c.toNat ≤ 90))
    || (decide (97 ≤ c.toNat) && decide (c.toNat ≤ 122)) || decide (c.toNat = 95)

/-- Line terminators of ECMAScript: LF, CR, LS and PS.  The regular expression
atom `.` matches every character except these. -/
def isLineTerminator (c : Char) : Bool :=
  decide (c.toNat = 10) || decide (c.toNat = 13) || decide (c.toNat = 8232)
    || decide (c.toNat = 8233)

/-- Class `\s`, which is also the set of characters removed by `trim()`:
ECMAScript white space (TAB, VT, FF, SP, NBSP, ZWNBSP and the space separators
of Unicode) together with the line terminators. -/
def isSpace (c : Char) : Bool :=
  decide (c.toNat = 9) || decide (c.toNat = 11) || decide (c.toNat = 12)
    || decide (c.toNat = 32) || decide (c.toNat = 160) || decide (c.toNat = 5760)
    || (decide (8192 ≤ c.toNat) && decide (c.toNat ≤ 8202))
    || decide (c.toNat = 8239) || decide (c.toNat = 8287) || decide (c.toNat = 12288)
    || decide (c.toNat = 65279) || isLineTerminator c

/-! ## String primitives -/

/-- Method `trim()`: white space removed from both ends. -/
def trim (s : Str) : Str :=
  ((s.dropWhile isSpace).reverse.dropWhile isSpace).reverse

/-- Method `split(sep)` for a one-character separator. -/
def split (sep : Char) (s : Str) : List Str :=
  s.splitOn sep

/-- Method `join(sep)` of an array of strings. -/
def join (sep : Str) (parts : List Str) : Str :=
  sep.intercalate parts

/-- Method `map(f)` of an array for a callback that may throw: the array of
the results, unless a call throws. -/
def mapThrow {α β : Type} (f : α → Option β) : List α → Option (List β)
  | [] => some []
  | x :: xs =>
    match f x with
    | none => none
    | some y => (mapThrow f xs).map (fun ys => y :: ys)

/-- Method `repeat(n)` applied to the two-space string: the indentation of
level `n`. -/
def spacing : Nat → Str
  | 0 => []
  | n + 1 => ' ' :: ' ' :: spacing n

/-! ## Numbers -/

/-- The decimal digit character of a number below ten. -/
def digitChar (d : Nat) : Char :=
  match d with
  | 0 => '0' | 1 => '1' | 2 => '2' | 3 => '3' | 4 => '4'
  | 5 => '5' | 6 => '6' | 7 => '7' | 8 => '8' | _ => '9'

/-- The value of a decimal digit character. -/
def digitVal (c : Char) : Nat := c.toNat - 48

/-- Decimal digits of `n`, most significant first, in front of `acc`; `fuel`
bounds the number of digits produced. -/
def natDigitsAux : Nat → Nat → Str → Str
  | 0, _, acc => acc
  | fuel + 1, n, acc =>
    if n / 10 = 0 then digitChar (n % 10) :: acc
    else natDigitsAux fuel (n / 10) (digitChar (n % 10) :: acc)

/-- The canonical decimal numeral of a natural number. -/
def natToString (n : Nat) : Str := natDigitsAux (n + 1) n []

/-- The number denoted by a string of decimal digits. -/
def digitsVal (ds : Str) : Nat := ds.foldl (fun a c => 10 * a + digitVal c) 0

/-- A JavaScript Number, given by the decimal that `String` prints for it (the
shortest decimal that rounds to it).  `int n` is the integer `n`; `dec m k` is
the non-integer `m / 10 ^ (k + 1)`, where ten does not divide `m`; `inf neg`
is `Infinity` or `-Infinity`.  `NaN` is not a member: neither `JSON.parse` nor
`parseValue` produces it.  The same type holds the exact value of a numeric
literal before it is rounded (`stringToDecimal`, `toNumber`). -/
inductive JSNum where
  | int (n : Int)
  | dec (m : Int) (k : Nat)
  | inf (neg : Bool)
  deriving DecidableEq, Repr

/-- Removal of the trailing zeros of a digit string. -/
def stripZeros (ds : Str) : Str :=
  (ds.reverse.dropWhile (fun c => c == '0')).reverse

/-- Exponent suffix `e+N` or `e-N` of `Number::toString`. -/
def expSuffix (e : Int) : Str :=
  'e' :: (if 0 ≤ e then '+' else '-') :: natToString e.natAbs

/-- Mantissa `d` or `d.ddd` of the exponential form of `Number::toString`. -/
def mantissa (s : Str) : Str :=
  match s with
  | [] => []
  | [d] => [d]
  | d :: rest => d :: '.' :: rest

/-- `Number::toString` for a positive number whose decimal digits without
trailing zeros are `s` and whose decimal point stands `n` places to the right
of the first digit of `s` (the number is `0.s × 10 ^ n`). -/
def positiveToString (s : Str) (n : Int) : Str :=
  if (s.length : Int) ≤ n ∧ n ≤ 21 then
    s ++ List.replicate (n.toNat - s.length) '0'
  else if 0 < n ∧ n ≤ 21 then
    s.take n.toNat ++ '.' :: s.drop n.toNat
  else if -6 < n ∧ n ≤ 0 then
    '0' :: '.' :: (List.replicate (-n).toNat '0' ++ s)
  else
    mantissa s ++ expSuffix (n - 1)

/-- `String(x)` for a Number `x`, by the algorithm `Number::toString` of
ECMAScript applied to the exact decimal digits of `x`. -/
def numberToString : JSNum → Str
  | .int n =>
    if n = 0 then ['0']
    else
      let ds := natToString n.natAbs
      let body := positiveToString (stripZeros ds) ds.length
      if n < 0 then '-' :: body else body
  | .dec m k =>
    let ds := natToString m.natAbs
    let body := positiveToString ds ((ds.length : Int) - ((k : Int) + 1))
    if m < 0 then '-' :: body else body
  | .inf neg => if neg then "-Infinity".toList else "Infinity".toList

/-- The number `m / 10 ^ j` for a natural number `m`, in normal form. -/
def normDec (m : Nat) : Nat → JSNum
  | 0 => .int m
  | j + 1 => if m % 10 = 0 then normDec (m / 10) j else .dec m j

/-- The number `m × 10 ^ e` for a natural number `m`, in normal form. -/
def scaleDec (m : Nat) (e : Int) : JSNum :=
  if 0 ≤ e then .int (m * 10 ^ e.toNat) else normDec m (-e).toNat

/-- Arithmetic negation of a Number. -/
def negNum : JSNum → JSNum
  | .int n => .int (-n)
  | .dec m k => .dec (-m) k
  | .inf neg => .inf (!neg)

/-! ### Rounding to double precision

`Number(s)` rounds the exact value of a literal to the nearest double
(IEEE 754 binary64, ties to even), and `String(x)` prints the shortest decimal
that rounds back to `x`.  A Number is held as that decimal, so rounding takes
an exact decimal to the decimal of the nearest double. -/

/-- Number of binary digits of `n`; `fuel` bounds it. -/
def bitLengthAux : Nat → Nat → Nat
  | 0, _ => 0
  | fuel + 1, n => if n = 0 then 0 else bitLengthAux fuel (n / 2) + 1

/-- Number of binary digits of `n`: zero for 0, and `b` when
`2 ^ (b - 1) ≤ n < 2 ^ b`. -/
def bitLength (n : Nat) : Nat := bitLengthAux n n

/-- The natural number `n × 2 ^ e` for `e ≥ 0`, and `n` for `e < 0`. -/
def shiftUp (n : Nat) (e : Int) : Nat := n * 2 ^ e.toNat

/-- The binary exponent `⌊log2 (p / q)⌋` of a positive fraction. -/
def binaryExponent (p q : Nat) : Int :=
  let l : Int := (bitLength p : Int) - (bitLength q : Int)
  if shiftUp q l ≤ shiftUp p (-l) then l else l - 1

/-- A positive fraction `p / q` rounded to the nearest double, ties to the
even significand: `some (m, e)` is the double `m × 2 ^ e`, with
`2 ^ 52 ≤ m < 2 ^ 53`, or with `m < 2 ^ 52` and `e = -1074` (a subnormal, or
zero); `none` is the overflow to infinity. -/
def roundToDouble (p q : Nat) : Option (Nat × Int) :=
  let e : Int := max (binaryExponent p q - 52) (-1074)
  let num := shiftUp p (-e)
  let den := shiftUp q e
  let m0 := num / den
  let r := num % den
  let m := if den < 2 * r ∨ (2 * r = den ∧ m0 % 2 = 1) then m0 + 1 else m0
  let me : Nat × Int := if m = 2 ^ 53 then (2 ^ 52, e + 1) else (m, e)
  if 971 < me.2 then none else some me

/-- The decimal exponent `n` of a positive fraction: `10 ^ (n - 1) ≤ p / q < 10 ^ n`. -/
def decimalExponent (p q : Nat) : Int :=
  if q ≤ p then ((natToString (p / q)).length : Int)
  else
    let t := (natToString (q / p)).length
    if p * 10 ^ (t - 1) = q then 2 - (t : Int) else 1 - (t : Int)

/-- The fraction `c × 10 ^ d` rounded to a double. -/
def roundDecimal (c : Nat) (d : Int) : Option (Nat × Int) :=
  roundToDouble (c * 10 ^ d.toNat) (10 ^ (-d).toNat)

/-- The decimal of `k` digits that `String` may print for the double
`m × 2 ^ e` (with decimal exponent `n`): the multiple of `10 ^ (n - k)`
nearest to the double among those that round to it, if there is one. -/
def digitsOfLength (m : Nat) (e n : Int) (k : Nat) : Option JSNum :=
  let d : Int := n - (k : Int)
  let xn := shiftUp m e * 10 ^ (-d).toNat
  let xd := shiftUp 1 (-e) * 10 ^ d.toNat
  let lo := xn / xd
  let okLo := decide (roundDecimal lo d = some (m, e))
  let okHi := decide (roundDecimal (lo + 1) d = some (m, e))
  if okLo ∧ okHi then
    if 2 * xn < (2 * lo + 1) * xd ∨ (2 * xn = (2 * lo + 1) * xd ∧ lo % 2 = 0) then
      some (scaleDec lo d)
    else some (scaleDec (lo + 1) d)
  else if okLo then some (scaleDec lo d)
  else if okHi then some (scaleDec (lo + 1) d)
  else none

/-- The shortest decimal that rounds to the double `m × 2 ^ e`: the digits
that `Number::toString` prints. -/
def shortestDecimal (m : Nat) (e : Int) : JSNum :=
  let n := decimalExponent (shiftUp m e) (shiftUp 1 (-e))
  ((List.range 17).findSome? (fun i => digitsOfLength m e n (i + 1))).getD (.int 0)

/-- The Number nearest to the non-negative decimal `c / 10 ^ j`. -/
def nearestNumber (c j : Nat) : JSNum :=
  if c = 0 then .int 0
  else
    match roundToDouble c (10 ^ j) with
    | none => .inf false
    | some (m, e) => if m = 0 then .int 0 else shortestDecimal m e

/-- Operation `RoundMVResult`: the Number nearest to an exact decimal, given
by the decimal that `String` prints for it. -/
def toNumber : JSNum → JSNum
  | .int n => if n < 0 then negNum (nearestNumber n.natAbs 0) else nearestNumber n.natAbs 0
  | .dec m k =>
    if m < 0 then negNum (nearestNumber m.natAbs (k + 1)) else nearestNumber m.natAbs (k + 1)
  | .inf neg => .inf neg

/-- Value of a hexadecimal, octal or binary digit, when it is one below
`base`. -/
def radixDigit (base : Nat) (c : Char) : Option Nat :=
  let v :=
    if isDigit c then c.toNat - 48
    else if 97 ≤ c.toNat ∧ c.toNat ≤ 102 then c.toNat - 87
    else if 65 ≤ c.toNat ∧ c.toNat ≤ 70 then c.toNat - 55
    else base
  if v < base then some v else none

/-- The number denoted by a non-empty string of digits in `base`. -/
def radixVal (base : Nat) (ds : Str) : Option Nat :=
  if ds = [] then none
  else ds.foldl (fun a c => a.bind (fun x => (radixDigit base c).map (fun d => base * x + d)))
    (some 0)

/-- Grammar `StrUnsignedDecimalLiteral` of ECMAScript: `Infinity`, or decimal
digits with an optional fraction and an optional exponent part. -/
def unsignedDecimal (t : Str) : Option JSNum :=
  if t = "Infinity".toList then some (.inf false)
  else
    let ip := t.takeWhile isDigit
    let r1 := t.dropWhile isDigit
    let fp := match r1 with
      | '.' :: r => r.takeWhile isDigit
      | _ => []
    let r2 := match r1 with
      | '.' :: r => r.dropWhile isDigit
      | _ => r1
    if ip = [] ∧ fp = [] then none
    else
      match r2 with
      | [] => some (scaleDec (digitsVal (ip ++ fp)) (-(fp.length : Int)))
      | c :: r3 =>
        if c = 'e' ∨ c = 'E' then
          let neg := match r3 with
            | '-' :: _ => true
            | _ => false
          let ds := match r3 with
            | '-' :: d => d
            | '+' :: d => d
            | _ => r3
          if ds ≠ [] ∧ ds.all isDigit then
            let e : Int := if neg then -(digitsVal ds : Int) else (digitsVal ds : Int)
            some (scaleDec (digitsVal (ip ++ fp)) (e - (fp.length : Int)))
          else none
        else none

/-- Grammar `StrNumericLiteral` of ECMAScript on a trimmed, non-empty
string. -/
def numericLiteral (t : Str) : Option JSNum :=
  match t with
  | '0' :: 'x' :: ds => (radixVal 16 ds).map (fun (n : Nat) => JSNum.int (Int.ofNat n))
  | '0' :: 'X' :: ds => (radixVal 16 ds).map (fun (n : Nat) => JSNum.int (Int.ofNat n))
  | '0' :: 'o' :: ds => (radixVal 8 ds).map (fun (n : Nat) => JSNum.int (Int.ofNat n))
  | '0' :: 'O' :: ds => (radixVal 8 ds).map (fun (n : Nat) => JSNum.int (Int.ofNat n))
  | '0' :: 'b' :: ds => (radixVal 2 ds).map (fun (n : Nat) => JSNum.int (Int.ofNat n))
  | '0' :: 'B' :: ds => (radixVal 2 ds).map (fun (n : Nat) => JSNum.int (Int.ofNat n))
  | '+' :: r => unsignedDecimal r
  | '-' :: r => (unsignedDecimal r).map negNum
  | _ => unsignedDecimal t

/-- The exact value that a string denotes as a numeric literal (the
mathematical value of `StringNumericLiteral`); `none` stands for `NaN`.  A
string of white space only denotes zero. -/
def stringToDecimal (s : Str) : Option JSNum :=
  if trim s = [] then some (.int 0) else numericLiteral (trim s)

/-- Conversion `Number(s)` of a string (`StringToNumber` of ECMAScript): the
Number nearest to the value of the literal; `none` stands for `NaN`. -/
def stringToNumber (s : Str) : Option JSNum :=
  (stringToDecimal s).map toNumber

/-! ## Values -/

/-- A JavaScript value.  An object is the list of its own properties, in the
order in which `Object.keys` enumerates them (`isKeyOrdered`); its keys are
distinct.  The encoder reads the list in the order given.  The decoder builds
it in the order in which the properties are created; `keyOrder` turns that
order into the order of `Object.keys`, and changes nothing when no key is an
array index. -/
inductive Value where
  | null
  | undefined
  | bool (b : Bool)
  | num (x : JSNum)
  | str (s : Str)
  | arr (xs : List Value)
  | obj (fs : List (Str × Value))

mutual
/-- Decision of the equality of two values. -/
def Value.decEq : (a b : Value) → Decidable (a = b)
  | .null, .null => isTrue rfl
  | .undefined, .undefined => isTrue rfl
  | .bool a, .bool b =>
    if h : a = b then isTrue (by rw [h]) else isFalse (by intro e; cases e; exact h rfl)
  | .num a, .num b =>
    if h : a = b then isTrue (by rw [h]) else isFalse (by intro e; cases e; exact h rfl)
  | .str a, .str b =>
    if h : a = b then isTrue (by rw [h]) else isFalse (by intro e; cases e; exact h rfl)
  | .arr a, .arr b =>
    match Value.decEqList a b with
    | isTrue h => isTrue (by rw [h])
    | isFalse h => isFalse (by intro e; cases e; exact h rfl)
  | .obj a, .obj b =>
    match Value.decEqFields a b with
    | isTrue h => isTrue (by rw [h])
    | isFalse h => isFalse (by intro e; cases e; exact h rfl)
  | .null, .undefined | .null, .bool _ | .null, .num _ | .null, .str _
  | .null, .arr _ | .null, .obj _ => isFalse (by intro e; cases e)
  | .undefined, .null | .undefined, .bool _ | .undefined, .num _ | .undefined, .str _
  | .undefined, .arr _ | .undefined, .obj _ => isFalse (by intro e; cases e)
  | .bool _, .null | .bool _, .undefined | .bool _, .num _ | .bool _, .str _
  | .bool _, .arr _ | .bool _, .obj _ => isFalse (by intro e; cases e)
  | .num _, .null | .num _, .undefined | .num _, .bool _ | .num _, .str _
  | .num _, .arr _ | .num _, .obj _ => isFalse (by intro e; cases e)
  | .str _, .null | .str _, .undefined | .str _, .bool _ | .str _, .num _
  | .str _, .arr _ | .str _, .obj _ => isFalse (by intro e; cases e)
  | .arr _, .null | .arr _, .undefined | .arr _, .bool _ | .arr _, .num _
  | .arr _, .str _ | .arr _, .obj _ => isFalse (by intro e; cases e)
  | .obj _, .null | .obj _, .undefined | .obj _, .bool _ | .obj _, .num _
  | .obj _, .str _ | .obj _, .arr _ => isFalse (by intro e; cases e)
/-- Decision of the equality of two lists of values. -/
def Value.decEqList : (a b : List Value) → Decidable (a = b)
  | [], [] => isTrue rfl
  | [], _ :: _ => isFalse (by intro e; cases e)
  | _ :: _, [] => isFalse (by intro e; cases e)
  | x :: xs, y :: ys =>
    match Value.decEq x y, Value.decEqList xs ys with
    | isTrue h1, isTrue h2 => isTrue (by rw [h1, h2])
    | isFalse h1, _ => isFalse (by intro e; cases e; exact h1 rfl)
    | _, isFalse h2 => isFalse (by intro e; cases e; exact h2 rfl)
/-- Decision of the equality of two property lists. -/
def Value.decEqFields : (a b : List (Str × Value)) → Decidable (a = b)
  | [], [] => isTrue rfl
  | [], _ :: _ => isFalse (by intro e; cases e)
  | _ :: _, [] => isFalse (by intro e; cases e)
  | (k, x) :: xs, (l, y) :: ys =>
    if hk : k = l then
      match Value.decEq x y, Value.decEqFields xs ys with
      | isTrue h1, isTrue h2 => isTrue (by rw [hk, h1, h2])
      | isFalse h1, _ => isFalse (by intro e; cases e; exact h1 rfl)
      | _, isFalse h2 => isFalse (by intro e; cases e; exact h2 rfl)
    else isFalse (by intro e; cases e; exact hk rfl)
end

instance : DecidableEq Value := Value.decEq

instance : Inhabited Value := ⟨.null⟩

instance : Nonempty Value := ⟨.null⟩

instance : Nonempty (List Value) := ⟨[]⟩

instance : Nonempty (List (Str × Value)) := ⟨[]⟩

/-- Test `typeof v === 'object'`, which holds of arrays, of objects and of
`null`. -/
def typeofObject : Value → Bool
  | .null => true
  | .arr _ => true
  | .obj _ => true
  | _ => false

/-- Test `v === null`. -/
def isNull : Value → Bool
  | .null => true
  | _ => false

/-- Test `typeof v === 'object' && v !== null`. -/
def isObjectLike : Value → Bool
  | .arr _ => true
  | .obj _ => true
  | _ => false

/-- Keys `"0"`, ..., of the `n` elements of an array, counted from `i`. -/
def indexKeys : Nat → Nat → List Str
  | 0, _ => []
  | n + 1, i => natToString i :: indexKeys n (i + 1)

/-- Call `Object.keys(v)` on an array or an object. -/
def objectKeys : Value → List Str
  | .obj fs => fs.map Prod.fst
  | .arr xs => indexKeys xs.length 0
  | _ => []

/-- The key `__proto__`, under which `Object.prototype` has an accessor for
the prototype of an object. -/
def protoKey : Str := "__proto__".toList

/-- Array index: the canonical decimal numeral of an integer below
`2 ^ 32 - 1`. -/
def isArrayIndex (k : Str) : Bool :=
  !k.isEmpty && k.all isDigit && decide (natToString (digitsVal k) = k) &&
    decide (digitsVal k < 4294967295)

/-- The own properties of an object that was given its properties in the
order of the list, in the order in which `Object.keys` enumerates them
(`OrdinaryOwnPropertyKeys`): the array-index keys first, in ascending numeric
order, then the other keys in the order of their creation. -/
def keyOrder (fs : List (Str × Value)) : List (Str × Value) :=
  (fs.filter (fun f => isArrayIndex f.1)).insertionSort
      (fun a b => digitsVal a.1 ≤ digitsVal b.1) ++
    fs.filter (fun f => !isArrayIndex f.1)

/-- The list is in the order in which `Object.keys` enumerates the properties
it holds. -/
def isKeyOrdered (fs : List (Str × Value)) : Bool :=
  decide (keyOrder fs = fs)

/-- Property read `o[k]` on an object with the prototype `Object.prototype`:
the own property `k`; without one, the prototype for the key `__proto__`
(given by the empty object, which `formatValue` prints alike: `\x7b\x7d`) and
`undefined` for a key that names no member of `Object.prototype`.  The
function members of `Object.prototype` (`isPrototypeMethod`) are not
modelled. -/
def lookupProp (fs : List (Str × Value)) (k : Str) : Value :=
  (fs.lookup k).getD (if k = protoKey then .obj [] else .undefined)

/-- Name of a function member of `Object.prototype`.  A read of such a key on
an object without an own property of that name gives the function, whose text
is implementation-defined. -/
def isPrototypeMethod (k : Str) : Bool :=
  k ∈ ["constructor".toList, "hasOwnProperty".toList, "isPrototypeOf".toList,
    "propertyIsEnumerable".toList, "toLocaleString".toList, "toString".toList,
    "valueOf".toList, "__defineGetter__".toList, "__defineSetter__".toList,
    "__lookupGetter__".toList, "__lookupSetter__".toList]

/-- Element of an array under the key `k`: the element at the index that `k`
is the decimal numeral of. -/
def indexProp : List Value → Nat → Str → Option Value
  | [], _, _ => none
  | x :: xs, i, k => if natToString i = k then some x else indexProp xs (i + 1) k

/-- Property read `v[k]`.  It throws on `null` and `undefined` (`none`); an
array or a string has its indices and `length`; a number or a boolean has no
own property.  The key `__proto__` reads the prototype of a value without an
own property of that name, given by a value that `formatValue` prints alike:
`\x7b\x7d` for `Object.prototype`, `[]` for `Array.prototype`, `""` for
`String.prototype`, `0` for `Number.prototype` and `false` for
`Boolean.prototype`.  The function members of the prototypes are not
modelled: any other key that is not an own property reads `undefined`. -/
def getProp (v : Value) (k : Str) : Option Value :=
  match v with
  | .null => none
  | .undefined => none
  | .obj fs => some (lookupProp fs k)
  | .arr xs =>
    if k = "length".toList then some (.num (.int xs.length))
    else some ((indexProp xs 0 k).getD (if k = protoKey then .arr [] else .undefined))
  | .str s =>
    if k = "length".toList then some (.num (.int s.length))
    else some ((indexProp (s.map (fun c => Value.str [c])) 0 k).getD
      (if k = protoKey then .str ['"', '"'] else .undefined))
  | .num _ => some (if k = protoKey then .num (.int 0) else .undefined)
  | .bool _ => some (if k = protoKey then .bool false else .undefined)

/-- Definition of the own property `k` with the value `v`: an existing
property keeps its place, a new one is added last. -/
def storeProp : List (Str × Value) → Str → Value → List (Str × Value)
  | [], k, v => [(k, v)]
  | (k1, v1) :: rest, k, v =>
    if k1 = k then (k, v) :: rest else (k1, v1) :: storeProp rest k v

/-- Assignment `o[k] = v` on an object made by the decoder, given by the list
of its own properties.  Under the key `__proto__` the assignment runs the
setter of `Object.prototype`, which stores no property: it replaces the
prototype of the object when `v` is an object, an array or `null`, and does
nothing otherwise.  The prototype is not part of the result; the one case in
which it would bear on it, a second assignment under `__proto__` to an object
that has lost its prototype by the assignment of `null`, is not modelled.
Under any other key the property is defined on the object. -/
def setProp (fs : List (Str × Value)) (k : Str) (v : Value) : List (Str × Value) :=
  if k = protoKey then fs else storeProp fs k v

/-! ## Serialisation by `JSON.stringify` -/

/-- Four hexadecimal digits of a code below 65536. -/
def hex4 (n : Nat) : Str :=
  let h (d : Nat) : Char := if d < 10 then digitChar d else Char.ofNat (87 + d)
  [h (n / 4096 % 16), h (n / 256 % 16), h (n / 16 % 16), h (n % 16)]

/-- Escape of one character inside a JSON string literal. -/
def quoteChar (c : Char) : Str :=
  if c = '"' then ['\\', '"']
  else if c = '\\' then ['\\', '\\']
  else if c.toNat = 8 then ['\\', 'b']
  else if c.toNat = 12 then ['\\', 'f']
  else if c.toNat = 10 then ['\\', 'n']
  else if c.toNat = 13 then ['\\', 'r']
  else if c.toNat = 9 then ['\\', 't']
  else if c.toNat < 32 then '\\' :: 'u' :: hex4 c.toNat
  else [c]

/-- Operation `QuoteJSONString`. -/
def quoteString (s : Str) : Str :=
  '"' :: (s.flatMap quoteChar ++ ['"'])

mutual
/-- Call `JSON.stringify(v)` without replacer and indentation; `none` is the
result `undefined`. -/
def stringify : Value → Option Str
  | .null => some "null".toList
  | .undefined => none
  | .bool b => some (if b then "true".toList else "false".toList)
  | .num (.inf _) => some "null".toList
  | .num x => some (numberToString x)
  | .str s => some (quoteString s)
  | .arr xs => some ('[' :: (join [','] (stringifyItems xs) ++ [']']))
  | .obj fs => some ('\x7b' :: (join [','] (stringifyFields fs) ++ ['\x7d']))
/-- Serialised elements of an array, `null` standing for an element without
serialisation. -/
def stringifyItems : List Value → List Str
  | [] => []
  | x :: xs => (stringify x).getD "null".toList :: stringifyItems xs
/-- Serialised members of an object; a property without serialisation is left
out. -/
def stringifyFields : List (Str × Value) → List Str
  | [] => []
  | (k, v) :: rest =>
    match stringify v with
    | some t => (quoteString k ++ ':' :: t) :: stringifyFields rest
    | none => stringifyFields rest
end

/-! ## Encoder (`formatValue`, `convertToToon`) -/

mutual
/-- Function `formatValue` of `src/script.js`. -/
def formatValue : Value → Str
  | .null => "null".toList
  | .undefined => []
  | .str s => s
  | .arr xs => '[' :: (join [','] (formatValues xs) ++ [']'])
  | .obj fs => (stringify (.obj fs)).getD []
  | .bool b => if b then "true".toList else "false".toList
  | .num x => numberToString x
/-- Expression `val.map(formatValue)`. -/
def formatValues : List Value → List Str
  | [] => []
  | x :: xs => formatValue x :: formatValues xs
end

/-- Conversion `String(v)` of a value that is not an object. -/
def toStringValue : Value → Str
  | .undefined => "undefined".toList
  | v => formatValue v

/-- Method `add` of the `Set` of sub-keys: a key already present keeps its
place. -/
def addKey (ks : List Str) (k : Str) : List Str :=
  if k ∈ ks then ks else ks ++ [k]

/-- The loop `value.forEach(...)` that collects the sub-keys of the elements
that are objects. -/
def collectKeys (items : List Value) : List Str :=
  items.foldl (fun acc item =>
    if isObjectLike item then (objectKeys item).foldl addKey acc else acc) []

/-- One row of an array of objects: the values of `item` under the header
keys, formatted and joined by commas.  Reading a key of `null` throws. -/
def formatRow (subKeys : List Str) (item : Value) : Option Str :=
  (mapThrow (fun k => (getProp item k).map formatValue) subKeys).map (join [','])

/-- Case 1 of `convertToToon`: the header `key[N]\x7bk1,k2\x7d: ` followed by
the rows, joined by spaces, and a line feed. -/
def arrayOfObjects (key : Str) (items : List Value) (indent : Nat) : Option Str :=
  let subKeys := collectKeys items
  (mapThrow (formatRow subKeys) items).map (fun rows =>
    spacing indent ++ key ++ '[' :: natToString items.length ++ ']' :: '\x7b' ::
      join [','] subKeys ++ '\x7d' :: ':' :: ' ' :: join [' '] rows ++ ['\n'])

/-- Test `isFlat` of case 2: no property of the object is an array or an
object. -/
def isFlat (fs : List (Str × Value)) : Bool :=
  fs.all (fun f => !typeofObject f.2 || isNull f.2)

mutual
/-- Function `convertToToon` of `src/script.js`.  A value that is not an
object is returned as `String(obj)`; otherwise one group of lines is emitted
for each key, in the order of `Object.keys`. -/
def convertToToon : Value → Nat → Option Str
  | .obj fs, indent => convertFields fs indent
  | .arr xs, indent => convertItems xs 0 indent
  | v, _ => some (toStringValue v)
/-- Body of the loop `for (const key of keys)` for the property `key` whose
value is `value`. -/
def convertField (key : Str) : Value → Nat → Option Str
  | .arr items, indent =>
    match items with
    | first :: _ =>
      if isObjectLike first then arrayOfObjects key items indent
      else some (spacing indent ++ key ++ ':' :: ' ' :: formatValue (.arr items) ++ ['\n'])
    | [] => some (spacing indent ++ key ++ ':' :: ' ' :: formatValue (.arr items) ++ ['\n'])
  | .obj sub, indent =>
    if isFlat sub ∧ sub.length > 0 then
      some (spacing indent ++ key ++ '\x7b' :: join [','] (sub.map Prod.fst) ++
        '\x7d' :: ':' :: ' ' :: join [','] (sub.map (fun f => formatValue f.2)) ++ ['\n'])
    else
      (convertFields sub (indent + 1)).map (fun inner =>
        spacing indent ++ key ++ ':' :: '\n' :: inner)
  | value, indent =>
    some (spacing indent ++ key ++ ':' :: ' ' :: formatValue value ++ ['\n'])
/-- The loop over the properties of an object. -/
def convertFields : List (Str × Value) → Nat → Option Str
  | [], _ => some []
  | (key, value) :: rest, indent =>
    match convertField key value indent with
    | none => none
    | some group => (convertFields rest indent).map (fun tail => group ++ tail)
/-- The loop over the elements of an array given as `obj`, whose keys are its
indices. -/
def convertItems : List Value → Nat → Nat → Option Str
  | [], _, _ => some []
  | value :: rest, i, indent =>
    match convertField (natToString i) value indent with
    | none => none
    | some group => (convertItems rest (i + 1) indent).map (fun tail => group ++ tail)
end

/-! ## Decoder (`parseValue`, `parseToon`) -/

/-- Function `parseValue` of `src/script.js` on a string, with `fuel` bounding
the depth of the recursion through `[...]`.  Every recursive call is on a
string at least two characters shorter, so the length of `val` is fuel
enough, and with no fuel left `val` is the empty string, which is returned. -/
def parseValueAux : Nat → Str → Value
  | 0, val => .str val
  | fuel + 1, val =>
    if val = "null".toList then .null
    else
      match (if trim val = [] then none else stringToNumber val) with
      | some x => .num x
      | none =>
        if val = "true".toList then .bool true
        else if val = "false".toList then .bool false
        else if val.head? = some '[' ∧ val.getLast? = some ']' then
          .arr ((split ',' (val.drop 1).dropLast).map (parseValueAux fuel))
        else .str val

/-- Function `parseValue` of `src/script.js` on a string. -/
def parseValueStr (val : Str) : Value := parseValueAux val.length val

/-- Function `parseValue` of `src/script.js`; the argument `none` is
`undefined`, on which `val.startsWith` throws. -/
def parseValue : Option Str → Option Value
  | none => none
  | some val => some (parseValueStr val)

/-- Tail `\s*(.*)$` of the line patterns: the white space after the colon is
skipped and the rest of the line is captured; it must be free of line
terminators, which `.` does not match. -/
def valueTail (r : Str) : Option Str :=
  let v := r.dropWhile isSpace
  if v.any isLineTerminator then none else some v

/-- Pattern `/^(\w+)\[\d+\]\{([^}]+)\}:\s*(.*)$/`; the result holds the three
captured groups. -/
def arrayMatch (t : Str) : Option (Str × Str × Str) :=
  let name := t.takeWhile isWord
  if name = [] then none
  else
    match t.dropWhile isWord with
    | '[' :: r1 =>
      if r1.takeWhile isDigit = [] then none
      else
        match r1.dropWhile isDigit with
        | ']' :: '\x7b' :: r2 =>
          let fields := r2.takeWhile (fun c => c != '\x7d')
          if fields = [] then none
          else
            match r2.dropWhile (fun c => c != '\x7d') with
            | '\x7d' :: ':' :: r3 => (valueTail r3).map (fun v => (name, fields, v))
            | _ => none
        | _ => none
    | _ => none

/-- Pattern `/^(\w+)\{([^}]+)\}:\s*(.*)$/`. -/
def objectMatch (t : Str) : Option (Str × Str × Str) :=
  let name := t.takeWhile isWord
  if name = [] then none
  else
    match t.dropWhile isWord with
    | '\x7b' :: r2 =>
      let fields := r2.takeWhile (fun c => c != '\x7d')
      if fields = [] then none
      else
        match r2.dropWhile (fun c => c != '\x7d') with
        | '\x7d' :: ':' :: r3 => (valueTail r3).map (fun v => (name, fields, v))
        | _ => none
    | _ => none

/-- Pattern `/^(\w+):$/`. -/
def nestedMatch (t : Str) : Option Str :=
  let name := t.takeWhile isWord
  if name = [] then none
  else
    match t.dropWhile isWord with
    | [':'] => some name
    | _ => none

/-- Pattern `/^(\w+):\s*(.*)$/`. -/
def primitiveMatch (t : Str) : Option (Str × Str) :=
  let name := t.takeWhile isWord
  if name = [] then none
  else
    match t.dropWhile isWord with
    | ':' :: r => (valueTail r).map (fun v => (name, v))
    | _ => none

/-- The loop `keys.forEach((k, idx) => obj[k] = parseValue(vals[idx]))`, from
index `idx` on, on the object built so far. -/
def fillObject (vals : List Str) :
    List Str → Nat → List (Str × Value) → Option (List (Str × Value))
  | [], _, acc => some acc
  | k :: ks, idx, acc =>
    match parseValue vals[idx]? with
    | none => none
    | some v => fillObject vals ks (idx + 1) (setProp acc k v)

/-- The object that a header with the fields `keys` makes of the
comma-separated values of `row`. -/
def rowObject (keys : List Str) (row : Str) : Option Value :=
  (fillObject (split ',' row) keys 0 []).map Value.obj

/-- A frame of the decoder stack: the object being filled, its indentation,
and the key under which its parent holds it.  The parent of a frame is the
frame below it; it holds the object by reference, so what the frame has
gathered is the value of `key` in the parent. -/
structure Frame where
  key : Str
  obj : List (Str × Value)
  indent : Int

/-- The decoder stack, which is never empty: its top frame and the frames
below it, the root frame last. -/
structure Stack where
  top : Frame
  below : List Frame

/-- The frame `parent` seen with the content of its child frame `child`. -/
def attach (child parent : Frame) : Frame :=
  { parent with obj := setProp parent.obj child.key (.obj child.obj) }

/-- The loop `while (stack.length > 1 && top.indent >= indent) stack.pop()`. -/
def popFrames (indent : Int) : Frame → List Frame → Stack
  | top, [] => ⟨top, []⟩
  | top, parent :: rest =>
    if top.indent ≥ indent then popFrames indent (attach top parent) rest
    else ⟨top, parent :: rest⟩

/-- The object of the root frame, with the content of every frame above it. -/
def rootObject : Frame → List Frame → List (Str × Value)
  | top, [] => top.obj
  | top, parent :: rest => rootObject (attach top parent) rest

/-- Expression `line.search(/\S/)`: the number of leading white-space
characters, or `-1` when the line has no other character. -/
def lineIndent (line : Str) : Int :=
  if line.all isSpace then -1 else ((line.takeWhile isSpace).length : Int)

/-- Assignment `parent[key] = v` on the top frame. -/
def assign (st : Stack) (key : Str) (v : Value) : Stack :=
  { st with top := { st.top with obj := setProp st.top.obj key v } }

/-- Body of the loop over the lines of `parseToon`. -/
def processLine (st : Stack) (line : Str) : Option Stack :=
  let indent := lineIndent line
  let trimmed := trim line
  let st1 := popFrames indent st.top st.below
  match arrayMatch trimmed with
  | some (key, fields, valuesStr) =>
    (mapThrow (rowObject (split ',' fields)) (split ' ' valuesStr)).map
      (fun rows => assign st1 key (.arr rows))
  | none =>
    match objectMatch trimmed with
    | some (key, fields, vals) =>
      (rowObject (split ',' fields) vals).map (fun o => assign st1 key o)
    | none =>
      match nestedMatch trimmed with
      | some key =>
        some ⟨⟨key, [], indent⟩, (assign st1 key (.obj [])).top :: st1.below⟩
      | none =>
        match primitiveMatch trimmed with
        | some (key, val) => (parseValue (some val)).map (fun v => assign st1 key v)
        | none => some st1

/-- The loop over the lines. -/
def processLines : Stack → List Str → Option Stack
  | st, [] => some st
  | st, line :: rest =>
    match processLine st line with
    | none => none
    | some st1 => processLines st1 rest

/-- The lines of a text that are not blank. -/
def nonBlankLines (toonString : Str) : List Str :=
  (split '\n' toonString).filter (fun line => trim line != [])

/-- Function `parseToon` of `src/script.js`. -/
def parseToon (toonString : Str) : Option Value :=
  (processLines ⟨⟨[], [], -1⟩, []⟩ (nonBlankLines toonString)).map
    (fun st => .obj (rootObject st.top st.below))

/-! ## Definitions that follow the wording of the specification -/

/-- Name made of word characters: `[A-Za-z0-9_]+`. -/
def isWordName (k : Str) : Bool := !k.isEmpty && k.all isWord

/-- Word-character name other than `__proto__`: a key under which the decoder
stores a field. -/
def isFieldName (k : Str) : Bool := isWordName k && k != protoKey

/-- The decimal is the one that `String` prints for a Number: rounding to
double precision leaves it as it is. -/
def isNumber (x : JSNum) : Bool := decide (toNumber x = x)

/-- Number, boolean or string. -/
def isScalar : Value → Bool
  | .num _ => true
  | .bool _ => true
  | .str _ => true
  | _ => false

/-- Object that is neither `null` nor an array. -/
def isPlainObject : Value → Bool
  | .obj _ => true
  | _ => false

/-- The keys of a list in first-seen order: every key once, at the place of
its first occurrence. -/
def firstSeen : List Str → List Str
  | [] => []
  | k :: ks => k :: (firstSeen ks).filter (fun x => x != k)

/-- Union of the keys of the elements, in first-seen order. -/
def unionKeys (items : List Value) : List Str :=
  firstSeen (items.flatMap objectKeys)

/-- Text of the field `k` of a row: `formatValue` of the value the element has
for `k`, the empty string when the element lacks `k`. -/
def fieldText (item : Value) (k : Str) : Str :=
  match item with
  | .obj fs =>
    match fs.lookup k with
    | some v => formatValue v
    | none => []
  | _ => []

/-- Name of a member of `Object.prototype`: the accessor `__proto__` or one of
its functions. -/
def isPrototypeMember (k : Str) : Bool := k == protoKey || isPrototypeMethod k

/-- Every key of `keys` that the object lacks names no member of
`Object.prototype`, so that reading it gives `undefined`. -/
def lacksNoMember (keys : List Str) (item : Value) : Bool :=
  match item with
  | .obj fs => keys.all (fun k => (fs.lookup k).isSome || !isPrototypeMember k)
  | _ => true

/-- The array `[\x7b"x":1\x7d,\x7b"__proto__":2\x7d]`, whose first element lacks
the key `__proto__` of the second. -/
def protoRows : List Value :=
  [.obj [("x".toList, .num (.int 1))], .obj [(protoKey, .num (.int 2))]]

/-- Row of an element: the comma-join of its field texts over the header
keys. -/
def specRow (keys : List Str) (item : Value) : Str :=
  join [','] (keys.map (fieldText item))

/-- Scalar, `null`, or array of scalars. -/
def isScalarOrScalarArray : Value → Bool
  | .null => true
  | .arr xs => xs.all isScalar
  | v => isScalar v

/-- Scalar or `null`. -/
def isScalarOrNull : Value → Bool
  | .null => true
  | v => isScalar v

/-- The group of lines `2n spaces, key, ": ", formatValue(value), newline`. -/
def primitiveGroup (key : Str) (value : Value) (n : Nat) : Str :=
  spacing n ++ key ++ ':' :: ' ' :: formatValue value ++ ['\n']

/-- The inline line `key\x7bk1,k2\x7d: v1,v2` of a flat object at indent `n`. -/
def inlineGroup (key : Str) (fs : List (Str × Value)) (n : Nat) : Str :=
  spacing n ++ key ++ '\x7b' :: join [','] (fs.map Prod.fst) ++
    '\x7d' :: ':' :: ' ' :: join [','] (fs.map (fun f => formatValue f.2)) ++ ['\n']

/-- A group of lines in array-header form: `2n spaces`, then
`key[N]\x7b...\x7d: `, rows and a newline. -/
def IsHeaderGroup (key : Str) (count n : Nat) (out : Str) : Prop :=
  ∃ fields rows : Str, out = spacing n ++ key ++ '[' :: natToString count ++
    ']' :: '\x7b' :: fields ++ '\x7d' :: ':' :: ' ' :: rows ++ ['\n']

/-- The object `\x7b"a":\x7b"b":\x7b"c":1\x7d\x7d\x7d`. -/
def nestedExample : Value :=
  .obj [("a".toList, .obj [("b".toList, .obj [("c".toList, .num (.int 1))])])]

/-- The object `\x7b"a":\x7b"b":\x7b"c":\x7b"d":1\x7d\x7d\x7d\x7d`. -/
def deeperExample : Value :=
  .obj [("a".toList, .obj [("b".toList, .obj [("c".toList,
    .obj [("d".toList, .num (.int 1))])])])]

/-- The object `\x7b"a":[\x7b"x":1\x7d,\x7b"y":2\x7d]\x7d`. -/
def heterogeneousExample : Value :=
  .obj [("a".toList, .arr [.obj [("x".toList, .num (.int 1))],
    .obj [("y".toList, .num (.int 2))]])]

/-- The object `\x7b"a":\x7b\x7d\x7d`, whose field is the empty object. -/
def emptyObjectExample : Value := .obj [("a".toList, .obj [])]

/-- The object `\x7b"a":\x7b"b":[1]\x7d\x7d`, whose field is an object with an
array of scalars. -/
def arrayFieldExample : Value :=
  .obj [("a".toList, .obj [("b".toList, .arr [.num (.int 1)])])]

/-- The array `[\x7b"x":1\x7d,5]`, whose first element only is an object. -/
def mixedArray : List Value := [.obj [("x".toList, .num (.int 1))], .num (.int 5)]

/-- Character of the numeral of an integer: a digit, the point, the exponent
mark or a sign. -/
def isNumChar (c : Char) : Bool :=
  isDigit c || c == '.' || c == 'e' || c == '+' || c == '-'

/-- The canonical decimal text of an integer. -/
def decimalText (n : Int) : Str :=
  if n < 0 then '-' :: natToString n.natAbs else natToString n.natAbs

/-- Integer that a Number holds, boolean or `null`. -/
def isIntBoolNull : Value → Bool
  | .num (.int n) => isNumber (.int n)
  | .bool _ => true
  | .null => true
  | _ => false

/-- Non-empty string without comma and without white space that `parseValue`
maps to itself. -/
def isSafeString (s : Str) : Bool :=
  !s.isEmpty && !s.contains ',' && s.all (fun c => !isSpace c) &&
    decide (parseValueStr s = .str s)

/-- Safe scalar: an integer that a Number holds, a boolean, `null`, or a safe
string. -/
def isSafeScalar : Value → Bool
  | .num (.int n) => isNumber (.int n)
  | .bool _ => true
  | .null => true
  | .str s => isSafeString s
  | _ => false

/-- Text of a safe scalar: what the lemmas on lines need of it. -/
structure SafeText (v : Value) (t : Str) : Prop where
  ne : t ≠ []
  noSpace : ∀ c ∈ t, isSpace c = false
  noComma : ',' ∉ t
  parse : parseValueStr t = v

/-- A text with each of its lines prefixed by two spaces. -/
def indentLines (text : Str) : Str :=
  join ['\n'] ((split '\n' text).map (fun line => ' ' :: ' ' :: line))

/-- The frame that stands for `top` once the text is nested under the key
`k`: the root frame becomes the frame of `k`, at indent 0; any other frame
is two columns deeper. -/
def liftTop (k : Str) (top : Frame) (below : List Frame) : Frame :=
  match below with
  | [] => ⟨k, top.obj, 0⟩
  | _ :: _ => { top with indent := top.indent + 2 }

/-- The frames below the top frame once the text is nested under the key `k`,
ending in the new root frame. -/
def liftBelow (k : Str) : List Frame → List Frame
  | [] => [⟨[], [(k, .obj [])], -1⟩]
  | f :: rest => liftTop k f rest :: liftBelow k rest

/-- The decoder stack once the text is nested under the key `k`. -/
def liftStack (k : Str) (st : Stack) : Stack :=
  ⟨liftTop k st.top st.below, liftBelow k st.below⟩

/-- Line that matches none of the four grammar classes: array-header,
object-header, nested-opener, primitive. -/
def isUnmatched (line : Str) : Bool :=
  (arrayMatch (trim line)).isNone && (objectMatch (trim line)).isNone &&
    (nestedMatch (trim line)).isNone && (primitiveMatch (trim line)).isNone

/-- Non-empty object whose keys are distinct word-character names other than
`__proto__` and whose fields are all scalars of the class `p`. -/
def isSafeFlatObject (p : Value → Bool) (fs : List (Str × Value)) : Bool :=
  !fs.isEmpty && fs.all (fun f => isFieldName f.1 && p f.2) &&
    decide ((fs.map Prod.fst).Nodup)

/-- Object with the key list `keys`, in that order, and only fields of the
class `p`. -/
def isSafeRow (p : Value → Bool) (keys : List Str) (item : Value) : Bool :=
  match item with
  | .obj fs => decide (fs.map Prod.fst = keys) && fs.all (fun f => p f.2)
  | _ => false

/-- Non-empty array of non-empty objects that all have the same key list, of
distinct word-character names, in the same order, and only fields of the
class `p`. -/
def isUniformArray (p : Value → Bool) (items : List Value) : Bool :=
  match items with
  | .obj fs :: _ => isSafeFlatObject p fs && items.all (isSafeRow p (fs.map Prod.fst))
  | _ => false

/-- Top-level field of the round-trip class over the scalars `p`: a scalar of
`p`, a non-empty object of such scalars, or a uniform array of them. -/
def isRoundTripField (p : Value → Bool) (v : Value) : Bool :=
  p v ||
    (match v with
     | .obj fs => isSafeFlatObject p fs
     | .arr items => isUniformArray p items
     | _ => false)

/-- Object of the round-trip class over the scalars `p`: its keys are
distinct word-character names other than `__proto__` and each of its fields
is a round-trip field. -/
def isRoundTripObject (p : Value → Bool) (fs : List (Str × Value)) : Bool :=
  fs.all (fun f => isFieldName f.1 && isRoundTripField p f.2) &&
    decide ((fs.map Prod.fst).Nodup)

/-- What the proofs need of a class `p` of scalars: its members are not
arrays or objects, and the text of a member has the properties of
`SafeText`. -/
structure ScalarClass (p : Value → Bool) : Prop where
  scalar : ∀ v, p v = true → isObjectLike v = false
  text : ∀ v, p v = true → SafeText v (formatValue v)

/-- The constant `exampleData` of `src/script.js`. -/
def exampleData : List (Str × Value) :=
  [("users".toList, .arr [
      .obj [("id".toList, .num (.int 1)), ("name".toList, .str "Sreeni".toList),
        ("role".toList, .str "admin".toList),
        ("email".toList, .str "sreeni@example.com".toList)],
      .obj [("id".toList, .num (.int 2)), ("name".toList, .str "Krishna".toList),
        ("role".toList, .str "admin".toList),
        ("email".toList, .str "krishna@example.com".toList)],
      .obj [("id".toList, .num (.int 3)), ("name".toList, .str "Aaron".toList),
        ("role".toList, .str "user".toList),
        ("email".toList, .str "aaron@example.com".toList)]]),
   ("metadata".toList, .obj [("total".toList, .num (.int 3)),
      ("last_updated".toList, .str "2024-01-15T10:30:00Z".toList)])]

/-- The object of the end-to-end example of the specification: one user and
the metadata `total: 1`. -/
def usersExample : List (Str × Value) :=
  [("users".toList, .arr [.obj [("id".toList, .num (.int 1)),
      ("name".toList, .str "Sreeni".toList)]]),
   ("metadata".toList, .obj [("total".toList, .num (.int 1))])]

/-- What a line of the encoding of the field `k: v` must do at top level:
it has no line feed, it is not blank, and, on a stack that closes to the root
frame `root` at indent 0, the decoder leaves a stack that closes to `root`
with `v` assigned under `k`. -/
structure GoodLine (k : Str) (v : Value) (line : Str) : Prop where
  noLineFeed : '\n' ∉ line
  notBlank : trim line ≠ []
  decode : ∀ (st : Stack) (root : Frame), popFrames 0 st.top st.below = ⟨root, []⟩ →
    ∃ st1, processLine st line = some st1 ∧
      popFrames 0 st1.top st1.below = ⟨{ root with obj := setProp root.obj k v }, []⟩

/-- The comma-join of the formatted values of the fields of an object. -/
def valuesText (fs : List (Str × Value)) : Str :=
  join [','] (fs.map (fun f => formatValue f.2))

/-- Normal form of a Number: the mantissa of a non-integer is not a multiple
of ten, and the decimal is the one that `String` prints for a Number. -/
def isNormalNum : JSNum → Bool
  | .dec m k => decide (m % 10 ≠ 0) && isNumber (.dec m k)
  | x => isNumber x

/-- Comma, colon and space do not occur in the string. -/
def isCommaColonSpaceFree (s : Str) : Bool :=
  s.all (fun c => c != ',' && c != ':' && c != ' ')

/-- Scalar of the class of claim C1 as it is stated: a number, a boolean,
`null`, or a string free of commas, colons and spaces. -/
def isStatedScalar : Value → Bool
  | .num _ => true
  | .bool _ => true
  | .null => true
  | .str s => isCommaColonSpaceFree s
  | _ => false

/-- Field of the class of claim C1 as it is stated: a scalar, a flat
sub-object, or an array of non-null objects with one key list. -/
def isStatedField (v : Value) : Bool :=
  isStatedScalar v ||
    (match v with
     | .obj fs => fs.all (fun f => isStatedScalar f.2)
     | .arr (.obj fs0 :: rest) =>
       (Value.obj fs0 :: rest).all (fun item =>
         match item with
         | .obj fs => decide (fs.map Prod.fst = fs0.map Prod.fst) &&
             fs.all (fun f => isStatedScalar f.2)
         | _ => false)
     | _ => false)

/-- Object of the class of claim C1 as it is stated. -/
def isStatedObject (fs : List (Str × Value)) : Bool :=
  fs.all (fun f => isStatedField f.2)

/-- Scalar that survives the round trip: a number in normal form, a boolean,
`null`, or a safe string without colon. -/
def isPlainScalar : Value → Bool
  | .num x => isNormalNum x
  | .bool _ => true
  | .null => true
  | .str s => isSafeString s && !s.contains ':'
  | _ => false

/-- Field of the class that survives the round trip: a plain scalar, a flat
sub-object of plain scalars (possibly empty), or a uniform array of them. -/
def isPlainField (v : Value) : Bool :=
  isRoundTripField isPlainScalar v || decide (v = Value.obj [])

/-- Object of the class that survives the round trip: its keys are distinct
word-character names other than `__proto__` and each of its fields is a plain
field. -/
def isPlainTree (fs : List (Str × Value)) : Bool :=
  fs.all (fun f => isFieldName f.1 && isPlainField f.2) &&
    decide ((fs.map Prod.fst).Nodup)

/-- An object with a string, a non-integer number, a uniform array, an empty
sub-object and a flat sub-object. -/
def plainExample : List (Str × Value) :=
  [("name".toList, .str "Ada".toList),
   ("score".toList, .num (.dec 15 0)),
   ("tags".toList, .arr [.obj [("id".toList, .num (.int 1)), ("ok".toList, .bool true)],
      .obj [("id".toList, .num (.int (-2))), ("ok".toList, .null)]]),
   ("extra".toList, .obj []),
   ("pos".toList, .obj [("x".toList, .num (.int 7)), ("y".toList, .str "n/a".toList)])]

/-- The two fields `a: 1` and `b: true`. -/
def firstFields : List (Str × Value) :=
  [("a".toList, .num (.int 1)), ("b".toList, .bool true)]

/-- The two fields `c: [x: 2]` and `d: e: null`. -/
def secondFields : List (Str × Value) :=
  [("c".toList, .arr [.obj [("x".toList, .num (.int 2))]]),
   ("d".toList, .obj [("e".toList, .null)])]

/-- A row has fewer comma-separated values than the header `fields` has
comma-separated field names. -/
def hasFewerValues (fields row : Str) : Bool :=
  decide ((split ',' row).length < (split ',' fields).length)

/-- The line is classified as an array-header and one of its space-separated
rows has fewer values than the header has fields, or it is classified as an
object-header (the array-header class having failed) and it has fewer values
than the header has fields. -/
def lineRaises (line : Str) : Bool :=
  match arrayMatch (trim line) with
  | some (_, fields, valuesStr) => (split ' ' valuesStr).any (hasFewerValues fields)
  | none =>
    match objectMatch (trim line) with
    | some (_, fields, vals) => hasFewerValues fields vals
    | none => false

/-- The line with the digits of its declared count replaced by `digits`: the
digits that follow the bracket after the leading name.  A line without a
bracket after its leading name is left as it is. -/
def replaceCount (digits line : Str) : Str :=
  let indent := line.takeWhile isSpace
  let body := line.dropWhile isSpace
  match body.dropWhile isWord with
  | '[' :: r1 => indent ++ (body.takeWhile isWord ++ '[' :: (digits ++ r1.dropWhile isDigit))
  | _ => line

/-- The frames of the stack from the top frame down to the bottom frame, each
given by its key and its indent. -/
def stackShape (st : Stack) : List (Str × Int) :=
  (st.top :: st.below).map (fun f => (f.key, f.indent))

/-- The stack invariant: the bottom frame is the root frame, of indent -1, and
the indents of the frames strictly increase from the bottom to the top. -/
def stackInvariant (st : Stack) : Bool :=
  decide ((stackShape st).getLast? = some ([], -1)) &&
    decide ((stackShape st).Pairwise (fun upper lower => lower.2 < upper.2))

/-- The line is classified as a nested-opener: neither header class matches
it and the nested-opener class does. -/
def isOpener (line : Str) : Bool :=
  (arrayMatch (trim line)).isNone && (objectMatch (trim line)).isNone &&
    (nestedMatch (trim line)).isSome

/-- The key of a nested-opener line. -/
def openerKey (line : Str) : Str :=
  (nestedMatch (trim line)).getD []

/-- The nested-openers among the lines that no later line of indent less than
or equal to their own has closed, in the order of the text, each given by its
key and its indent. -/
def openOpeners : List Str → List (Str × Int)
  | [] => []
  | line :: rest =>
    if isOpener line && rest.all (fun later => decide (lineIndent line < lineIndent later)) then
      (openerKey line, lineIndent line) :: openOpeners rest
    else openOpeners rest

/-- The parent of a line of the given indent that follows the lines: the most
recently opened nested-opener that is still open and whose indent is strictly
less than that of the line, or the root (empty key, indent -1) when there is
none. -/
def parentOf (lines : List Str) (indent : Int) : Str × Int :=
  (((openOpeners lines).filter (fun o => decide (o.2 < indent))).getLast?).getD ([], -1)

mutual
/-- No key and no string value inside the value contains a line feed. -/
def noLineBreak : Value → Bool
  | .str s => s.all (fun c => c != '\n')
  | .arr xs => noLineBreakItems xs
  | .obj fs => noLineBreakFields fs
  | _ => true
/-- No key and no string value inside the elements contains a line feed. -/
def noLineBreakItems : List Value → Bool
  | [] => true
  | x :: xs => noLineBreak x && noLineBreakItems xs
/-- No key and no string value inside the fields contains a line feed. -/
def noLineBreakFields : List (Str × Value) → Bool
  | [] => true
  | (k, v) :: rest => k.all (fun c => c != '\n') && noLineBreak v && noLineBreakFields rest
end

/-- The text with two spaces put in front of each of its lines, from a place
that is the start of a line or not.  A line starts at the start of the text
and after each line feed; the empty remainder after a last line feed is not a
line. -/
def indentFrom : Bool → Str → Str
  | _, [] => []
  | atStart, c :: cs =>
    if atStart then ' ' :: ' ' :: c :: indentFrom (c == '\n') cs
    else c :: indentFrom (c == '\n') cs

/-- The text with two spaces prefixed to each of its lines. -/
def indentEach (text : Str) : Str := indentFrom true text

/-- The lines of a text: the pieces between its line feeds, without the empty
remainder after a last line feed. -/
def textLines (text : Str) : List Str :=
  if (split '\n' text).getLast? = some [] then (split '\n' text).dropLast
  else split '\n' text

mutual
/-- The lines below the line of a field, each given by its nesting depth
under the field and its key: the lines of the fields of the value when the
value is encoded as a nested block (an object that is empty or that holds an
object or an array), none otherwise. -/
def valueLines : Value → List (Nat × Str)
  | .obj sub =>
    if isFlat sub ∧ sub.length > 0 then []
    else (fieldLines sub).map (fun f => (f.1 + 1, f.2))
  | _ => []
/-- The lines of the fields of an object, in the order of the text, each
given by its nesting depth inside the object and its key. -/
def fieldLines : List (Str × Value) → List (Nat × Str)
  | [] => []
  | (k, v) :: rest => (0, k) :: (valueLines v ++ fieldLines rest)
end

/-- An object with a nested block, an inline object and an array of rows. -/
def shiftExample : List (Str × Value) :=
  [("a".toList, .obj [("b".toList, .obj [("c".toList, .num (.int 1))]),
      ("d".toList, .obj [])]),
   ("e".toList, .arr [.obj [("x".toList, .str "p q".toList)]]),
   ("f".toList, .str "two words".toList)]

/-! ## The encoder -/


theorem formatValues_eq_map (xs : List Value) : formatValues xs = xs.map formatValue := by
  induction xs with
  | nil => simp [formatValues]
  | cons x xs ih => simp [formatValues, ih]

theorem mapThrow_some {α β : Type} (f : α → Option β) (g : α → β) (l : List α)
    (h : ∀ x ∈ l, f x = some (g x)) : mapThrow f l = some (l.map g) := by
  induction l with
  | nil => simp [mapThrow]
  | cons x xs ih =>
    have hx := h x (List.mem_cons_self _ _)
    have hxs := ih (fun y hy => h y (List.mem_cons_of_mem _ hy))
    simp [mapThrow, hx, hxs]

theorem foldl_addKey (ks acc : List Str) :
    ks.foldl addKey acc = acc ++ (firstSeen ks).filter (fun x => decide (x ∉ acc)) := by
  induction ks generalizing acc with
  | nil => simp [firstSeen]
  | cons k ks ih =>
    simp only [List.foldl_cons, firstSeen]
    by_cases hk : k ∈ acc
    · simp only [addKey, hk, if_true, ih]
      congr 1
      simp only [List.filter_cons, hk, not_true_eq_false, decide_False, Bool.false_eq_true,
        if_false, List.filter_filter]
      apply List.filter_congr
      intro x _
      by_cases hx : x ∈ acc
      · simp [hx]
      · have : x ≠ k := fun e => hx (e ▸ hk)
        simp [hx, this]
    · simp only [addKey, hk, if_false, ih]
      simp only [List.filter_cons, hk, not_false_eq_true, decide_True, if_true,
        List.filter_filter, List.append_assoc, List.singleton_append]
      congr 2
      apply List.filter_congr
      intro x _
      by_cases hx : x ∈ acc <;> by_cases hxk : x = k <;> simp [hx, hxk]

theorem collectKeys_foldl (items : List Value) (acc : List Str) :
    items.foldl (fun acc item =>
      if isObjectLike item then (objectKeys item).foldl addKey acc else acc) acc
      = (items.flatMap objectKeys).foldl addKey acc := by
  induction items generalizing acc with
  | nil => simp
  | cons x xs ih =>
    simp only [List.foldl_cons, List.flatMap_cons, List.foldl_append, ih]
    cases x <;> simp [isObjectLike, objectKeys]

theorem collectKeys_eq_unionKeys (items : List Value) : collectKeys items = unionKeys items := by
  unfold collectKeys unionKeys
  rw [collectKeys_foldl, foldl_addKey]
  simp

theorem formatRow_obj (keys : List Str) (fs : List (Str × Value))
    (h : lacksNoMember keys (.obj fs) = true) :
    formatRow keys (.obj fs) = some (specRow keys (.obj fs)) := by
  unfold formatRow specRow
  rw [mapThrow_some _ (fieldText (.obj fs))]
  · simp
  · intro k hk
    simp only [lacksNoMember, List.all_eq_true] at h
    have hk2 := h k hk
    simp only [getProp, lookupProp, fieldText, Option.map_some']
    cases hl : fs.lookup k with
    | some v => simp
    | none =>
      rw [hl] at hk2
      have hne : k ≠ protoKey := by
        intro e
        simp [isPrototypeMember, e] at hk2
      simp [formatValue, hne]


theorem isPlainObject_iff {v : Value} : isPlainObject v = true ↔ ∃ fs, v = .obj fs := by
  cases v <;> simp [isPlainObject]

theorem convertToToon_single (k : Str) (v : Value) (n : Nat) :
    convertToToon (.obj [(k, v)]) n = convertField k v n := by
  simp only [convertToToon, convertFields]
  cases convertField k v n <;> simp


theorem convertField_plainArray (k : Str) (A : List Value) (n : Nat) (hne : A ≠ [])
    (hobj : ∀ item ∈ A, isPlainObject item = true)
    (hown : ∀ item ∈ A, lacksNoMember (unionKeys A) item = true) :
    convertField k (.arr A) n =
      some (spacing n ++ k ++ '[' :: natToString A.length ++ ']' :: '\x7b' ::
        join [','] (unionKeys A) ++ '\x7d' :: ':' :: ' ' ::
        join [' '] (A.map (specRow (unionKeys A))) ++ ['\n']) := by
  cases A with
  | nil => exact absurd rfl hne
  | cons first rest =>
    have hfirst : isObjectLike first = true := by
      obtain ⟨fs, rfl⟩ := isPlainObject_iff.mp (hobj first (List.mem_cons_self _ _))
      rfl
    simp only [convertField, hfirst, if_true, arrayOfObjects, collectKeys_eq_unionKeys]
    rw [mapThrow_some _ (specRow (unionKeys (first :: rest)))]
    · simp
    · intro item hitem
      have ho := hown item hitem
      obtain ⟨fs, rfl⟩ := isPlainObject_iff.mp (hobj item hitem)
      exact formatRow_obj _ fs ho

theorem mapThrow_isSome {α β : Type} (f : α → Option β) (l : List α)
    (h : ∀ x ∈ l, ∃ y, f x = some y) : ∃ ys, mapThrow f l = some ys := by
  induction l with
  | nil => exact ⟨[], rfl⟩
  | cons x xs ih =>
    obtain ⟨y, hy⟩ := h x (List.mem_cons_self _ _)
    obtain ⟨ys, hys⟩ := ih (fun z hz => h z (List.mem_cons_of_mem _ hz))
    exact ⟨y :: ys, by simp [mapThrow, hy, hys]⟩

theorem getProp_isSome (item : Value) (k : Str) (h1 : item ≠ .null) (h2 : item ≠ .undefined) :
    ∃ v, getProp item k = some v := by
  cases item with
  | null => exact absurd rfl h1
  | undefined => exact absurd rfl h2
  | bool b => exact ⟨_, rfl⟩
  | num x => exact ⟨_, rfl⟩
  | obj fs => exact ⟨_, rfl⟩
  | str s =>
    by_cases hk : k = "length".toList
    · exact ⟨_, if_pos hk⟩
    · exact ⟨_, if_neg hk⟩
  | arr xs =>
    by_cases hk : k = "length".toList
    · exact ⟨_, if_pos hk⟩
    · exact ⟨_, if_neg hk⟩

theorem formatRow_isSome (keys : List Str) (item : Value) (h1 : item ≠ .null)
    (h2 : item ≠ .undefined) : ∃ r, formatRow keys item = some r := by
  unfold formatRow
  obtain ⟨ys, hys⟩ := mapThrow_isSome (fun k => (getProp item k).map formatValue) keys
    (fun k _ => by
      obtain ⟨v, hv⟩ := getProp_isSome item k h1 h2
      exact ⟨formatValue v, by simp [hv]⟩)
  exact ⟨join [','] ys, by simp [hys]⟩

theorem isObjectLike_ne {v : Value} (h : isObjectLike v = true) :
    v ≠ .null ∧ v ≠ .undefined := by
  cases v <;> simp [isObjectLike] at h <;>
    exact ⟨(fun e => by cases e), (fun e => by cases e)⟩

theorem primitiveGroup_not_header (key : Str) (v : Value) (count n : Nat) :
    ¬ IsHeaderGroup key count n (primitiveGroup key v n) := by
  rintro ⟨fields, rows, h⟩
  unfold primitiveGroup at h
  simp only [List.append_assoc, List.cons_append] at h
  have h1 := List.append_cancel_left (List.append_cancel_left h)
  simp at h1


/-- Claim C3, refuted as stated: the encoding of the object
`a: b: c: 1` at indent 0 is not the text `"a:\n  b:\n    c: 1\n"`. -/
theorem C3_counterexample :
    convertToToon nestedExample 0 ≠ some "a:\n  b:\n    c: 1\n".toList := by
  decide

/-- Claim C3, amended: the encoding of `a: b: c: 1` at indent 0 is exactly
`"a:\n  b\x7bc\x7d: 1\n"`, the innermost object being flat and written inline; a
nested-opener line is produced for each level that is not flat, with two more
spaces per level, as on the object one level deeper. -/
theorem C3_nested_encoding :
    convertToToon nestedExample 0 = some "a:\n  b\x7bc\x7d: 1\n".toList ∧
    convertToToon deeperExample 0 = some "a:\n  b:\n    c\x7bd\x7d: 1\n".toList := by
  decide

/-- Claim C5, refuted as stated: in the array `[x: 1, __proto__: 2]` the first
element lacks the key `__proto__` of the second, yet its row does not hold the
empty string for that key: the read `item["__proto__"]` gives the prototype of
the element, which is printed `\x7b\x7d`. -/
theorem C5_counterexample :
    protoRows.all isPlainObject = true ∧
    unionKeys protoRows = ["x".toList, protoKey] ∧
    specRow (unionKeys protoRows) (.obj [("x".toList, .num (.int 1))]) = "1,".toList ∧
    convertToToon (.obj [("a".toList, .arr protoRows)]) 0 =
      some "a[2]\x7bx,__proto__\x7d: 1,\x7b\x7d ,2\n".toList ∧
    convertToToon (.obj [("a".toList, .arr protoRows)]) 0 ≠
      some (spacing 0 ++ "a".toList ++ '[' :: natToString protoRows.length ++ ']' :: '\x7b' ::
        join [','] (unionKeys protoRows) ++ '\x7d' :: ':' :: ' ' ::
        join [' '] (protoRows.map (specRow (unionKeys protoRows))) ++ ['\n']) := by
  decide

/-- Claim C5, amended: the group of lines of a field whose value is a
non-empty array of plain objects is the header `key[N]\x7bK\x7d: ` at indent
`n`, with `N` the length and `K` the union of the keys in first-seen order,
followed by the rows joined by single spaces and a newline; a row is the
comma-join of the field texts over `K`, empty for a key the element lacks,
provided that no key an element lacks names a member of `Object.prototype`
(`__proto__`, `constructor`, `toString`, ...). -/
theorem C5_array_header_group (k : Str) (A : List Value) (n : Nat) (hne : A ≠ [])
    (hobj : ∀ item ∈ A, isPlainObject item = true)
    (hown : ∀ item ∈ A, lacksNoMember (unionKeys A) item = true) :
    convertToToon (.obj [(k, .arr A)]) n =
      some (spacing n ++ k ++ '[' :: natToString A.length ++ ']' :: '\x7b' ::
        join [','] (unionKeys A) ++ '\x7d' :: ':' :: ' ' ::
        join [' '] (A.map (specRow (unionKeys A))) ++ ['\n']) := by
  rw [convertToToon_single]
  exact convertField_plainArray k A n hne hobj hown

/-- Witness of C5: the object `a: [x: 1, y: 2]` declares the header
`\x7bx,y\x7d` and has two rows, each with one empty field. -/
theorem C5_array_header_group_witness :
    convertToToon heterogeneousExample 0 = some "a[2]\x7bx,y\x7d: 1, ,2\n".toList := by
  have h := C5_array_header_group "a".toList
    [.obj [("x".toList, .num (.int 1))], .obj [("y".toList, .num (.int 2))]] 0
    (by decide) (by decide) (by decide)
  rw [heterogeneousExample, h]
  decide

/-- Claim C6, refuted as stated: the array `[x: 1, 5]` has an element that is
not an object, yet its field is emitted in array-header form and not in the
primitive form. -/
theorem C6_counterexample :
    mixedArray.all isObjectLike = false ∧
    convertToToon (.obj [("a".toList, .arr mixedArray)]) 0 = some "a[2]\x7bx\x7d: 1 \n".toList ∧
    convertToToon (.obj [("a".toList, .arr mixedArray)]) 0
      ≠ some (primitiveGroup "a".toList (.arr mixedArray) 0) := by
  decide

/-- Claim C6, amended: for a field whose value is a non-empty array,
`convertToToon` emits the array-header form if and only if the first element
of the array is a non-null object (an object or an array), and the primitive
form `key: [v1,v2,...]` otherwise; the elements after an object first element
are taken not to be `null` or `undefined`. -/
theorem C6_header_iff_first_object (key : Str) (first : Value) (rest : List Value) (n : Nat)
    (hrest : isObjectLike first = true → ∀ v ∈ rest, v ≠ .null ∧ v ≠ .undefined) :
    ∃ out, convertToToon (.obj [(key, .arr (first :: rest))]) n = some out ∧
      (IsHeaderGroup key (rest.length + 1) n out ↔ isObjectLike first = true) ∧
      (isObjectLike first = false →
        out = primitiveGroup key (.arr (first :: rest)) n) := by
  rw [convertToToon_single]
  by_cases hf : isObjectLike first = true
  · obtain ⟨rows, hrows⟩ := mapThrow_isSome (formatRow (collectKeys (first :: rest)))
      (first :: rest) (fun item hitem => by
        rcases List.mem_cons.mp hitem with rfl | hmem
        · exact formatRow_isSome _ _ (isObjectLike_ne hf).1 (isObjectLike_ne hf).2
        · exact formatRow_isSome _ _ (hrest hf item hmem).1 (hrest hf item hmem).2)
    have hconv : convertField key (.arr (first :: rest)) n =
        some (spacing n ++ key ++ '[' :: natToString (first :: rest).length ++ ']' :: '\x7b' ::
          join [','] (collectKeys (first :: rest)) ++ '\x7d' :: ':' :: ' ' ::
          join [' '] rows ++ ['\n']) := by
      simp only [convertField, hf, if_true, arrayOfObjects, hrows, Option.map_some']
    refine ⟨_, hconv, ?_, ?_⟩
    · simp only [hf, iff_true]
      exact ⟨join [','] (collectKeys (first :: rest)), join [' '] rows, by simp⟩
    · intro h; rw [hf] at h; cases h
  · have hf2 : isObjectLike first = false := by simpa using hf
    refine ⟨primitiveGroup key (.arr (first :: rest)) n, ?_, ?_, fun _ => rfl⟩
    · simp only [convertField, hf2, Bool.false_eq_true, if_false, primitiveGroup]
    · simp only [hf2, Bool.false_eq_true, iff_false]
      exact primitiveGroup_not_header _ _ _ _

/-- Witness of C6 on the array `[x: 1, 5]`, whose first element is an object
and in which nothing is `null`. -/
theorem C6_header_iff_first_object_witness :
    ∃ out, convertToToon (.obj [("a".toList, .arr mixedArray)]) 0 = some out ∧
      (IsHeaderGroup "a".toList 2 0 out ↔ isObjectLike (.obj [("x".toList, .num (.int 1))]) = true) ∧
      (isObjectLike (.obj [("x".toList, .num (.int 1))]) = false →
        out = primitiveGroup "a".toList (.arr mixedArray) 0) :=
  C6_header_iff_first_object "a".toList (.obj [("x".toList, .num (.int 1))]) [.num (.int 5)] 0
    (fun _ v hv => by
      rw [List.mem_singleton] at hv
      subst hv
      exact ⟨by decide, by decide⟩)

/-- Claim C7, refuted as stated: the field whose value is the empty object is
emitted as the nested-opener line `a:` and not as `a: ` followed by
`formatValue` of the value. -/
theorem C7_counterexample :
    convertToToon emptyObjectExample 0 = some "a:\n".toList ∧
    convertToToon emptyObjectExample 0 ≠ some (primitiveGroup "a".toList (.obj []) 0) := by
  decide

/-- Claim C7, amended: for a field whose value is a scalar, `null`, or an
array of scalars, the group of lines at indent `n` is `2n` spaces, the key,
`": "`, `formatValue` of the value, and a newline. -/
theorem C7_primitive_group (key : Str) (v : Value) (n : Nat)
    (h : isScalarOrScalarArray v = true) :
    convertToToon (.obj [(key, v)]) n = some (primitiveGroup key v n) := by
  rw [convertToToon_single]
  cases v with
  | obj fs => simp [isScalarOrScalarArray, isScalar] at h
  | arr xs =>
    cases xs with
    | nil => simp only [convertField, primitiveGroup]
    | cons x xs =>
      have hx : isObjectLike x = false := by
        simp only [isScalarOrScalarArray, List.all_cons, Bool.and_eq_true] at h
        cases x <;> simp [isScalar] at h <;> rfl
      simp only [convertField, hx, Bool.false_eq_true, if_false, primitiveGroup]
  | null => simp only [convertField, primitiveGroup]
  | undefined => simp only [convertField, primitiveGroup]
  | bool b => simp only [convertField, primitiveGroup]
  | num x => simp only [convertField, primitiveGroup]
  | str s => simp only [convertField, primitiveGroup]

/-- Witness of C7 on the field `tags: [1,true,x]`. -/
theorem C7_primitive_group_witness :
    convertToToon (.obj [("tags".toList,
      .arr [.num (.int 1), .bool true, .str "x".toList])]) 2
      = some "    tags: [1,true,x]\n".toList :=
  C7_primitive_group "tags".toList (.arr [.num (.int 1), .bool true, .str "x".toList]) 2
    (by decide)

/-- Claim C8, refuted as stated: an object whose only value is an array of
scalars is not written inline; it is written as a nested block. -/
theorem C8_counterexample :
    convertToToon arrayFieldExample 0 = some "a:\n  b: [1]\n".toList ∧
    convertToToon arrayFieldExample 0
      ≠ some (inlineGroup "a".toList [("b".toList, .arr [.num (.int 1)])] 0) := by
  decide

/-- Claim C8, amended: for a field whose value is a non-empty object all of
whose values are scalars or `null`, `convertToToon` emits the single inline
line `key\x7bk1,k2\x7d: v1,v2`, the keys comma-joined in order and then the
comma-joined `formatValue` of each field, without recursion. -/
theorem C8_inline_flat_object (key : Str) (fs : List (Str × Value)) (n : Nat)
    (hne : fs ≠ []) (hflat : ∀ f ∈ fs, isScalarOrNull f.2 = true) :
    convertToToon (.obj [(key, .obj fs)]) n = some (inlineGroup key fs n) := by
  rw [convertToToon_single]
  have h1 : isFlat fs = true := by
    unfold isFlat
    rw [List.all_eq_true]
    intro f hf
    have := hflat f hf
    cases hv : f.2 <;> simp [hv, isScalarOrNull, isScalar] at this <;>
      simp [typeofObject, isNull]
  have h2 : fs.length > 0 := List.length_pos.mpr hne
  simp only [convertField, h1, h2, and_self, if_true, inlineGroup]

/-- Witness of C8 on the field `metadata: total: 3, ok: null`. -/
theorem C8_inline_flat_object_witness :
    convertToToon (.obj [("metadata".toList,
      .obj [("total".toList, .num (.int 3)), ("ok".toList, .null)])]) 0
      = some "metadata\x7btotal,ok\x7d: 3,null\n".toList :=
  C8_inline_flat_object "metadata".toList
    [("total".toList, .num (.int 3)), ("ok".toList, .null)] 0 (by decide) (by decide)


/-! ## Characters and digits -/

theorem isDigit_isWord {c : Char} (h : isDigit c = true) : isWord c = true := by
  simp [isWord, h]

theorem isWord_not_isSpace {c : Char} (h : isWord c = true) : isSpace c = false := by
  simp only [isWord, isDigit, isSpace, isLineTerminator, Bool.or_eq_true, Bool.and_eq_true,
    decide_eq_true_eq, Bool.or_eq_false_iff, Bool.and_eq_false_imp, decide_eq_false_iff_not] at *
  omega

theorem isDigit_not_isSpace {c : Char} (h : isDigit c = true) : isSpace c = false :=
  isWord_not_isSpace (isDigit_isWord h)

theorem isLineTerminator_isSpace {c : Char} (h : isLineTerminator c = true) :
    isSpace c = true := by
  simp [isSpace, h]

theorem isDigit_digitChar (d : Nat) : isDigit (digitChar d) = true := by
  unfold digitChar
  split <;> decide

theorem digitVal_digitChar {d : Nat} (h : d < 10) : digitVal (digitChar d) = d := by
  interval_cases d <;> rfl

theorem takeWhile_append_stop {p : Char → Bool} (a b : Str) (ha : ∀ c ∈ a, p c = true)
    (hb : ∀ c ∈ b.head?, p c = false) :
    (a ++ b).takeWhile p = a ∧ (a ++ b).dropWhile p = b := by
  induction a with
  | nil =>
    cases b with
    | nil => simp
    | cons c b => simp [List.takeWhile, List.dropWhile, hb c (by simp)]
  | cons x a ih =>
    have hx := ha x (List.mem_cons_self _ _)
    have := ih (fun c hc => ha c (List.mem_cons_of_mem _ hc))
    simp [List.takeWhile, List.dropWhile, hx, this.1, this.2]

theorem takeWhile_all {p : Char → Bool} (a : Str) (ha : ∀ c ∈ a, p c = true) :
    a.takeWhile p = a ∧ a.dropWhile p = [] := by
  have := takeWhile_append_stop (p := p) a [] ha (by simp)
  simpa using this

theorem trim_eq_self (s : Str) (h1 : ∀ c ∈ s.head?, isSpace c = false)
    (h2 : ∀ c ∈ s.getLast?, isSpace c = false) : trim s = s := by
  unfold trim
  have e1 : s.dropWhile isSpace = s := by
    cases s with
    | nil => rfl
    | cons c t => simp [List.dropWhile, h1 c (by simp)]
  rw [e1]
  have e2 : s.reverse.dropWhile isSpace = s.reverse := by
    cases hr : s.reverse with
    | nil => rfl
    | cons c t =>
      have : s.getLast? = some c := by
        rw [← List.head?_reverse, hr]; rfl
      simp [List.dropWhile, h2 c (by simp [this])]
  rw [e2, List.reverse_reverse]

/-! ## Decimal numerals -/

theorem natDigitsAux_spec (fuel n : Nat) (acc : Str) (h : n < fuel) :
    ∃ D : Str, natDigitsAux fuel n acc = D ++ acc ∧ D ≠ [] ∧ (∀ c ∈ D, isDigit c = true) ∧
      ∀ a, D.foldl (fun a c => 10 * a + digitVal c) a = a * 10 ^ D.length + n := by
  induction fuel generalizing n acc with
  | zero => omega
  | succ f ih =>
    unfold natDigitsAux
    by_cases h0 : n / 10 = 0
    · refine ⟨[digitChar (n % 10)], by simp [h0], by simp, ?_, ?_⟩
      · intro c hc
        rw [List.mem_singleton] at hc
        rw [hc]; exact isDigit_digitChar _
      · intro a
        have hn : n < 10 := by omega
        simp only [List.foldl_cons, List.foldl_nil, List.length_singleton, pow_one,
          Nat.mod_eq_of_lt hn, digitVal_digitChar hn]
        ring
    · obtain ⟨D, hD, hne, hdig, hval⟩ := ih (n / 10) (digitChar (n % 10) :: acc) (by omega)
      refine ⟨D ++ [digitChar (n % 10)], by simp [h0, hD], by simp, ?_, ?_⟩
      · intro c hc
        rcases List.mem_append.mp hc with hc | hc
        · exact hdig c hc
        · rw [List.mem_singleton] at hc
          rw [hc]; exact isDigit_digitChar _
      · intro a
        simp only [List.foldl_append, hval, List.foldl_cons, List.foldl_nil, List.length_append,
          List.length_singleton, digitVal_digitChar (Nat.mod_lt n (by norm_num : 10 > 0))]
        have := Nat.div_add_mod n 10
        rw [pow_succ]
        nlinarith [this]

theorem natToString_ne_nil (n : Nat) : natToString n ≠ [] := by
  obtain ⟨D, hD, hne, -, -⟩ := natDigitsAux_spec (n + 1) n [] (by omega)
  unfold natToString
  rw [hD]; simpa using hne

theorem natToString_isDigit (n : Nat) : ∀ c ∈ natToString n, isDigit c = true := by
  obtain ⟨D, hD, -, hdig, -⟩ := natDigitsAux_spec (n + 1) n [] (by omega)
  unfold natToString
  rw [hD]; simpa using hdig

theorem digitsVal_natToString (n : Nat) : digitsVal (natToString n) = n := by
  obtain ⟨D, hD, -, -, hval⟩ := natDigitsAux_spec (n + 1) n [] (by omega)
  unfold natToString digitsVal
  rw [hD]; simp [hval]


theorem noSpace_trim (t : Str) (h : ∀ c ∈ t, isSpace c = false) : trim t = t :=
  trim_eq_self t (fun c hc => h c (List.mem_of_mem_head? hc))
    (fun c hc => h c (List.mem_of_mem_getLast? hc))

theorem digitsVal_append_zeros (a : Str) (z : Nat) :
    digitsVal (a ++ List.replicate z '0') = digitsVal a * 10 ^ z := by
  unfold digitsVal
  rw [List.foldl_append]
  generalize List.foldl (fun a c => 10 * a + digitVal c) 0 a = v
  induction z generalizing v with
  | zero => simp
  | succ z ih =>
    rw [List.replicate_succ, List.foldl_cons, ih]
    have : digitVal '0' = 0 := rfl
    rw [this, pow_succ]; ring

theorem stripZeros_spec (l : Str) :
    l = stripZeros l ++ List.replicate (l.length - (stripZeros l).length) '0' := by
  unfold stripZeros
  have h := List.takeWhile_append_dropWhile (fun c => c == '0') l.reverse
  have hall : ∀ c ∈ l.reverse.takeWhile (fun c => c == '0'), c = '0' := by
    intro c hc
    simpa using List.mem_takeWhile_imp hc
  have hrep := List.eq_replicate_of_mem hall
  have hlen : l.length = (l.reverse.takeWhile (fun c => c == '0')).length +
      (l.reverse.dropWhile (fun c => c == '0')).length := by
    rw [← List.length_append, h, List.length_reverse]
  have h2 : l = (l.reverse.dropWhile (fun c => c == '0')).reverse ++
      (l.reverse.takeWhile (fun c => c == '0')).reverse := by
    rw [← List.reverse_append, h, List.reverse_reverse]
  rw [List.length_reverse]
  have h3 : l.length - (l.reverse.dropWhile (fun c => c == '0')).length =
      (l.reverse.takeWhile (fun c => c == '0')).length := by omega
  rw [h3]
  conv_lhs => rw [h2]
  congr 1
  conv_lhs => rw [hrep]
  rw [List.reverse_replicate]

theorem stripZeros_subset (l : Str) : ∀ c ∈ stripZeros l, c ∈ l := by
  intro c hc
  have := stripZeros_spec l
  rw [this]
  exact List.mem_append_left _ hc

theorem stripZeros_length_le (l : Str) : (stripZeros l).length ≤ l.length := by
  have := congrArg List.length (stripZeros_spec l)
  simp at this
  omega


theorem unsignedDecimal_digits (ds : Str) (hne : ds ≠ []) (hd : ∀ c ∈ ds, isDigit c = true) :
    unsignedDecimal ds = some (.int (digitsVal ds)) := by
  have hinf : ds ≠ "Infinity".toList := by
    intro e
    have := hd 'I' (by rw [e]; decide)
    revert this; decide
  have ht := takeWhile_all (p := isDigit) ds hd
  have hinf2 : ¬ ds = ['I', 'n', 'f', 'i', 'n', 'i', 't', 'y'] := hinf
  simp [unsignedDecimal, hinf2, ht.1, ht.2, hne, scaleDec]

theorem unsignedDecimal_exp1 (d : Char) (es : Str) (hd : isDigit d = true) (hne : es ≠ [])
    (he : ∀ c ∈ es, isDigit c = true) :
    unsignedDecimal (d :: 'e' :: '+' :: es) =
      some (scaleDec (digitsVal [d]) (digitsVal es)) := by
  have hinf : d :: 'e' :: '+' :: es ≠ "Infinity".toList := by
    intro e
    simp only [String.toList, List.cons.injEq] at e
    have := e.2.1
    revert this; decide
  have ht := takeWhile_append_stop (p := isDigit) [d] ('e' :: '+' :: es)
    (by intro c hc; rw [List.mem_singleton] at hc; rw [hc]; exact hd)
    (by intro c hc; simp at hc; rw [← hc]; decide)
  simp only [List.singleton_append] at ht
  have hall : es.all isDigit = true := by rw [List.all_eq_true]; exact he
  simp [unsignedDecimal, hinf, ht.1, ht.2, hne, hall]

theorem unsignedDecimal_exp2 (d : Char) (rest es : Str) (hd : isDigit d = true)
    (hr : ∀ c ∈ rest, isDigit c = true) (hne : es ≠ [])
    (he : ∀ c ∈ es, isDigit c = true) :
    unsignedDecimal (d :: '.' :: (rest ++ 'e' :: '+' :: es)) =
      some (scaleDec (digitsVal (d :: rest)) ((digitsVal es : Int) - (rest.length : Int))) := by
  have hinf : d :: '.' :: (rest ++ 'e' :: '+' :: es) ≠ "Infinity".toList := by
    intro e
    simp only [String.toList, List.cons.injEq] at e
    have := e.2.1
    revert this; decide
  have ht := takeWhile_append_stop (p := isDigit) [d] ('.' :: (rest ++ 'e' :: '+' :: es))
    (by intro c hc; rw [List.mem_singleton] at hc; rw [hc]; exact hd)
    (by intro c hc; simp at hc; rw [← hc]; decide)
  simp only [List.singleton_append] at ht
  have ht2 := takeWhile_append_stop (p := isDigit) rest ('e' :: '+' :: es) hr
    (by intro c hc; simp at hc; rw [← hc]; decide)
  have hall : es.all isDigit = true := by rw [List.all_eq_true]; exact he
  simp [unsignedDecimal, hinf, ht.1, ht.2, ht2.1, ht2.2, hne, hall]

theorem numericLiteral_digit (c : Char) (r : Str) (hc : isDigit c = true)
    (hr : ∀ x ∈ r.head?, isDigit x = true ∨ x = '.' ∨ x = 'e') :
    numericLiteral (c :: r) = unsignedDecimal (c :: r) := by
  unfold numericLiteral
  split
  all_goals first
    | rfl
    | (rename_i heq
       cases heq
       exfalso
       first
        | (have h := hr _ (Option.mem_def.mpr rfl); revert h; decide)
        | (revert hc; decide))


theorem scaleDec_nonneg (M a b : Nat) (h : b ≤ a) :
    scaleDec M ((a : Int) - (b : Int)) = .int ((M * 10 ^ (a - b) : Nat) : Int) := by
  unfold scaleDec
  have h1 : (0 : Int) ≤ (a : Int) - (b : Int) := by omega
  have h2 : ((a : Int) - (b : Int)).toNat = a - b := by omega
  simp [h1, h2]

theorem positiveBody_spec (m : Nat) (hm : 0 < m) :
    let body := positiveToString (stripZeros (natToString m)) (natToString m).length
    unsignedDecimal body = some (.int m) ∧
    (∃ d r, body = d :: r ∧ isDigit d = true ∧
      ∀ x ∈ r.head?, isDigit x = true ∨ x = '.' ∨ x = 'e') ∧
    (∀ c ∈ body, isNumChar c = true) := by
  intro body
  have hds := natToString_isDigit m
  have hval := digitsVal_natToString m
  have hne := natToString_ne_nil m
  have hspec := stripZeros_spec (natToString m)
  have hK := stripZeros_length_le (natToString m)
  have hsd : ∀ c ∈ stripZeros (natToString m), isDigit c = true :=
    fun c hc => hds c (stripZeros_subset _ c hc)
  have hmval : digitsVal (stripZeros (natToString m)) *
      10 ^ ((natToString m).length - (stripZeros (natToString m)).length) = m := by
    rw [← digitsVal_append_zeros, ← hspec, hval]
  by_cases hL : (natToString m).length ≤ 21
  · have hbody : body = natToString m := by
      show positiveToString _ _ = _
      unfold positiveToString
      have c1 : ((stripZeros (natToString m)).length : Int) ≤ ((natToString m).length : Int) ∧
          ((natToString m).length : Int) ≤ 21 := by constructor <;> omega
      rw [if_pos c1, Int.toNat_ofNat]
      exact hspec.symm
    rw [hbody]
    refine ⟨?_, ?_, ?_⟩
    · rw [unsignedDecimal_digits _ hne hds, hval]
    · cases hd : natToString m with
      | nil => exact absurd hd hne
      | cons d r =>
        refine ⟨d, r, rfl, hds d (by rw [hd]; simp), ?_⟩
        intro x hx
        exact Or.inl (hds x (by rw [hd]; exact List.mem_cons_of_mem _ (List.mem_of_mem_head? hx)))
    · intro c hc
      simp [isNumChar, hds c hc]
  · have hbody : body = mantissa (stripZeros (natToString m)) ++
        'e' :: '+' :: natToString ((natToString m).length - 1) := by
      show positiveToString _ _ = _
      unfold positiveToString
      have c1 : ¬ (((stripZeros (natToString m)).length : Int) ≤ ((natToString m).length : Int) ∧
          ((natToString m).length : Int) ≤ 21) := by omega
      have c2 : ¬ ((0 : Int) < ((natToString m).length : Int) ∧
          ((natToString m).length : Int) ≤ 21) := by omega
      have c3 : ¬ ((-6 : Int) < ((natToString m).length : Int) ∧
          ((natToString m).length : Int) ≤ 0) := by omega
      rw [if_neg c1, if_neg c2, if_neg c3]
      unfold expSuffix
      have c4 : (0 : Int) ≤ ((natToString m).length : Int) - 1 := by omega
      have c5 : (((natToString m).length : Int) - 1).natAbs = (natToString m).length - 1 := by
        omega
      rw [if_pos c4, c5]
    have hes := natToString_isDigit ((natToString m).length - 1)
    have hesne := natToString_ne_nil ((natToString m).length - 1)
    have hesval := digitsVal_natToString ((natToString m).length - 1)
    cases hs : stripZeros (natToString m) with
    | nil =>
      exfalso
      rw [hs] at hmval
      simp [digitsVal] at hmval
      omega
    | cons d rest =>
      rw [hs] at hsd hmval hK
      have hd : isDigit d = true := hsd d (List.mem_cons_self _ _)
      have hrest : ∀ c ∈ rest, isDigit c = true := fun c hc => hsd c (List.mem_cons_of_mem _ hc)
      have hexpchars : ∀ c ∈ 'e' :: '+' :: natToString ((natToString m).length - 1),
          isNumChar c = true := by
        intro c hc
        rcases List.mem_cons.mp hc with rfl | hc
        · decide
        rcases List.mem_cons.mp hc with rfl | hc
        · decide
        simp [isNumChar, hes c hc]
      cases rest with
      | nil =>
        have hb2 : body = d :: 'e' :: '+' :: natToString ((natToString m).length - 1) := by
          rw [hbody, hs]; rfl
        rw [hb2]
        refine ⟨?_, ⟨d, _, rfl, hd, fun x hx => ?_⟩, ?_⟩
        · rw [unsignedDecimal_exp1 d _ hd hesne hes, hesval]
          have := scaleDec_nonneg (digitsVal [d]) ((natToString m).length - 1) 0 (by omega)
          simp only [Nat.cast_zero, sub_zero, Nat.sub_zero] at this
          rw [this]
          simp only [List.length_singleton] at hmval
          rw [hmval]
        · simp at hx; exact Or.inr (Or.inr hx.symm)
        · intro c hc
          rcases List.mem_cons.mp hc with rfl | hc
          · simp [isNumChar, hd]
          · exact hexpchars c hc
      | cons r0 rs =>
        have hb2 : body = d :: '.' :: ((r0 :: rs) ++
            'e' :: '+' :: natToString ((natToString m).length - 1)) := by
          rw [hbody, hs]; rfl
        rw [hb2]
        refine ⟨?_, ⟨d, _, rfl, hd, fun x hx => ?_⟩, ?_⟩
        · rw [unsignedDecimal_exp2 d _ _ hd hrest hesne hes, hesval]
          simp only [List.length_cons] at hK hmval ⊢
          rw [scaleDec_nonneg _ _ _ (by omega)]
          have : (natToString m).length - 1 - (rs.length + 1) =
              (natToString m).length - (rs.length + 1 + 1) := by omega
          rw [this, hmval]
        · simp at hx; exact Or.inr (Or.inl hx.symm)
        · intro c hc
          rcases List.mem_cons.mp hc with rfl | hc
          · simp [isNumChar, hd]
          rcases List.mem_cons.mp hc with rfl | hc
          · decide
          rcases List.mem_append.mp hc with hc | hc
          · simp [isNumChar, hrest c hc]
          · exact hexpchars c hc


theorem isNumChar_not_isSpace {c : Char} (h : isNumChar c = true) : isSpace c = false := by
  simp only [isNumChar, Bool.or_eq_true, beq_iff_eq] at h
  rcases h with (((h | h) | h) | h) | h
  · exact isDigit_not_isSpace h
  all_goals (rw [h]; decide)

theorem isNumChar_ne_comma {c : Char} (h : isNumChar c = true) : c ≠ ',' := by
  rintro rfl
  revert h; decide

theorem numberToString_int_spec (n : Int) :
    stringToDecimal (numberToString (.int n)) = some (.int n) ∧
    numberToString (.int n) ≠ [] ∧
    (∀ c ∈ numberToString (.int n), isNumChar c = true) := by
  by_cases h0 : n = 0
  · subst h0; decide
  have hm : 0 < n.natAbs := Int.natAbs_pos.mpr h0
  obtain ⟨hu, ⟨d, r, hbody, hd, hr⟩, hchars⟩ := positiveBody_spec n.natAbs hm
  by_cases hneg : n < 0
  · have htext : numberToString (.int n) = '-' ::
        positiveToString (stripZeros (natToString n.natAbs)) (natToString n.natAbs).length := by
      simp only [numberToString, h0, if_false, hneg, if_true]
    have hall : ∀ c ∈ numberToString (.int n), isNumChar c = true := by
      rw [htext]
      intro c hc
      rcases List.mem_cons.mp hc with rfl | hc
      · decide
      · exact hchars c hc
    refine ⟨?_, by rw [htext]; simp, hall⟩
    unfold stringToDecimal
    rw [noSpace_trim _ (fun c hc => isNumChar_not_isSpace (hall c hc)), htext]
    simp only [reduceCtorEq, if_false, numericLiteral, hu, Option.map_some', negNum]
    congr 2
    omega
  · have htext : numberToString (.int n) =
        positiveToString (stripZeros (natToString n.natAbs)) (natToString n.natAbs).length := by
      simp only [numberToString, h0, if_false, hneg]
    have hall : ∀ c ∈ numberToString (.int n), isNumChar c = true := by
      rw [htext]; exact hchars
    refine ⟨?_, by rw [htext, hbody]; simp, hall⟩
    unfold stringToDecimal
    rw [noSpace_trim _ (fun c hc => isNumChar_not_isSpace (hall c hc)), htext, hbody]
    simp only [reduceCtorEq, if_false]
    rw [numericLiteral_digit d r hd hr, ← hbody, hu]
    congr 2
    omega

theorem stringToNumber_of_decimal (t : Str) (x : JSNum) (h : stringToDecimal t = some x) :
    stringToNumber t = some (toNumber x) := by
  unfold stringToNumber
  rw [h]
  rfl

theorem stringToNumber_exact (t : Str) (x : JSNum) (h : stringToDecimal t = some x)
    (hx : isNumber x = true) : stringToNumber t = some x := by
  rw [stringToNumber_of_decimal t x h]
  unfold isNumber at hx
  rw [of_decide_eq_true hx]

theorem parseValueAux_number (fuel : Nat) (t : Str) (x : JSNum)
    (h1 : stringToNumber t = some x) (h2 : trim t ≠ []) (h3 : t ≠ "null".toList) :
    parseValueAux (fuel + 1) t = .num x := by
  unfold parseValueAux
  simp only [h3, if_false, h2, h1]

theorem parseValueAux_int (fuel : Nat) (n : Int) (hn : isNumber (.int n) = true) :
    parseValueAux (fuel + 1) (numberToString (.int n)) = .num (.int n) := by
  obtain ⟨h1, h2, h3⟩ := numberToString_int_spec n
  apply parseValueAux_number _ _ _ (stringToNumber_exact _ _ h1 hn)
  · rw [noSpace_trim _ (fun c hc => isNumChar_not_isSpace (h3 c hc))]
    exact h2
  · intro e
    have := h3 'n' (by rw [e]; decide)
    revert this; decide

theorem decimalText_spec (n : Int) :
    stringToDecimal (decimalText n) = some (.int n) ∧ decimalText n ≠ [] ∧
    (∀ c ∈ decimalText n, isNumChar c = true) := by
  have hds := natToString_isDigit n.natAbs
  have hne := natToString_ne_nil n.natAbs
  have hval := digitsVal_natToString n.natAbs
  have hu := unsignedDecimal_digits _ hne hds
  rw [hval] at hu
  by_cases hneg : n < 0
  · have htext : decimalText n = '-' :: natToString n.natAbs := by
      simp only [decimalText, hneg, if_true]
    have hall : ∀ c ∈ decimalText n, isNumChar c = true := by
      rw [htext]
      intro c hc
      rcases List.mem_cons.mp hc with rfl | hc
      · decide
      · simp [isNumChar, hds c hc]
    refine ⟨?_, by rw [htext]; simp, hall⟩
    unfold stringToDecimal
    rw [noSpace_trim _ (fun c hc => isNumChar_not_isSpace (hall c hc)), htext]
    simp only [reduceCtorEq, if_false, numericLiteral, hu, Option.map_some', negNum]
    congr 2
    omega
  · have htext : decimalText n = natToString n.natAbs := by
      simp only [decimalText, hneg, if_false]
    have hall : ∀ c ∈ decimalText n, isNumChar c = true := by
      rw [htext]
      intro c hc
      simp [isNumChar, hds c hc]
    refine ⟨?_, by rw [htext]; exact hne, hall⟩
    unfold stringToDecimal
    rw [noSpace_trim _ (fun c hc => isNumChar_not_isSpace (hall c hc)), htext]
    simp only [hne, if_false]
    cases hd : natToString n.natAbs with
    | nil => exact absurd hd hne
    | cons d r =>
      rw [hd] at hds hu
      rw [numericLiteral_digit d r (hds d (List.mem_cons_self _ _))
        (fun x hx => Or.inl (hds x (List.mem_cons_of_mem _ (List.mem_of_mem_head? hx)))), hu]
      congr 2
      omega


theorem length_le_join (sep : Str) (ls : List Str) (p : Str) (hp : p ∈ ls) :
    p.length ≤ (join sep ls).length := by
  unfold join
  induction ls with
  | nil => cases hp
  | cons a t ih =>
    cases t with
    | nil =>
      rw [List.mem_singleton] at hp
      subst hp
      simp [List.intercalate, List.intersperse]
    | cons b t =>
      have e : sep.intercalate (a :: b :: t) = a ++ sep ++ sep.intercalate (b :: t) := by
        simp [List.intercalate, List.intersperse]
      rw [e]
      rcases List.mem_cons.mp hp with rfl | hp
      · simp
      · have := ih hp
        simp at this ⊢
        omega

theorem split_length_le (sep : Char) (l p : Str) (hp : p ∈ split sep l) :
    p.length ≤ l.length := by
  have h := length_le_join [sep] (split sep l) p hp
  unfold join split at h
  rw [List.intercalate_splitOn] at h
  exact h

theorem parseValueAux_nil (fuel : Nat) : parseValueAux fuel [] = .str [] := by
  cases fuel <;> rfl

theorem parseValueAux_fuel_eq (f g : Nat) (s : Str) (hf : s.length ≤ f) (hg : s.length ≤ g) :
    parseValueAux f s = parseValueAux g s := by
  induction f generalizing g s with
  | zero =>
    have : s = [] := List.length_eq_zero.mp (by omega)
    subst this
    rw [parseValueAux_nil, parseValueAux_nil]
  | succ f ih =>
    cases g with
    | zero =>
      have : s = [] := List.length_eq_zero.mp (by omega)
      subst this
      rw [parseValueAux_nil, parseValueAux_nil]
    | succ g =>
      unfold parseValueAux
      split
      · rfl
      · split
        · rfl
        · split
          · rfl
          · split
            · rfl
            · split
              · rename_i hb
                congr 1
                apply List.map_congr_left
                intro p hp
                have hlen := split_length_le _ _ _ hp
                have hs : s ≠ [] := by
                  intro e; rw [e] at hb; simp at hb
                have : 0 < s.length := List.length_pos.mpr hs
                simp only [List.length_dropLast, List.length_drop] at hlen
                exact ih g p (by omega) (by omega)
              · rfl

theorem parseValueAux_eq_str (fuel : Nat) (s : Str) (h : s.length ≤ fuel) :
    parseValueAux fuel s = parseValueStr s :=
  parseValueAux_fuel_eq fuel s.length s h (le_refl _)


theorem parseValueStr_int (n : Int) (hn : isNumber (.int n) = true) :
    parseValueStr (numberToString (.int n)) = .num (.int n) := by
  obtain ⟨-, h2, -⟩ := numberToString_int_spec n
  unfold parseValueStr
  obtain ⟨k, hk⟩ : ∃ k, (numberToString (.int n)).length = k + 1 :=
    Nat.exists_eq_succ_of_ne_zero (by simpa using h2)
  rw [hk]
  exact parseValueAux_int k n hn

theorem safeText_of_isSafeScalar {v : Value} (h : isSafeScalar v = true) :
    SafeText v (formatValue v) := by
  cases v with
  | null => exact ⟨by decide, by decide, by decide, rfl⟩
  | undefined => simp [isSafeScalar] at h
  | bool b => cases b <;> exact ⟨by decide, by decide, by decide, rfl⟩
  | arr xs => simp [isSafeScalar] at h
  | obj fs => simp [isSafeScalar] at h
  | str s =>
    simp only [isSafeScalar, isSafeString, Bool.and_eq_true, Bool.not_eq_true',
      List.isEmpty_eq_false, List.all_eq_true, decide_eq_true_eq] at h
    obtain ⟨⟨⟨h1, h2⟩, h3⟩, h4⟩ := h
    refine ⟨by simpa [formatValue] using h1, ?_, ?_, by simpa [formatValue] using h4⟩
    · intro c hc
      simpa using h3 c hc
    · intro hc
      have : s.contains ',' = true := by simpa using hc
      rw [this] at h2; cases h2
  | num x =>
    cases x with
    | int n =>
      obtain ⟨-, h2, h3⟩ := numberToString_int_spec n
      exact ⟨h2, fun c hc => isNumChar_not_isSpace (h3 c hc),
        fun hc => isNumChar_ne_comma (h3 _ hc) rfl, parseValueStr_int n h⟩
    | dec m k => simp [isSafeScalar] at h
    | inf b => simp [isSafeScalar] at h

theorem join_cons_cons (sep a b : Str) (t : List Str) :
    join sep (a :: b :: t) = a ++ sep ++ join sep (b :: t) := by
  simp [join, List.intercalate, List.intersperse]

theorem join_singleton (sep a : Str) : join sep [a] = a := by
  simp [join, List.intercalate, List.intersperse]

theorem mem_join {sep : Str} {ls : List Str} {c : Char} (h : c ∈ join sep ls) :
    c ∈ sep ∨ ∃ l ∈ ls, c ∈ l := by
  induction ls with
  | nil => simp [join, List.intercalate, List.intersperse] at h
  | cons a t ih =>
    cases t with
    | nil =>
      rw [join_singleton] at h
      exact Or.inr ⟨a, List.mem_singleton_self _, h⟩
    | cons b t =>
      rw [join_cons_cons] at h
      rcases List.mem_append.mp h with h | h
      · rcases List.mem_append.mp h with h | h
        · exact Or.inr ⟨a, List.mem_cons_self _ _, h⟩
        · exact Or.inl h
      · rcases ih h with h | ⟨l, hl, hc⟩
        · exact Or.inl h
        · exact Or.inr ⟨l, List.mem_cons_of_mem _ hl, hc⟩

theorem split_join (sep : Char) (ls : List Str) (hne : ls ≠ []) (h : ∀ l ∈ ls, sep ∉ l) :
    split sep (join [sep] ls) = ls :=
  List.splitOn_intercalate ls sep h hne

theorem numericLiteral_bracket (r : Str) : numericLiteral ('[' :: r) = none := by
  unfold numericLiteral
  split
  all_goals first
    | (rename_i heq; simp at heq; done)
    | skip
  simp [unsignedDecimal, List.takeWhile, List.dropWhile, show isDigit '[' = false from rfl]

theorem parseValueAux_bracket (fuel : Nat) (inner : Str)
    (hns : ∀ c ∈ inner, isSpace c = false) :
    parseValueAux (fuel + 1) ('[' :: (inner ++ [']'])) =
      .arr ((split ',' inner).map (parseValueAux fuel)) := by
  have hall : ∀ c ∈ '[' :: (inner ++ [']']), isSpace c = false := by
    intro c hc
    rcases List.mem_cons.mp hc with rfl | hc
    · decide
    rcases List.mem_append.mp hc with hc | hc
    · exact hns c hc
    · rw [List.mem_singleton] at hc; subst hc; decide
  have htrim := noSpace_trim _ hall
  have hnum : stringToNumber ('[' :: (inner ++ [']'])) = none := by
    unfold stringToNumber stringToDecimal
    rw [htrim]
    simp [numericLiteral_bracket]
  have h1 : ¬ ('[' :: (inner ++ [']']) = "null".toList) := by
    intro e; simp [String.toList] at e
  have h2 : ¬ ('[' :: (inner ++ [']']) = "true".toList) := by
    intro e; simp [String.toList] at e
  have h3 : ¬ ('[' :: (inner ++ [']']) = "false".toList) := by
    intro e; simp [String.toList] at e
  have h4 : trim ('[' :: (inner ++ [']'])) ≠ [] := by rw [htrim]; simp
  have h5 : ('[' :: (inner ++ [']'])).head? = some '[' ∧
      ('[' :: (inner ++ [']'])).getLast? = some ']' := by
    refine ⟨rfl, ?_⟩
    rw [← List.cons_append, List.getLast?_append]
    simp
  have h6 : (List.drop 1 ('[' :: (inner ++ [']']))).dropLast = inner := by
    simp
  unfold parseValueAux
  rw [if_neg h1, if_neg h4, hnum]
  simp only []
  rw [if_neg h2, if_neg h3, if_pos h5, h6]

theorem parseValueStr_array (L : List Value) (hne : L ≠ [])
    (h : ∀ v ∈ L, isSafeScalar v = true) :
    parseValueStr (formatValue (.arr L)) = .arr L := by
  have htexts : ∀ t ∈ L.map formatValue, ∃ v ∈ L, t = formatValue v ∧ SafeText v t := by
    intro t ht
    obtain ⟨v, hv, rfl⟩ := List.mem_map.mp ht
    exact ⟨v, hv, rfl, safeText_of_isSafeScalar (h v hv)⟩
  have hinner : ∀ c ∈ join [','] (L.map formatValue), isSpace c = false := by
    intro c hc
    rcases mem_join hc with hc | ⟨t, ht, hct⟩
    · rw [List.mem_singleton] at hc; subst hc; decide
    · obtain ⟨v, -, -, hs⟩ := htexts t ht
      exact hs.noSpace c hct
  have hval : formatValue (.arr L) = '[' :: (join [','] (L.map formatValue) ++ [']']) := by
    simp only [formatValue, formatValues_eq_map]
  have hlen : (formatValue (.arr L)).length = (join [','] (L.map formatValue)).length + 1 + 1 := by
    rw [hval]; simp
  unfold parseValueStr
  rw [hlen, hval, parseValueAux_bracket _ _ hinner]
  have hsplit := split_join ',' (L.map formatValue) (by simpa using hne)
    (fun t ht => by obtain ⟨v, -, -, hs⟩ := htexts t ht; exact hs.noComma)
  rw [hsplit, List.map_map]
  congr 1
  conv_rhs => rw [← List.map_id L]
  apply List.map_congr_left
  intro v hv
  have hs := safeText_of_isSafeScalar (h v hv)
  have hl := length_le_join [','] (L.map formatValue) (formatValue v)
    (List.mem_map_of_mem _ hv)
  simp only [Function.comp, id]
  rw [parseValueAux_eq_str _ _ (by omega), hs.parse]



theorem isSafeScalar_of_isIntBoolNull {v : Value} (h : isIntBoolNull v = true) :
    isSafeScalar v = true := by
  cases v with
  | num x => cases x <;> exact h
  | bool b => rfl
  | null => rfl
  | undefined => simp [isIntBoolNull] at h
  | str s => simp [isIntBoolNull] at h
  | arr xs => simp [isIntBoolNull] at h
  | obj fs => simp [isIntBoolNull] at h

theorem parseValueStr_decimalText (n : Int) :
    parseValueStr (decimalText n) = .num (toNumber (.int n)) := by
  obtain ⟨h1, h2, h3⟩ := decimalText_spec n
  unfold parseValueStr
  obtain ⟨k, hk⟩ : ∃ k, (decimalText n).length = k + 1 :=
    Nat.exists_eq_succ_of_ne_zero (by simpa using h2)
  rw [hk]
  apply parseValueAux_number _ _ _ (stringToNumber_of_decimal _ _ h1)
  · rw [noSpace_trim _ (fun c hc => isNumChar_not_isSpace (h3 c hc))]
    exact h2
  · intro e
    have := h3 'n' (by rw [e]; decide)
    revert this; decide


theorem digitsVal_zeros_append (z : Nat) (ds : Str) :
    digitsVal (List.replicate z '0' ++ ds) = digitsVal ds := by
  unfold digitsVal
  rw [List.foldl_append]
  congr 1
  induction z with
  | zero => rfl
  | succ z ih =>
    rw [List.replicate_succ, List.foldl_cons]
    exact ih

theorem unsignedDecimal_frac (ip fp : Str) (hip : ip ≠ []) (hi : ∀ c ∈ ip, isDigit c = true)
    (hf : ∀ c ∈ fp, isDigit c = true) :
    unsignedDecimal (ip ++ '.' :: fp) =
      some (scaleDec (digitsVal (ip ++ fp)) (-(fp.length : Int))) := by
  have hinf : ¬ (ip ++ '.' :: fp = ['I', 'n', 'f', 'i', 'n', 'i', 't', 'y']) := by
    intro e
    obtain ⟨c, r, rfl⟩ := List.exists_cons_of_ne_nil hip
    simp only [List.cons_append, List.cons.injEq] at e
    have := hi c (List.mem_cons_self _ _)
    rw [e.1] at this
    revert this; decide
  have ht := takeWhile_append_stop (p := isDigit) ip ('.' :: fp) hi
    (by intro c hc; simp at hc; subst hc; decide)
  have ht2 := takeWhile_all (p := isDigit) fp hf
  simp [unsignedDecimal, hinf, ht.1, ht.2, ht2.1, ht2.2, hip]

theorem unsignedDecimal_expA (d : Char) (neg : Bool) (es : Str) (hd : isDigit d = true)
    (hne : es ≠ []) (he : ∀ c ∈ es, isDigit c = true) :
    unsignedDecimal (d :: 'e' :: (if neg then '-' else '+') :: es) =
      some (scaleDec (digitsVal [d])
        (if neg then -(digitsVal es : Int) else (digitsVal es : Int))) := by
  have hinf : ∀ s, ¬ (d :: 'e' :: s :: es = ['I', 'n', 'f', 'i', 'n', 'i', 't', 'y']) := by
    intro s e
    simp only [List.cons.injEq] at e
    have := e.2.1
    revert this; decide
  have ht : ∀ s, (d :: 'e' :: s :: es).takeWhile isDigit = [d] ∧
      (d :: 'e' :: s :: es).dropWhile isDigit = 'e' :: s :: es := by
    intro s
    exact takeWhile_append_stop (p := isDigit) [d] ('e' :: s :: es)
      (by intro c hc; rw [List.mem_singleton] at hc; rw [hc]; exact hd)
      (by intro c hc; simp at hc; rw [← hc]; decide)
  have hall : es.all isDigit = true := by rw [List.all_eq_true]; exact he
  cases neg
  · simp [unsignedDecimal, hinf, (ht '+').1, (ht '+').2, hne, hall]
  · simp [unsignedDecimal, hinf, (ht '-').1, (ht '-').2, hne, hall]

theorem unsignedDecimal_expB (d : Char) (neg : Bool) (rest es : Str) (hd : isDigit d = true)
    (hr : ∀ c ∈ rest, isDigit c = true) (hne : es ≠ [])
    (he : ∀ c ∈ es, isDigit c = true) :
    unsignedDecimal (d :: '.' :: (rest ++ 'e' :: (if neg then '-' else '+') :: es)) =
      some (scaleDec (digitsVal (d :: rest))
        ((if neg then -(digitsVal es : Int) else (digitsVal es : Int)) - (rest.length : Int))) := by
  have hinf : ∀ s, ¬ (d :: '.' :: (rest ++ 'e' :: s :: es) =
      ['I', 'n', 'f', 'i', 'n', 'i', 't', 'y']) := by
    intro s e
    simp only [List.cons.injEq] at e
    have := e.2.1
    revert this; decide
  have ht : ∀ s, (d :: '.' :: (rest ++ 'e' :: s :: es)).takeWhile isDigit = [d] ∧
      (d :: '.' :: (rest ++ 'e' :: s :: es)).dropWhile isDigit =
        '.' :: (rest ++ 'e' :: s :: es) := by
    intro s
    exact takeWhile_append_stop (p := isDigit) [d] ('.' :: (rest ++ 'e' :: s :: es))
      (by intro c hc; rw [List.mem_singleton] at hc; rw [hc]; exact hd)
      (by intro c hc; simp at hc; rw [← hc]; decide)
  have ht2 : ∀ s, (rest ++ 'e' :: s :: es).takeWhile isDigit = rest ∧
      (rest ++ 'e' :: s :: es).dropWhile isDigit = 'e' :: s :: es := by
    intro s
    exact takeWhile_append_stop (p := isDigit) rest ('e' :: s :: es) hr
      (by intro c hc; simp at hc; rw [← hc]; decide)
  have hall : es.all isDigit = true := by rw [List.all_eq_true]; exact he
  cases neg
  · simp [unsignedDecimal, hinf, (ht '+').1, (ht '+').2, (ht2 '+').1, (ht2 '+').2, hne, hall]
  · simp [unsignedDecimal, hinf, (ht '-').1, (ht '-').2, (ht2 '-').1, (ht2 '-').2, hne, hall]

theorem scaleDec_neg (M k : Nat) (e : Int) (he : e = -((k : Int) + 1)) (hM : M % 10 ≠ 0) :
    scaleDec M e = .dec M k := by
  unfold scaleDec
  have h1 : ¬ (0 ≤ e) := by omega
  have h2 : (-e).toNat = k + 1 := by omega
  rw [if_neg h1, h2]
  simp [normDec, hM]


theorem expSuffix_eq (e : Int) :
    expSuffix e = 'e' :: (if decide (e < 0) then '-' else '+') :: natToString e.natAbs ∧
    (if decide (e < 0) = true then -((digitsVal (natToString e.natAbs) : Nat) : Int)
      else ((digitsVal (natToString e.natAbs) : Nat) : Int)) = e := by
  rw [digitsVal_natToString]
  unfold expSuffix
  by_cases h : 0 ≤ e
  · have h2 : ¬ e < 0 := by omega
    simp only [h, h2, if_true, decide_False, Bool.false_eq_true, if_false, true_and]
    omega
  · have h2 : e < 0 := by omega
    simp only [h, h2, if_false, decide_True, if_true, true_and]
    omega

theorem decBody_aux (ds : Str) (m k : Nat) (hne : ds ≠ [])
    (hds : ∀ c ∈ ds, isDigit c = true) (hval : digitsVal ds = m) (hm : m % 10 ≠ 0) :
    let body := positiveToString ds ((ds.length : Int) - ((k : Int) + 1))
    unsignedDecimal body = some (.dec m k) ∧
    (∃ d r, body = d :: r ∧ isDigit d = true ∧
      ∀ x ∈ r.head?, isDigit x = true ∨ x = '.' ∨ x = 'e') ∧
    (∀ c ∈ body, isNumChar c = true) := by
  intro body
  have hL : 0 < ds.length := List.length_pos.mpr hne
  have hdigit_num : ∀ c, isDigit c = true → isNumChar c = true := by
    intro c hc; simp [isNumChar, hc]
  have c1 : ¬ ((ds.length : Int) ≤ (ds.length : Int) - ((k : Int) + 1) ∧
      (ds.length : Int) - ((k : Int) + 1) ≤ 21) := by omega
  by_cases hb : (0 : Int) < (ds.length : Int) - ((k : Int) + 1) ∧
      (ds.length : Int) - ((k : Int) + 1) ≤ 21
  · -- the decimal point stands inside the digits
    have ha : ((ds.length : Int) - ((k : Int) + 1)).toNat =
        ds.length - (k + 1) := by omega
    have hbody : body = ds.take (ds.length - (k + 1)) ++
        '.' :: ds.drop (ds.length - (k + 1)) := by
      show positiveToString _ _ = _
      unfold positiveToString
      rw [if_neg c1, if_pos hb, ha]
    have htake_ne : ds.take (ds.length - (k + 1)) ≠ [] := by
      intro e
      have := congrArg List.length e
      simp only [List.length_take, List.length_nil] at this
      omega
    have htake_d : ∀ c ∈ ds.take (ds.length - (k + 1)),
        isDigit c = true := fun c hc => hds c (List.mem_of_mem_take hc)
    have hdrop_d : ∀ c ∈ ds.drop (ds.length - (k + 1)),
        isDigit c = true := fun c hc => hds c (List.mem_of_mem_drop hc)
    rw [hbody]
    refine ⟨?_, ?_, ?_⟩
    · rw [unsignedDecimal_frac _ _ htake_ne htake_d hdrop_d, List.take_append_drop, hval]
      rw [scaleDec_neg m k _ (by simp only [List.length_drop]; omega) hm]
    · obtain ⟨d, r, hdr⟩ := List.exists_cons_of_ne_nil htake_ne
      rw [hdr]
      refine ⟨d, _, rfl, htake_d d (by rw [hdr]; simp), ?_⟩
      intro x hx
      cases r with
      | nil => simp at hx; exact Or.inr (Or.inl hx.symm)
      | cons y r' =>
        simp at hx
        subst hx
        exact Or.inl (htake_d _ (by rw [hdr]; simp))
    · intro c hc
      rcases List.mem_append.mp hc with h | h
      · exact hdigit_num c (htake_d c h)
      rcases List.mem_cons.mp h with h | h
      · rw [h]; decide
      · exact hdigit_num c (hdrop_d c h)
  · by_cases hc3 : (-6 : Int) < (ds.length : Int) - ((k : Int) + 1) ∧
        (ds.length : Int) - ((k : Int) + 1) ≤ 0
    · -- leading zeros after the point
      have hz : (-((ds.length : Int) - ((k : Int) + 1))).toNat =
          k + 1 - ds.length := by omega
      have hbody : body = ['0'] ++ '.' ::
          (List.replicate (k + 1 - ds.length) '0' ++ ds) := by
        show positiveToString _ _ = _
        unfold positiveToString
        rw [if_neg c1, if_neg hb, if_pos hc3, hz]
        rfl
      have hfp : ∀ c ∈ List.replicate (k + 1 - ds.length) '0' ++ ds,
          isDigit c = true := by
        intro c hc
        rcases List.mem_append.mp hc with h | h
        · rw [(List.mem_replicate.mp h).2]; decide
        · exact hds c h
      rw [hbody]
      refine ⟨?_, ⟨'0', _, rfl, by decide, fun x hx => ?_⟩, ?_⟩
      · rw [unsignedDecimal_frac ['0'] _ (by simp)
          (by intro c hc; rw [List.mem_singleton] at hc; rw [hc]; decide) hfp]
        have e1 : digitsVal (['0'] ++
            (List.replicate (k + 1 - ds.length) '0' ++ ds)) = m := by
          have := digitsVal_zeros_append (k + 1 - ds.length + 1) ds
          rw [List.replicate_succ] at this
          exact this.trans hval
        rw [e1, scaleDec_neg m k _ (by
          simp only [List.length_append, List.length_replicate]; omega) hm]
      · simp at hx; exact Or.inr (Or.inl hx.symm)
      · intro c hc
        rcases List.mem_append.mp hc with h | h
        · rw [List.mem_singleton] at h; rw [h]; decide
        rcases List.mem_cons.mp h with h | h
        · rw [h]; decide
        · exact hdigit_num c (hfp c h)
    · -- exponential form
      obtain ⟨hexp, hexpval⟩ := expSuffix_eq ((ds.length : Int) - ((k : Int) + 1) - 1)
      have hbody : body = mantissa ds ++
          expSuffix ((ds.length : Int) - ((k : Int) + 1) - 1) := by
        show positiveToString _ _ = _
        unfold positiveToString
        rw [if_neg c1, if_neg hb, if_neg hc3]
      have hes := natToString_isDigit
        ((ds.length : Int) - ((k : Int) + 1) - 1).natAbs
      have hesne := natToString_ne_nil
        ((ds.length : Int) - ((k : Int) + 1) - 1).natAbs
      have hexpchars : ∀ c ∈ expSuffix ((ds.length : Int) - ((k : Int) + 1) - 1),
          isNumChar c = true := by
        rw [hexp]
        intro c hc
        rcases List.mem_cons.mp hc with rfl | hc
        · decide
        rcases List.mem_cons.mp hc with h | hc
        · rw [h]; split <;> decide
        · exact hdigit_num c (hes c hc)
      rw [hbody]
      clear hbody body
      cases ds with
      | nil => exact absurd rfl hne
      | cons d rest =>
        have hdd : isDigit d = true := hds d (List.mem_cons_self _ _)
        have hrest : ∀ c ∈ rest, isDigit c = true :=
          fun c hc => hds c (List.mem_cons_of_mem _ hc)
        cases rest with
        | nil =>
          have hm2 : mantissa [d] = [d] := rfl
          rw [hm2, hexp]
          refine ⟨?_, ⟨d, _, rfl, hdd, fun x hx => ?_⟩, ?_⟩
          · show unsignedDecimal (d :: 'e' :: _ :: _) = _
            rw [unsignedDecimal_expA d _ _ hdd hesne hes, hexpval, hval]
            rw [scaleDec_neg m k _ (by simp only [List.length_singleton]; omega) hm]
          · simp at hx; exact Or.inr (Or.inr hx.symm)
          · intro c hc
            rcases List.mem_append.mp hc with h | h
            · rw [List.mem_singleton] at h; rw [h]; exact hdigit_num d hdd
            · rw [← hexp] at h; exact hexpchars c h
        | cons r0 rs =>
          have hm2 : mantissa (d :: r0 :: rs) = d :: '.' :: (r0 :: rs) := rfl
          rw [hm2, hexp]
          refine ⟨?_, ⟨d, _, rfl, hdd, fun x hx => ?_⟩, ?_⟩
          · show unsignedDecimal (d :: '.' :: ((r0 :: rs) ++ 'e' :: _ :: _)) = _
            rw [unsignedDecimal_expB d _ _ _ hdd hrest hesne hes, hexpval, hval]
            rw [scaleDec_neg m k _ (by simp only [List.length_cons]; omega) hm]
          · simp at hx; exact Or.inr (Or.inl hx.symm)
          · intro c hc
            rcases List.mem_append.mp hc with h | h
            · rcases List.mem_cons.mp h with h | h
              · rw [h]; exact hdigit_num d hdd
              rcases List.mem_cons.mp h with h | h
              · rw [h]; decide
              · exact hdigit_num c (hrest c h)
            · rw [← hexp] at h; exact hexpchars c h

theorem decBody_spec (m k : Nat) (hm : m % 10 ≠ 0) :
    let body := positiveToString (natToString m)
      (((natToString m).length : Int) - ((k : Int) + 1))
    unsignedDecimal body = some (.dec m k) ∧
    (∃ d r, body = d :: r ∧ isDigit d = true ∧
      ∀ x ∈ r.head?, isDigit x = true ∨ x = '.' ∨ x = 'e') ∧
    (∀ c ∈ body, isNumChar c = true) :=
  decBody_aux (natToString m) m k (natToString_ne_nil m) (natToString_isDigit m)
    (digitsVal_natToString m) hm


theorem numberToString_dec_spec (m : Int) (k : Nat) (hm : m % 10 ≠ 0) :
    stringToDecimal (numberToString (.dec m k)) = some (.dec m k) ∧
    numberToString (.dec m k) ≠ [] ∧
    (∀ c ∈ numberToString (.dec m k), isNumChar c = true) := by
  have hm' : m.natAbs % 10 ≠ 0 := by omega
  obtain ⟨hu, ⟨d, r, hbody, hd, hr⟩, hchars⟩ := decBody_spec m.natAbs k hm'
  by_cases hneg : m < 0
  · have htext : numberToString (.dec m k) = '-' :: positiveToString (natToString m.natAbs)
        (((natToString m.natAbs).length : Int) - ((k : Int) + 1)) := by
      simp only [numberToString, hneg, if_true]
    have hall : ∀ c ∈ numberToString (.dec m k), isNumChar c = true := by
      rw [htext]
      intro c hc
      rcases List.mem_cons.mp hc with rfl | hc
      · decide
      · exact hchars c hc
    refine ⟨?_, by rw [htext]; simp, hall⟩
    unfold stringToDecimal
    rw [noSpace_trim _ (fun c hc => isNumChar_not_isSpace (hall c hc)), htext]
    simp only [reduceCtorEq, if_false, numericLiteral, hu, Option.map_some', negNum]
    congr 2
    omega
  · have htext : numberToString (.dec m k) = positiveToString (natToString m.natAbs)
        (((natToString m.natAbs).length : Int) - ((k : Int) + 1)) := by
      simp only [numberToString, hneg, if_false]
    have hall : ∀ c ∈ numberToString (.dec m k), isNumChar c = true := by
      rw [htext]; exact hchars
    refine ⟨?_, by rw [htext, hbody]; simp, hall⟩
    unfold stringToDecimal
    rw [noSpace_trim _ (fun c hc => isNumChar_not_isSpace (hall c hc)), htext, hbody]
    simp only [reduceCtorEq, if_false]
    rw [numericLiteral_digit d r hd hr, ← hbody, hu]
    congr 2
    omega

theorem safeText_of_numChars (x : JSNum) (h1 : stringToNumber (numberToString x) = some x)
    (h2 : numberToString x ≠ [])
    (h3 : ∀ c ∈ numberToString x, isNumChar c = true) :
    SafeText (.num x) (formatValue (.num x)) := by
  refine ⟨h2, fun c hc => isNumChar_not_isSpace (h3 c hc),
    fun hc => isNumChar_ne_comma (h3 _ hc) rfl, ?_⟩
  show parseValueStr (numberToString x) = _
  unfold parseValueStr
  obtain ⟨k, hk⟩ : ∃ k, (numberToString x).length = k + 1 :=
    Nat.exists_eq_succ_of_ne_zero (by simpa using h2)
  rw [hk]
  apply parseValueAux_number _ _ _ h1
  · rw [noSpace_trim _ (fun c hc => isNumChar_not_isSpace (h3 c hc))]
    exact h2
  · intro e
    have := h3 'n' (by rw [e]; decide)
    revert this; decide

theorem safeText_of_isNormalNum (x : JSNum) (h : isNormalNum x = true) :
    SafeText (.num x) (formatValue (.num x)) := by
  cases x with
  | int n =>
    obtain ⟨h1, h2, h3⟩ := numberToString_int_spec n
    exact safeText_of_numChars _ (stringToNumber_exact _ _ h1 h) h2 h3
  | dec m k =>
    simp only [isNormalNum, Bool.and_eq_true, decide_eq_true_eq] at h
    obtain ⟨h1, h2, h3⟩ := numberToString_dec_spec m k h.1
    exact safeText_of_numChars _ (stringToNumber_exact _ _ h1 h.2) h2 h3
  | inf neg => cases neg <;> exact ⟨by decide, by decide, by decide, rfl⟩

/-! ## Integers that rounding to double precision leaves as they are -/

theorem bitLengthAux_spec (fuel n : Nat) (h : n ≤ fuel) (hn : 0 < n) :
    2 ^ (bitLengthAux fuel n - 1) ≤ n ∧ n < 2 ^ bitLengthAux fuel n ∧
      0 < bitLengthAux fuel n := by
  induction fuel generalizing n with
  | zero => omega
  | succ f ih =>
    unfold bitLengthAux
    rw [if_neg (by omega)]
    by_cases h2 : n / 2 = 0
    · have h1 : n = 1 := by omega
      subst h1
      cases f <;> simp [bitLengthAux]
    · obtain ⟨h1, h3, h4⟩ := ih (n / 2) (by omega) (by omega)
      obtain ⟨b, hb⟩ : ∃ b, bitLengthAux f (n / 2) = b + 1 := ⟨bitLengthAux f (n / 2) - 1, by omega⟩
      rw [hb] at h1 h3 ⊢
      simp only [Nat.add_sub_cancel] at h1 ⊢
      rw [pow_succ] at h3 ⊢
      rw [pow_succ]
      omega

theorem bitLength_spec (n : Nat) (hn : 0 < n) :
    2 ^ (bitLength n - 1) ≤ n ∧ n < 2 ^ bitLength n ∧ 0 < bitLength n :=
  bitLengthAux_spec n n (Nat.le_refl n) hn

theorem bitLength_le (n b : Nat) (hn : 0 < n) (h : n < 2 ^ b) : bitLength n ≤ b := by
  obtain ⟨h1, -, h3⟩ := bitLength_spec n hn
  have h4 : 2 ^ (bitLength n - 1) < 2 ^ b := Nat.lt_of_le_of_lt h1 h
  have h5 := (Nat.pow_lt_pow_iff_right (by norm_num : 1 < 2)).1 h4
  omega

theorem bitLength_gt (n b : Nat) (h : 2 ^ b ≤ n) : b < bitLength n := by
  have hn : 0 < n := Nat.lt_of_lt_of_le (Nat.two_pow_pos b) h
  obtain ⟨-, h2, -⟩ := bitLength_spec n hn
  exact (Nat.pow_lt_pow_iff_right (by norm_num : 1 < 2)).1 (Nat.lt_of_le_of_lt h h2)

theorem binaryExponent_one (c : Nat) (hc : 0 < c) :
    binaryExponent c 1 = (bitLength c : Int) - 1 := by
  obtain ⟨h1, -, h3⟩ := bitLength_spec c hc
  have hb1 : bitLength 1 = 1 := rfl
  unfold binaryExponent
  simp only [hb1, Nat.cast_one]
  have ha : ((bitLength c : Int) - 1).toNat = bitLength c - 1 := by omega
  have hb : (-((bitLength c : Int) - 1)).toNat = 0 := by omega
  rw [if_pos]
  unfold shiftUp
  rw [ha, hb]
  simpa using h1

theorem roundToDouble_small (c : Nat) (hc : 0 < c) (h : c < 2 ^ 53) :
    roundToDouble c 1 = some (c * 2 ^ (53 - bitLength c), (bitLength c : Int) - 53) := by
  obtain ⟨h1, h2, h3⟩ := bitLength_spec c hc
  have hle := bitLength_le c 53 hc h
  have he : max ((bitLength c : Int) - 1 - 52) (-1074) = (bitLength c : Int) - 53 := by omega
  have ha : (-((bitLength c : Int) - 53)).toNat = 53 - bitLength c := by omega
  have hb : ((bitLength c : Int) - 53).toNat = 0 := by omega
  have hlo : 2 ^ 52 ≤ c * 2 ^ (53 - bitLength c) := by
    calc 2 ^ 52 = 2 ^ (bitLength c - 1) * 2 ^ (53 - bitLength c) := by
          rw [← pow_add]; congr 1; omega
      _ ≤ c * 2 ^ (53 - bitLength c) := Nat.mul_le_mul_right _ h1
  have hhi : c * 2 ^ (53 - bitLength c) < 2 ^ 53 := by
    calc c * 2 ^ (53 - bitLength c) < 2 ^ bitLength c * 2 ^ (53 - bitLength c) :=
          Nat.mul_lt_mul_of_pos_right h2 (Nat.two_pow_pos _)
      _ = 2 ^ 53 := by rw [← pow_add]; congr 1; omega
  unfold roundToDouble
  simp only [binaryExponent_one c hc, he]
  unfold shiftUp
  simp only [ha, hb, pow_zero, Nat.mul_one, Nat.div_one, Nat.mod_one]
  have hm0 : ¬ (1 < 2 * 0 ∨ (2 * 0 = 1 ∧ c * 2 ^ (53 - bitLength c) % 2 = 1)) := by omega
  have hm1 : ¬ (c * 2 ^ (53 - bitLength c) = 2 ^ 53) := by omega
  simp only [if_neg hm0, if_neg hm1]
  rw [if_neg (by omega)]

theorem roundToDouble_large (c m : Nat) (e : Int) (h : 2 ^ 53 ≤ c)
    (hr : roundToDouble c 1 = some (m, e)) : 1 ≤ e := by
  have hc : 0 < c := Nat.lt_of_lt_of_le (Nat.two_pow_pos 53) h
  have hb := bitLength_gt c 53 h
  have he : 1 ≤ max ((bitLength c : Int) - 1 - 52) (-1074) := by omega
  unfold roundToDouble at hr
  simp only [binaryExponent_one c hc] at hr
  generalize max ((bitLength c : Int) - 1 - 52) (-1074) = e0 at he hr
  split_ifs at hr <;> simp only [Option.some.injEq, Prod.mk.injEq] at hr <;> omega

theorem roundToDouble_zero : roundToDouble 0 1 = some (0, -54) := by
  decide

theorem roundToDouble_inj (c x : Nat) (hc : 0 < c) (h : c < 2 ^ 53)
    (hx : roundToDouble x 1 = roundToDouble c 1) : x = c := by
  rw [roundToDouble_small c hc h] at hx
  have hle := bitLength_le c 53 hc h
  rcases Nat.eq_zero_or_pos x with h0 | h0
  · subst h0
    rw [roundToDouble_zero] at hx
    simp only [Option.some.injEq, Prod.mk.injEq] at hx
    have : 0 < c * 2 ^ (53 - bitLength c) := Nat.mul_pos hc (Nat.two_pow_pos _)
    omega
  · by_cases hx53 : x < 2 ^ 53
    · rw [roundToDouble_small x h0 hx53] at hx
      simp only [Option.some.injEq, Prod.mk.injEq] at hx
      have hb : bitLength x = bitLength c := by omega
      rw [hb] at hx
      exact Nat.eq_of_mul_eq_mul_right (Nat.two_pow_pos _) hx.1
    · have := roundToDouble_large x _ _ (by omega) hx
      omega

theorem natDigitsAux_length (fuel n j : Nat) (acc : Str) (hj : 0 < j) (h : n < 10 ^ j) :
    (natDigitsAux fuel n acc).length ≤ acc.length + j := by
  induction fuel generalizing n j acc with
  | zero => simp [natDigitsAux]
  | succ f ih =>
    unfold natDigitsAux
    split
    · simp only [List.length_cons]; omega
    · rename_i hn
      obtain ⟨i, rfl⟩ : ∃ i, j = i + 1 := ⟨j - 1, by omega⟩
      rw [pow_succ] at h
      have hi : 0 < i := by
        rcases Nat.eq_zero_or_pos i with h0 | h0
        · subst h0; simp only [pow_zero, Nat.one_mul] at h; omega
        · exact h0
      have := ih (n / 10) i (digitChar (n % 10) :: acc) hi (by omega)
      simp only [List.length_cons] at this
      omega

theorem natToString_length_le (n : Nat) (h : n < 2 ^ 53) : (natToString n).length ≤ 16 := by
  have := natDigitsAux_length (n + 1) n 16 [] (by norm_num)
    (Nat.lt_of_lt_of_le h (by norm_num))
  simpa [natToString] using this

theorem digitsOfLength_int (m : Nat) (e : Int) (N k : Nat) (hk : k ≤ N) (x : JSNum)
    (h : digitsOfLength m e (N : Int) k = some x) :
    ∃ y : Nat, x = .int ((y : Nat) : Int) ∧ roundToDouble y 1 = some (m, e) := by
  have hd : ((N : Int) - (k : Int)).toNat = N - k := by omega
  have hd0 : (-((N : Int) - (k : Int))).toNat = 0 := by omega
  have hnn : (0 : Int) ≤ (N : Int) - (k : Int) := by omega
  have key : ∀ lo : Nat, roundDecimal lo ((N : Int) - (k : Int)) = some (m, e) →
      ∃ y : Nat, scaleDec lo ((N : Int) - (k : Int)) = .int ((y : Nat) : Int) ∧
        roundToDouble y 1 = some (m, e) := by
    intro lo hlo
    refine ⟨lo * 10 ^ (N - k), ?_, ?_⟩
    · unfold scaleDec
      rw [if_pos hnn, hd]
      push_cast
      rfl
    · unfold roundDecimal at hlo
      rw [hd, hd0, pow_zero] at hlo
      exact hlo
  unfold digitsOfLength at h
  simp only [] at h
  split_ifs at h with h1 h2 h3 h4 <;> simp only [Option.some.injEq] at h <;> subst h
  · exact key _ (of_decide_eq_true h1.1)
  · exact key _ (of_decide_eq_true h1.2)
  · exact key _ (of_decide_eq_true h3)
  · exact key _ (of_decide_eq_true h4)

theorem digitsOfLength_isSome (c N : Nat) (hc : 0 < c) (h : c < 2 ^ 53) :
    (digitsOfLength (c * 2 ^ (53 - bitLength c)) ((bitLength c : Int) - 53) (N : Int) N).isSome
      = true := by
  have hle := bitLength_le c 53 hc h
  have ha : (-((bitLength c : Int) - 53)).toNat = 53 - bitLength c := by omega
  have hb : ((bitLength c : Int) - 53).toNat = 0 := by omega
  have hlo : roundDecimal
      (shiftUp (c * 2 ^ (53 - bitLength c)) ((bitLength c : Int) - 53) * 10 ^ (-((N : Int) - (N : Int))).toNat /
        (shiftUp 1 (-((bitLength c : Int) - 53)) * 10 ^ ((N : Int) - (N : Int)).toNat))
      ((N : Int) - (N : Int)) = some (c * 2 ^ (53 - bitLength c), (bitLength c : Int) - 53) := by
    unfold roundDecimal shiftUp
    simp only [sub_self, neg_zero, Int.toNat_zero, pow_zero, Nat.mul_one, ha, hb, Nat.one_mul]
    rw [Nat.mul_div_cancel _ (Nat.two_pow_pos _)]
    exact roundToDouble_small c hc h
  unfold digitsOfLength
  simp only [hlo, decide_True, true_and]
  split_ifs <;> rfl

theorem range_split (n j : Nat) (hj : j < n) : ∃ l, List.range n = List.range j ++ j :: l := by
  induction n with
  | zero => omega
  | succ n ih =>
    rw [List.range_succ]
    rcases Nat.lt_succ_iff_lt_or_eq.1 hj with h | h
    · obtain ⟨l, hl⟩ := ih h
      exact ⟨l ++ [n], by rw [hl]; simp⟩
    · subst h
      exact ⟨[], rfl⟩

theorem findSome_first {α : Type} (f : Nat → Option α) (a : α) (l1 l2 : List Nat) (j : Nat)
    (h1 : ∀ i ∈ l1, ∀ x, f i = some x → x = a) (hj : f j = some a) :
    (l1 ++ j :: l2).findSome? f = some a := by
  induction l1 with
  | nil => simp [List.findSome?, hj]
  | cons i t ih =>
    simp only [List.cons_append, List.findSome?]
    cases hfi : f i with
    | none => exact ih (fun i hi x hx => h1 i (List.mem_cons_of_mem _ hi) x hx)
    | some x => simp only [Option.some.injEq]; exact h1 i (List.mem_cons_self _ _) x hfi

theorem shortestDecimal_int (c : Nat) (hc : 0 < c) (h : c < 2 ^ 53) :
    shortestDecimal (c * 2 ^ (53 - bitLength c)) ((bitLength c : Int) - 53) = .int (c : Int) := by
  have hle := bitLength_le c 53 hc h
  have ha : (-((bitLength c : Int) - 53)).toNat = 53 - bitLength c := by omega
  have hb : ((bitLength c : Int) - 53).toNat = 0 := by omega
  have hN1 : 0 < (natToString c).length := List.length_pos.2 (natToString_ne_nil c)
  have hN2 := natToString_length_le c h
  have hn : decimalExponent (shiftUp (c * 2 ^ (53 - bitLength c)) ((bitLength c : Int) - 53))
      (shiftUp 1 (-((bitLength c : Int) - 53))) = ((natToString c).length : Int) := by
    unfold decimalExponent shiftUp
    simp only [ha, hb, pow_zero, Nat.mul_one, Nat.one_mul]
    rw [if_pos (Nat.le_mul_of_pos_left _ hc), Nat.mul_div_cancel _ (Nat.two_pow_pos _)]
  have hval : ∀ k, k ≤ (natToString c).length → ∀ x,
      digitsOfLength (c * 2 ^ (53 - bitLength c)) ((bitLength c : Int) - 53)
        ((natToString c).length : Int) k = some x → x = .int (c : Int) := by
    intro k hk x hx
    obtain ⟨y, rfl, hy⟩ := digitsOfLength_int _ _ _ k hk x hx
    rw [← roundToDouble_small c hc h] at hy
    rw [roundToDouble_inj c y hc h hy]
  unfold shortestDecimal
  simp only [hn]
  obtain ⟨l, hl⟩ := range_split 17 ((natToString c).length - 1) (by omega)
  rw [hl, findSome_first _ (.int (c : Int)) _ l _ ?_ ?_]
  · rfl
  · intro i hi x hx
    exact hval (i + 1) (by have := List.mem_range.1 hi; omega) x hx
  · have hs := digitsOfLength_isSome c (natToString c).length hc h
    have he : (natToString c).length - 1 + 1 = (natToString c).length := by omega
    rw [he]
    cases hx : digitsOfLength (c * 2 ^ (53 - bitLength c)) ((bitLength c : Int) - 53)
        ((natToString c).length : Int) (natToString c).length with
    | none => rw [hx] at hs; exact absurd hs (by simp)
    | some x => rw [hval _ (Nat.le_refl _) x hx]

theorem nearestNumber_int (c : Nat) (h : c ≤ 2 ^ 53) : nearestNumber c 0 = .int (c : Int) := by
  rcases Nat.lt_or_eq_of_le h with h1 | h1
  · rcases Nat.eq_zero_or_pos c with h0 | h0
    · subst h0; rfl
    · unfold nearestNumber
      rw [if_neg (by omega), pow_zero, roundToDouble_small c h0 h1]
      have : ¬ c * 2 ^ (53 - bitLength c) = 0 :=
        Nat.pos_iff_ne_zero.1 (Nat.mul_pos h0 (Nat.two_pow_pos _))
      simp only [if_neg this]
      exact shortestDecimal_int c h0 h1
  · subst h1
    decide!

/-- An integer of absolute value at most `2 ^ 53` is a Number, and rounding
leaves it as it is. -/
theorem toNumber_int (n : Int) (h : n.natAbs ≤ 2 ^ 53) : toNumber (.int n) = .int n := by
  simp only [toNumber, nearestNumber_int n.natAbs h]
  split
  · simp only [negNum]
    congr 1
    omega
  · congr 1
    omega

theorem isNumber_int (n : Int) (h : n.natAbs ≤ 2 ^ 53) : isNumber (.int n) = true := by
  unfold isNumber
  exact decide_eq_true (toNumber_int n h)
/-- Claim C9, refuted as stated: the canonical decimal text of the integer
`2 ^ 53 + 1` parses to the number `2 ^ 53`, the double nearest to it, and not
to the integer itself. -/
theorem C9_counterexample :
    decimalText 9007199254740993 = "9007199254740993".toList ∧
    parseValue (some (decimalText 9007199254740993)) =
      some (.num (.int 9007199254740992)) ∧
    parseValue (some (decimalText 9007199254740993)) ≠
      some (.num (.int 9007199254740993)) := by
  decide!

/-- Claim C9, amended: `parseValue` inverts `formatValue` on plain scalars and
flat arrays, for the integers that a Number holds: the canonical decimal text
of every integer `z` parses to the Number nearest to `z`, which is `z` itself
when `|z| ≤ 2 ^ 53`, and is `n` itself for every integer `n` that rounding to
double precision leaves as it is; the texts `true`, `false` and `null` parse
to the booleans and to `null`; and for a non-empty list `L` of such integers,
booleans and nulls, `parseValue(formatValue(L)) = L`. -/
theorem C9_parseValue_inverts_formatValue (n : Int) (L : List Value) (hne : L ≠ [])
    (hn : isNumber (.int n) = true) (hL : ∀ v ∈ L, isIntBoolNull v = true) :
    (∀ z : Int, parseValue (some (decimalText z)) = some (.num (toNumber (.int z)))) ∧
    (∀ z : Int, z.natAbs ≤ 2 ^ 53 →
      parseValue (some (decimalText z)) = some (.num (.int z))) ∧
    parseValue (some (decimalText n)) = some (.num (.int n)) ∧
    parseValue (some "true".toList) = some (.bool true) ∧
    parseValue (some "false".toList) = some (.bool false) ∧
    parseValue (some "null".toList) = some .null ∧
    parseValue (some (formatValue (.arr L))) = some (.arr L) := by
  refine ⟨?_, ?_, ?_, rfl, rfl, rfl, ?_⟩
  · intro z
    simp only [parseValue, parseValueStr_decimalText]
  · intro z hz
    simp only [parseValue, parseValueStr_decimalText, toNumber_int z hz]
  · simp only [parseValue, parseValueStr_decimalText]
    unfold isNumber at hn
    rw [of_decide_eq_true hn]
  · simp only [parseValue, parseValueStr_array L hne
      (fun v hv => isSafeScalar_of_isIntBoolNull (hL v hv))]

/-- Witness of C9 at the integer 42 and at the list `[1,2,3]`, whose text is
`"[1,2,3]"`. -/
theorem C9_parseValue_inverts_formatValue_witness :
    (∀ z : Int, parseValue (some (decimalText z)) = some (.num (toNumber (.int z)))) ∧
    (∀ z : Int, z.natAbs ≤ 2 ^ 53 →
      parseValue (some (decimalText z)) = some (.num (.int z))) ∧
    parseValue (some "42".toList) = some (.num (.int 42)) ∧
    parseValue (some "true".toList) = some (.bool true) ∧
    parseValue (some "false".toList) = some (.bool false) ∧
    parseValue (some "null".toList) = some .null ∧
    parseValue (some "[1,2,3]".toList)
      = some (.arr [.num (.int 1), .num (.int 2), .num (.int 3)]) :=
  C9_parseValue_inverts_formatValue 42 [.num (.int 1), .num (.int 2), .num (.int 3)]
    (by decide) (by decide) (by decide)

/-! ## The decoder -/


theorem split_ne_nil (sep : Char) (l : Str) : split sep l ≠ [] :=
  List.splitOnP_ne_nil _ _

theorem split_no_sep (sep : Char) (l p : Str) (hp : p ∈ split sep l) : sep ∉ p := by
  unfold split List.splitOn at hp
  induction l generalizing p with
  | nil =>
    simp at hp
    subst hp
    simp
  | cons c l ih =>
    rw [List.splitOnP_cons] at hp
    by_cases hc : (c == sep) = true
    · rw [if_pos hc] at hp
      rcases List.mem_cons.mp hp with rfl | hp
      · simp
      · exact ih p hp
    · rw [if_neg hc] at hp
      cases hs : List.splitOnP (fun x => x == sep) l with
      | nil => exact absurd hs (List.splitOnP_ne_nil _ _)
      | cons a t =>
        rw [hs] at hp ih
        simp only [List.modifyHead_cons, List.mem_cons] at hp
        rcases hp with rfl | hp
        · intro hmem
          rcases List.mem_cons.mp hmem with h | h
          · exact hc (by simp [h])
          · exact ih a (List.mem_cons_self _ _) h
        · exact ih p (List.mem_cons_of_mem _ hp)

theorem trim_eq_nil_iff (l : Str) : trim l = [] ↔ l.all isSpace = true := by
  unfold trim
  constructor
  · intro h
    have h1 : (l.dropWhile isSpace).reverse.dropWhile isSpace = [] := by
      simpa using h
    by_contra hall
    have hne : l.dropWhile isSpace ≠ [] := by
      intro e
      rw [List.dropWhile_eq_nil_iff] at e
      exact hall (List.all_eq_true.mpr e)
    obtain ⟨c, t, hct⟩ := List.exists_cons_of_ne_nil hne
    have hc : isSpace c = false := by
      have := List.head_dropWhile_not isSpace l hne
      simp only [hct, List.head_cons] at this
      simpa using this
    rw [List.dropWhile_eq_nil_iff] at h1
    have := h1 c (by rw [hct]; simp)
    rw [hc] at this; cases this
  · intro h
    have : l.dropWhile isSpace = [] := by
      rw [List.dropWhile_eq_nil_iff]
      exact List.all_eq_true.mp h
    rw [this]; rfl

theorem lineIndent_nonneg (line : Str) (h : trim line ≠ []) : 0 ≤ lineIndent line := by
  unfold lineIndent
  have : ¬ line.all isSpace = true := fun e => h ((trim_eq_nil_iff line).mpr e)
  rw [if_neg this]
  omega

theorem lineIndent_indent (line : Str) (h : trim line ≠ []) :
    lineIndent (' ' :: ' ' :: line) = lineIndent line + 2 := by
  unfold lineIndent
  have hn : ¬ line.all isSpace = true := fun e => h ((trim_eq_nil_iff line).mpr e)
  have h2 : ¬ (' ' :: ' ' :: line).all isSpace = true := by
    simpa [List.all_cons, show isSpace ' ' = true from rfl] using hn
  rw [if_neg hn, if_neg h2]
  simp only [List.takeWhile, show isSpace ' ' = true from rfl, List.length_cons, Nat.cast_add,
    Nat.cast_one]
  omega

theorem trim_indent (line : Str) : trim (' ' :: ' ' :: line) = trim line := by
  simp [trim, List.dropWhile, show isSpace ' ' = true from rfl]

theorem popFrames_lift (k : Str) (i : Int) (hi : 0 ≤ i) (top : Frame) (below : List Frame) :
    popFrames (i + 2) (liftTop k top below) (liftBelow k below) =
      liftStack k (popFrames i top below) := by
  induction below generalizing top with
  | nil =>
    have : ¬ ((0 : Int) ≥ i + 2) := by omega
    simp [liftTop, liftBelow, popFrames, liftStack, this]
  | cons parent rest ih =>
    by_cases h : top.indent ≥ i
    · have h2 : top.indent + 2 ≥ i + 2 := by omega
      have e : attach (liftTop k top (parent :: rest)) (liftTop k parent rest) =
          liftTop k (attach top parent) rest := by
        cases rest <;> rfl
      simp only [liftBelow, popFrames, liftTop, h, h2, if_true]
      rw [← ih (attach top parent)]
      congr 1
    · have h2 : ¬ (top.indent + 2 ≥ i + 2) := by omega
      simp [liftBelow, popFrames, liftTop, h, h2, liftStack]

theorem assign_lift (k : Str) (st : Stack) (key : Str) (v : Value) :
    assign (liftStack k st) key v = liftStack k (assign st key v) := by
  obtain ⟨top, below⟩ := st
  cases below <;> rfl

theorem processLine_lift (k : Str) (st : Stack) (line : Str) (h : trim line ≠ []) :
    processLine (liftStack k st) (' ' :: ' ' :: line) = (processLine st line).map (liftStack k) := by
  unfold processLine
  rw [trim_indent, lineIndent_indent line h]
  have hp : popFrames (lineIndent line + 2) (liftStack k st).top (liftStack k st).below =
      liftStack k (popFrames (lineIndent line) st.top st.below) :=
    popFrames_lift k (lineIndent line) (lineIndent_nonneg line h) st.top st.below
  dsimp only
  rw [hp]
  cases arrayMatch (trim line) with
  | some r =>
    obtain ⟨key, fields, valuesStr⟩ := r
    simp only [Option.map_map]
    congr 1
    funext rows
    exact assign_lift _ _ _ _
  | none =>
    cases objectMatch (trim line) with
    | some r =>
      obtain ⟨key, fields, vals⟩ := r
      simp only [Option.map_map]
      congr 1
      funext o
      exact assign_lift _ _ _ _
    | none =>
      cases nestedMatch (trim line) with
      | some key =>
        simp only [Option.map_some', Option.some.injEq]
        rw [assign_lift]
        generalize popFrames (lineIndent line) st.top st.below = st1
        obtain ⟨top, below⟩ := st1
        cases below <;> rfl
      | none =>
        cases primitiveMatch (trim line) with
        | some r =>
          obtain ⟨key, val⟩ := r
          simp only [Option.map_map]
          congr 1
          funext o
          exact assign_lift _ _ _ _
        | none => rfl

theorem processLines_lift (k : Str) (st : Stack) (lines : List Str)
    (h : ∀ l ∈ lines, trim l ≠ []) :
    processLines (liftStack k st) (lines.map (fun l => ' ' :: ' ' :: l)) =
      (processLines st lines).map (liftStack k) := by
  induction lines generalizing st with
  | nil => rfl
  | cons l rest ih =>
    simp only [List.map_cons, processLines]
    rw [processLine_lift k st l (h l (List.mem_cons_self _ _))]
    cases processLine st l with
    | none => rfl
    | some st1 =>
      simp only [Option.map_some']
      exact ih st1 (fun x hx => h x (List.mem_cons_of_mem _ hx))

theorem rootObject_lift (k : Str) (hk : k ≠ protoKey) (top : Frame) (below : List Frame) :
    rootObject (liftTop k top below) (liftBelow k below) = [(k, .obj (rootObject top below))] := by
  induction below generalizing top with
  | nil => simp [liftTop, liftBelow, rootObject, attach, setProp, storeProp, hk]
  | cons parent rest ih =>
    have e : attach (liftTop k top (parent :: rest)) (liftTop k parent rest) =
        liftTop k (attach top parent) rest := by
      cases rest <;> rfl
    simp only [liftBelow, rootObject]
    rw [e, ih]



theorem isWordName_iff {k : Str} :
    isWordName k = true ↔ k ≠ [] ∧ ∀ c ∈ k, isWord c = true := by
  simp [isWordName, List.all_eq_true]

theorem wordSpan (k rest : Str) (hk : isWordName k = true)
    (hrest : ∀ c ∈ rest.head?, isWord c = false) :
    (k ++ rest).takeWhile isWord = k ∧ (k ++ rest).dropWhile isWord = rest :=
  takeWhile_append_stop k rest (isWordName_iff.mp hk).2 hrest

theorem lineIndent_word (k rest : Str) (hk : isWordName k = true) :
    lineIndent (k ++ rest) = 0 := by
  obtain ⟨hne, hw⟩ := isWordName_iff.mp hk
  obtain ⟨c, t, rfl⟩ := List.exists_cons_of_ne_nil hne
  have hc : isSpace c = false := isWord_not_isSpace (hw c (List.mem_cons_self _ _))
  simp [lineIndent, List.takeWhile, hc]

theorem popFrames_root (i : Int) (top : Frame) : popFrames i top [] = ⟨top, []⟩ := rfl

theorem processLine_opener (k : Str) (hk : isWordName k = true) (st : Stack) (root : Frame)
    (hpop : popFrames 0 st.top st.below = ⟨root, []⟩) :
    processLine st (k ++ [':']) =
      some ⟨⟨k, [], 0⟩, [{ root with obj := setProp root.obj k (.obj []) }]⟩ := by
  obtain ⟨hne, hw⟩ := isWordName_iff.mp hk
  have hsp := wordSpan k [':'] hk (by intro c hc; simp at hc; subst hc; decide)
  have htrim : trim (k ++ [':']) = k ++ [':'] := by
    apply noSpace_trim
    intro c hc
    rcases List.mem_append.mp hc with hc | hc
    · exact isWord_not_isSpace (hw c hc)
    · rw [List.mem_singleton] at hc; subst hc; decide
  unfold processLine
  dsimp only
  rw [htrim, lineIndent_word k _ hk, hpop]
  have h1 : arrayMatch (k ++ [':']) = none := by
    simp [arrayMatch, hsp.1, hsp.2, hne]
  have h2 : objectMatch (k ++ [':']) = none := by
    simp [objectMatch, hsp.1, hsp.2, hne]
  have h3 : nestedMatch (k ++ [':']) = some k := by
    simp [nestedMatch, hsp.1, hsp.2, hne]
  rw [h1, h2, h3]
  rfl

theorem nonBlankLines_join (ls : List Str) (hne : ls ≠ []) (h : ∀ l ∈ ls, '\n' ∉ l) :
    nonBlankLines (join ['\n'] ls) = ls.filter (fun line => trim line != []) := by
  unfold nonBlankLines
  rw [split_join '\n' ls hne h]


theorem nonBlankLines_join_lines (ls : List Str) (h : ∀ l ∈ ls, '\n' ∉ l) :
    nonBlankLines (join ['\n'] ls) = ls.filter (fun line => trim line != []) := by
  cases ls with
  | nil => decide
  | cons a t => exact nonBlankLines_join _ (by simp) h

theorem processLines_append (st : Stack) (a b : List Str) :
    processLines st (a ++ b) = (processLines st a).bind (fun st1 => processLines st1 b) := by
  induction a generalizing st with
  | nil => rfl
  | cons l rest ih =>
    simp only [List.cons_append, processLines]
    cases processLine st l with
    | none => rfl
    | some st1 => exact ih st1

theorem rootObject_popFrames (i : Int) (top : Frame) (below : List Frame) :
    rootObject (popFrames i top below).top (popFrames i top below).below =
      rootObject top below := by
  induction below generalizing top with
  | nil => rfl
  | cons parent rest ih =>
    simp only [popFrames]
    split
    · rw [ih]; rfl
    · rfl

theorem popFrames_popFrames (i j : Int) (hij : j ≤ i) (top : Frame) (below : List Frame) :
    popFrames j (popFrames i top below).top (popFrames i top below).below =
      popFrames j top below := by
  induction below generalizing top with
  | nil => rfl
  | cons parent rest ih =>
    by_cases h : top.indent ≥ i
    · have h2 : top.indent ≥ j := by omega
      simp only [popFrames, h, h2, if_true]
      exact ih _
    · simp only [popFrames, h, if_false]

theorem processLine_unmatched (st : Stack) (line : Str) (hu : isUnmatched line = true) :
    processLine st line = some (popFrames (lineIndent line) st.top st.below) := by
  simp only [isUnmatched, Bool.and_eq_true, Option.isNone_iff_eq_none] at hu
  obtain ⟨⟨⟨h1, h2⟩, h3⟩, h4⟩ := hu
  unfold processLine
  dsimp only
  rw [h1, h2, h3, h4]

theorem processLine_after_pop (st : Stack) (i : Int) (m : Str) (h : lineIndent m ≤ i) :
    processLine (popFrames i st.top st.below) m = processLine st m := by
  unfold processLine
  dsimp only
  rw [popFrames_popFrames i (lineIndent m) h]


theorem storeProp_new (acc : List (Str × Value)) (k : Str) (v : Value)
    (h : k ∉ acc.map Prod.fst) : storeProp acc k v = acc ++ [(k, v)] := by
  induction acc with
  | nil => rfl
  | cons f rest ih =>
    obtain ⟨k1, v1⟩ := f
    simp only [List.map_cons, List.mem_cons, not_or] at h
    have hne : ¬ k1 = k := fun e => h.1 e.symm
    simp only [storeProp, hne, if_false, ih h.2, List.cons_append]

theorem setProp_store (acc : List (Str × Value)) (k : Str) (v : Value) (hk : k ≠ protoKey) :
    setProp acc k v = storeProp acc k v := by
  unfold setProp
  rw [if_neg hk]

theorem setProp_new (acc : List (Str × Value)) (k : Str) (v : Value) (hk : k ≠ protoKey)
    (h : k ∉ acc.map Prod.fst) : setProp acc k v = acc ++ [(k, v)] := by
  rw [setProp_store acc k v hk, storeProp_new acc k v h]

theorem isFieldName_iff {k : Str} :
    isFieldName k = true ↔ isWordName k = true ∧ k ≠ protoKey := by
  simp [isFieldName]

theorem foldl_setProp (fs acc : List (Str × Value)) (hnd : (fs.map Prod.fst).Nodup)
    (hk : ∀ f ∈ fs, f.1 ≠ protoKey)
    (hacc : ∀ f ∈ fs, f.1 ∉ acc.map Prod.fst) :
    fs.foldl (fun a f => setProp a f.1 f.2) acc = acc ++ fs := by
  induction fs generalizing acc with
  | nil => simp
  | cons f rest ih =>
    simp only [List.map_cons, List.nodup_cons] at hnd
    simp only [List.foldl_cons]
    rw [setProp_new acc f.1 f.2 (hk f (List.mem_cons_self _ _))
      (hacc f (List.mem_cons_self _ _))]
    rw [ih (acc ++ [(f.1, f.2)]) hnd.2 (fun g hg => hk g (List.mem_cons_of_mem _ hg))]
    · simp
    · intro g hg
      simp only [List.map_append, List.map_cons, List.map_nil, List.mem_append,
        List.mem_singleton, not_or]
      refine ⟨hacc g (List.mem_cons_of_mem _ hg), ?_⟩
      intro e
      exact hnd.1 (e ▸ List.mem_map_of_mem Prod.fst hg)

theorem fillObject_roundtrip (fs : List (Str × Value)) (pre : List Str)
    (acc : List (Str × Value)) (hnd : (fs.map Prod.fst).Nodup)
    (hk : ∀ f ∈ fs, f.1 ≠ protoKey)
    (hacc : ∀ f ∈ fs, f.1 ∉ acc.map Prod.fst)
    (hsafe : ∀ f ∈ fs, parseValueStr (formatValue f.2) = f.2) :
    fillObject (pre ++ fs.map (fun f => formatValue f.2)) (fs.map Prod.fst) pre.length acc =
      some (acc ++ fs) := by
  induction fs generalizing pre acc with
  | nil => simp [fillObject]
  | cons f rest ih =>
    simp only [List.map_cons, List.nodup_cons] at hnd
    have hget : (pre ++ formatValue f.2 :: rest.map (fun f => formatValue f.2))[pre.length]? =
        some (formatValue f.2) := by
      rw [List.getElem?_append_right (le_refl _)]
      simp
    simp only [List.map_cons, fillObject, hget, parseValue,
      hsafe f (List.mem_cons_self _ _)]
    rw [setProp_new acc f.1 f.2 (hk f (List.mem_cons_self _ _))
      (hacc f (List.mem_cons_self _ _))]
    have := ih (pre ++ [formatValue f.2]) (acc ++ [(f.1, f.2)]) hnd.2
      (fun g hg => hk g (List.mem_cons_of_mem _ hg)) (by
      intro g hg
      simp only [List.map_append, List.map_cons, List.map_nil, List.mem_append,
        List.mem_singleton, not_or]
      refine ⟨hacc g (List.mem_cons_of_mem _ hg), ?_⟩
      intro e
      exact hnd.1 (e ▸ List.mem_map_of_mem Prod.fst hg))
      (fun g hg => hsafe g (List.mem_cons_of_mem _ hg))
    simp only [List.append_assoc, List.singleton_append, List.length_append,
      List.length_singleton] at this
    rw [this]


theorem join_ne_nil (sep : Str) (ls : List Str) (p : Str) (hp : p ∈ ls) (hne : p ≠ []) :
    join sep ls ≠ [] := by
  intro e
  have := length_le_join sep ls p hp
  rw [e] at this
  exact hne (List.length_eq_zero.mp (by simpa using this))

theorem valuesText_spec (fs : List (Str × Value)) (hne : fs ≠ [])
    (hst : ∀ f ∈ fs, SafeText f.2 (formatValue f.2)) :
    valuesText fs ≠ [] ∧ (∀ c ∈ valuesText fs, isSpace c = false) ∧
    split ',' (valuesText fs) = fs.map (fun f => formatValue f.2) := by
  obtain ⟨f0, rest, rfl⟩ := List.exists_cons_of_ne_nil hne
  refine ⟨?_, ?_, ?_⟩
  · exact join_ne_nil _ _ (formatValue f0.2) (by simp) (hst f0 (List.mem_cons_self _ _)).ne
  · intro c hc
    rcases mem_join hc with hc | ⟨t, ht, hct⟩
    · rw [List.mem_singleton] at hc; subst hc; decide
    · obtain ⟨f, hf, rfl⟩ := List.mem_map.mp ht
      exact (hst f hf).noSpace c hct
  · apply split_join
    · simp
    · intro t ht
      obtain ⟨f, hf, rfl⟩ := List.mem_map.mp ht
      exact (hst f hf).noComma

theorem rowObject_roundtrip (fs : List (Str × Value)) (hne : fs ≠ [])
    (hnd : (fs.map Prod.fst).Nodup) (hk : ∀ f ∈ fs, f.1 ≠ protoKey)
    (hst : ∀ f ∈ fs, SafeText f.2 (formatValue f.2)) :
    rowObject (fs.map Prod.fst) (valuesText fs) = some (.obj fs) := by
  unfold rowObject
  rw [(valuesText_spec fs hne hst).2.2]
  have := fillObject_roundtrip fs [] [] hnd hk (by simp)
    (fun f hf => (hst f hf).parse)
  simp only [List.nil_append, List.length_nil] at this
  rw [this]
  rfl

theorem keysText_spec (ks : List Str) (hne : ks ≠ [])
    (hw : ∀ k ∈ ks, isWordName k = true) :
    join [','] ks ≠ [] ∧ (∀ c ∈ join [','] ks, isWord c = true ∨ c = ',') ∧
    split ',' (join [','] ks) = ks := by
  obtain ⟨k0, rest, rfl⟩ := List.exists_cons_of_ne_nil hne
  refine ⟨?_, ?_, ?_⟩
  · exact join_ne_nil _ _ k0 (by simp) (isWordName_iff.mp (hw k0 (List.mem_cons_self _ _))).1
  · intro c hc
    rcases mem_join hc with hc | ⟨t, ht, hct⟩
    · rw [List.mem_singleton] at hc; exact Or.inr hc
    · exact Or.inl ((isWordName_iff.mp (hw t ht)).2 c hct)
  · apply split_join
    · simp
    · intro t ht hmem
      have := (isWordName_iff.mp (hw t ht)).2 _ hmem
      revert this; decide

theorem valueTail_space (t : Str) (hhead : ∀ c ∈ t.head?, isSpace c = false)
    (hlt : ∀ c ∈ t, isLineTerminator c = false) : valueTail (' ' :: t) = some t := by
  have hany : t.any isLineTerminator = false := by
    rw [List.any_eq_false]
    intro x hx h
    rw [hlt x hx] at h; cases h
  cases t with
  | nil => rfl
  | cons c r =>
    have hc := hhead c rfl
    simp only [valueTail, List.dropWhile, show isSpace ' ' = true from rfl, hc, hany]
    simp

theorem not_isLineTerminator_of_not_isSpace {c : Char} (h : isSpace c = false) :
    isLineTerminator c = false := by
  cases hl : isLineTerminator c
  · rfl
  · rw [isLineTerminator_isSpace hl] at h; cases h

theorem join_getLast (sep : Str) (ls : List Str) (hne : ls ≠ []) (h : ∀ l ∈ ls, l ≠ []) :
    ∃ l ∈ ls, (join sep ls).getLast? = l.getLast? := by
  induction ls with
  | nil => exact absurd rfl hne
  | cons a t ih =>
    cases t with
    | nil => exact ⟨a, List.mem_singleton_self _, by rw [join_singleton]⟩
    | cons b t =>
      obtain ⟨l, hl, hlast⟩ := ih (by simp) (fun l hl => h l (List.mem_cons_of_mem _ hl))
      refine ⟨l, List.mem_cons_of_mem _ hl, ?_⟩
      rw [join_cons_cons, List.getLast?_append_of_ne_nil _
        (join_ne_nil sep (b :: t) b (List.mem_cons_self _ _) (h b (by simp))), hlast]

theorem trim_word_line (k mid t : Str) (hk : isWordName k = true) (hne : t ≠ [])
    (hns : ∀ c ∈ t.getLast?, isSpace c = false) :
    trim (k ++ (mid ++ t)) = k ++ (mid ++ t) := by
  obtain ⟨hkne, hw⟩ := isWordName_iff.mp hk
  apply trim_eq_self
  · intro c hc
    obtain ⟨c0, k', rfl⟩ := List.exists_cons_of_ne_nil hkne
    simp at hc
    subst hc
    exact isWord_not_isSpace (hw _ (List.mem_cons_self _ _))
  · intro c hc
    rw [← List.append_assoc, List.getLast?_append_of_ne_nil _ hne] at hc
    exact hns c hc

theorem scalar_convertField (k : Str) (v : Value) (h : isObjectLike v = false) :
    convertField k v 0 = some (k ++ ([':', ' '] ++ formatValue v) ++ ['\n']) := by
  cases v with
  | arr xs => simp [isObjectLike] at h
  | obj fs => simp [isObjectLike] at h
  | null => simp [convertField, spacing]
  | undefined => simp [convertField, spacing]
  | bool b => simp [convertField, spacing]
  | num x => simp [convertField, spacing]
  | str s => simp [convertField, spacing]

theorem word_no_lineFeed {k : Str} (hk : isWordName k = true) : '\n' ∉ k := by
  intro h
  have := (isWordName_iff.mp hk).2 _ h
  revert this; decide

theorem noSpace_no_lineFeed {t : Str} (h : ∀ c ∈ t, isSpace c = false) : '\n' ∉ t := by
  intro hm
  have := h _ hm
  revert this; decide

theorem goodLine_scalar (k : Str) (v : Value) (hk : isWordName k = true)
    (hs : SafeText v (formatValue v)) : GoodLine k v (k ++ ([':', ' '] ++ formatValue v)) := by
  obtain ⟨hkne, hw⟩ := isWordName_iff.mp hk
  have htrim := trim_word_line k [':', ' '] (formatValue v) hk hs.ne
    (fun c hc => hs.noSpace c (List.mem_of_mem_getLast? hc))
  refine ⟨?_, by rw [htrim]; simp [hkne], ?_⟩
  · intro hm
    rcases List.mem_append.mp hm with h | h
    · exact word_no_lineFeed hk h
    · rcases List.mem_append.mp h with h | h
      · revert h; decide
      · exact noSpace_no_lineFeed hs.noSpace h
  · intro st root hpop
    have hsp := wordSpan k ([':', ' '] ++ formatValue v) hk
      (by intro c hc; simp at hc; subst hc; decide)
    have h1 : arrayMatch (k ++ ([':', ' '] ++ formatValue v)) = none := by
      unfold arrayMatch; dsimp only; rw [hsp.1, hsp.2, if_neg hkne]; rfl
    have h2 : objectMatch (k ++ ([':', ' '] ++ formatValue v)) = none := by
      unfold objectMatch; dsimp only; rw [hsp.1, hsp.2, if_neg hkne]; rfl
    have h3 : nestedMatch (k ++ ([':', ' '] ++ formatValue v)) = none := by
      unfold nestedMatch; dsimp only; rw [hsp.1, hsp.2, if_neg hkne]; rfl
    have hvt := valueTail_space (formatValue v)
      (fun c hc => hs.noSpace c (List.mem_of_mem_head? hc))
      (fun c hc => not_isLineTerminator_of_not_isSpace (hs.noSpace c hc))
    have h4 : primitiveMatch (k ++ ([':', ' '] ++ formatValue v)) = some (k, formatValue v) := by
      unfold primitiveMatch; dsimp only; rw [hsp.1, hsp.2, if_neg hkne]
      show (valueTail (' ' :: formatValue v)).map _ = _
      rw [hvt]; rfl
    refine ⟨⟨{ root with obj := setProp root.obj k v }, []⟩, ?_, rfl⟩
    unfold processLine
    dsimp only
    rw [htrim, lineIndent_word k _ hk, hpop, h1, h2, h3, h4]
    simp only [parseValue, hs.parse, Option.map_some', assign]


theorem braceSpan (fieldsStr rest : Str) (hfc : ∀ c ∈ fieldsStr, c ≠ '\x7d') :
    (fieldsStr ++ '\x7d' :: rest).takeWhile (fun c => c != '\x7d') = fieldsStr ∧
    (fieldsStr ++ '\x7d' :: rest).dropWhile (fun c => c != '\x7d') = '\x7d' :: rest :=
  takeWhile_append_stop fieldsStr ('\x7d' :: rest)
    (fun c hc => by simpa using hfc c hc) (fun c hc => by simp at hc; subst hc; decide)

theorem objectMatch_line (k fieldsStr t : Str) (hk : isWordName k = true)
    (hf : fieldsStr ≠ []) (hfc : ∀ c ∈ fieldsStr, c ≠ '\x7d')
    (hvt : valueTail (' ' :: t) = some t) :
    arrayMatch (k ++ '\x7b' :: (fieldsStr ++ '\x7d' :: ':' :: ' ' :: t)) = none ∧
    objectMatch (k ++ '\x7b' :: (fieldsStr ++ '\x7d' :: ':' :: ' ' :: t)) =
      some (k, fieldsStr, t) := by
  obtain ⟨hkne, hw⟩ := isWordName_iff.mp hk
  have hsp := wordSpan k ('\x7b' :: (fieldsStr ++ '\x7d' :: ':' :: ' ' :: t)) hk
    (by intro c hc; simp at hc; subst hc; decide)
  have hbr := braceSpan fieldsStr (':' :: ' ' :: t) hfc
  constructor
  · unfold arrayMatch; dsimp only; rw [hsp.1, hsp.2, if_neg hkne]; rfl
  · unfold objectMatch; dsimp only; rw [hsp.1, hsp.2, if_neg hkne]
    simp only [hbr.1, hbr.2, hf, if_false, hvt, Option.map_some']

theorem arrayMatch_line (k digits fieldsStr t : Str) (hk : isWordName k = true)
    (hd : digits ≠ []) (hdc : ∀ c ∈ digits, isDigit c = true)
    (hf : fieldsStr ≠ []) (hfc : ∀ c ∈ fieldsStr, c ≠ '\x7d')
    (hvt : valueTail (' ' :: t) = some t) :
    arrayMatch (k ++ '[' :: (digits ++ ']' :: '\x7b' :: (fieldsStr ++ '\x7d' :: ':' :: ' ' :: t))) =
      some (k, fieldsStr, t) := by
  obtain ⟨hkne, hw⟩ := isWordName_iff.mp hk
  have hsp := wordSpan k
    ('[' :: (digits ++ ']' :: '\x7b' :: (fieldsStr ++ '\x7d' :: ':' :: ' ' :: t))) hk
    (by intro c hc; simp at hc; subst hc; decide)
  have hds := takeWhile_append_stop (p := isDigit) digits
    (']' :: '\x7b' :: (fieldsStr ++ '\x7d' :: ':' :: ' ' :: t)) hdc
    (by intro c hc; simp at hc; subst hc; decide)
  have hbr := braceSpan fieldsStr (':' :: ' ' :: t) hfc
  unfold arrayMatch; dsimp only; rw [hsp.1, hsp.2, if_neg hkne]
  simp only [hds.1, hds.2, hd, hbr.1, hbr.2, hf, if_false, hvt, Option.map_some']


theorem firstSeen_nodup (ks : List Str) (h : ks.Nodup) : firstSeen ks = ks := by
  induction ks with
  | nil => rfl
  | cons k rest ih =>
    simp only [List.nodup_cons] at h
    simp only [firstSeen, ih h.2]
    congr 1
    rw [List.filter_eq_self]
    intro x hx
    have : x ≠ k := fun e => h.1 (e ▸ hx)
    simpa using this

theorem foldl_addKey_mem (ks acc : List Str) (h : ∀ k ∈ ks, k ∈ acc) :
    ks.foldl addKey acc = acc := by
  induction ks with
  | nil => rfl
  | cons k rest ih =>
    simp only [List.foldl_cons, addKey, h k (List.mem_cons_self _ _), if_true]
    exact ih (fun x hx => h x (List.mem_cons_of_mem _ hx))

theorem unionKeys_uniform (items : List Value) (K : List Str) (hne : items ≠ [])
    (hK : K.Nodup) (h : ∀ it ∈ items, objectKeys it = K) : unionKeys items = K := by
  obtain ⟨it0, rest, rfl⟩ := List.exists_cons_of_ne_nil hne
  have h0 : ([] : List Str) ++ (firstSeen (objectKeys it0 ++ rest.flatMap objectKeys)).filter
      (fun x => decide (x ∉ ([] : List Str))) =
      (objectKeys it0 ++ rest.flatMap objectKeys).foldl addKey [] := (foldl_addKey _ _).symm
  simp only [List.nil_append, List.not_mem_nil, not_false_eq_true, decide_True,
    List.filter_true] at h0
  unfold unionKeys
  rw [List.flatMap_cons, h0, List.foldl_append, h it0 (List.mem_cons_self _ _)]
  have h1 : K.foldl addKey [] = K := by
    have := foldl_addKey K []
    simp only [List.nil_append, List.not_mem_nil, not_false_eq_true, decide_True,
      List.filter_true] at this
    rw [this, firstSeen_nodup K hK]
  rw [h1]
  apply foldl_addKey_mem
  intro k hk
  obtain ⟨it, hit, hkit⟩ := List.mem_flatMap.mp hk
  rw [h it (List.mem_cons_of_mem _ hit)] at hkit
  exact hkit

theorem lookup_nodup (fs : List (Str × Value)) (hnd : (fs.map Prod.fst).Nodup)
    (f : Str × Value) (hf : f ∈ fs) : fs.lookup f.1 = some f.2 := by
  induction fs with
  | nil => cases hf
  | cons g rest ih =>
    obtain ⟨k, v⟩ := g
    simp only [List.map_cons, List.nodup_cons] at hnd
    rcases List.mem_cons.mp hf with rfl | hf
    · simp [List.lookup]
    · have hne : f.1 ≠ k := fun e => hnd.1 (e ▸ List.mem_map_of_mem Prod.fst hf)
      have : (f.1 == k) = false := by simpa using hne
      simp only [List.lookup, this]
      exact ih hnd.2 hf

theorem specRow_uniform (fs : List (Str × Value)) (hnd : (fs.map Prod.fst).Nodup) :
    specRow (fs.map Prod.fst) (.obj fs) = valuesText fs := by
  unfold specRow valuesText
  rw [List.map_map]
  congr 1
  apply List.map_congr_left
  intro f hf
  simp only [Function.comp, fieldText, lookup_nodup fs hnd f hf]

theorem mapThrow_map {α β : Type} (f : β → Option α) (g : α → β) (l : List α)
    (h : ∀ x ∈ l, f (g x) = some x) : mapThrow f (l.map g) = some l := by
  induction l with
  | nil => rfl
  | cons x rest ih =>
    simp only [List.map_cons, mapThrow, h x (List.mem_cons_self _ _),
      ih (fun y hy => h y (List.mem_cons_of_mem _ hy)), Option.map_some']

theorem isSafeFlatObject_iff {p : Value → Bool} {fs : List (Str × Value)} :
    isSafeFlatObject p fs = true ↔
      fs ≠ [] ∧ (∀ f ∈ fs, isFieldName f.1 = true ∧ p f.2 = true) ∧
      (fs.map Prod.fst).Nodup := by
  simp [isSafeFlatObject, List.all_eq_true, and_assoc]

theorem isUniformArray_spec {p : Value → Bool} {items : List Value}
    (h : isUniformArray p items = true) :
    ∃ K : List Str, K ≠ [] ∧ K.Nodup ∧ (∀ k ∈ K, isFieldName k = true) ∧ items ≠ [] ∧
      (∃ first rest, items = first :: rest ∧ isObjectLike first = true) ∧
      ∀ it ∈ items, ∃ fs, it = Value.obj fs ∧ fs.map Prod.fst = K ∧ fs ≠ [] ∧
        ∀ f ∈ fs, p f.2 = true := by
  cases items with
  | nil => simp [isUniformArray] at h
  | cons first rest =>
    cases first with
    | obj fs0 =>
      simp only [isUniformArray, Bool.and_eq_true, List.all_eq_true] at h
      obtain ⟨h0, hall⟩ := h
      obtain ⟨hne, hf, hnd⟩ := isSafeFlatObject_iff.mp h0
      refine ⟨fs0.map Prod.fst, by simpa using hne, hnd, ?_, by simp, ⟨_, _, rfl, rfl⟩, ?_⟩
      · intro k hk
        obtain ⟨f, hf1, rfl⟩ := List.mem_map.mp hk
        exact (hf f hf1).1
      · intro it hit
        have hrow := hall it hit
        cases it with
        | obj fs =>
          simp only [isSafeRow, Bool.and_eq_true, decide_eq_true_eq, List.all_eq_true] at hrow
          refine ⟨fs, rfl, hrow.1, ?_, hrow.2⟩
          intro e
          rw [e] at hrow
          simp only [List.map_nil] at hrow
          exact hne (List.map_eq_nil_iff.mp hrow.1.symm)
        | null => simp [isSafeRow] at hrow
        | undefined => simp [isSafeRow] at hrow
        | bool b => simp [isSafeRow] at hrow
        | num x => simp [isSafeRow] at hrow
        | str s => simp [isSafeRow] at hrow
        | arr xs => simp [isSafeRow] at hrow
    | null => simp [isUniformArray] at h
    | undefined => simp [isUniformArray] at h
    | bool b => simp [isUniformArray] at h
    | num x => simp [isUniformArray] at h
    | str s => simp [isUniformArray] at h
    | arr xs => simp [isUniformArray] at h


theorem keysText_no_brace (ks : List Str) (hne : ks ≠ []) (hw : ∀ k ∈ ks, isWordName k = true) :
    ∀ c ∈ join [','] ks, c ≠ '\x7d' := by
  intro c hc e
  subst e
  rcases (keysText_spec ks hne hw).2.1 _ hc with h | h
  · revert h; decide
  · revert h; decide

theorem keysText_no_lineFeed (ks : List Str) (hne : ks ≠ [])
    (hw : ∀ k ∈ ks, isWordName k = true) : '\n' ∉ join [','] ks := by
  intro hc
  rcases (keysText_spec ks hne hw).2.1 _ hc with h | h
  · revert h; decide
  · revert h; decide

theorem isFlat_of_safe (fs : List (Str × Value))
    (h : ∀ f ∈ fs, isObjectLike f.2 = false) : isFlat fs = true := by
  unfold isFlat
  rw [List.all_eq_true]
  intro f hf
  have := h f hf
  cases hv : f.2 with
  | arr xs => rw [hv] at this; simp [isObjectLike] at this
  | obj gs => rw [hv] at this; simp [isObjectLike] at this
  | null => rfl
  | undefined => rfl
  | bool b => rfl
  | num x => rfl
  | str s => rfl

theorem convertField_safeObject {p : Value → Bool} (hp : ScalarClass p) (k : Str)
    (fs : List (Str × Value)) (hfs : isSafeFlatObject p fs = true) :
    convertField k (.obj fs) 0 =
      some ((k ++ '\x7b' :: (join [','] (fs.map Prod.fst) ++
        '\x7d' :: ':' :: ' ' :: valuesText fs)) ++ ['\n']) := by
  obtain ⟨hne, hf, hnd⟩ := isSafeFlatObject_iff.mp hfs
  have h1 := isFlat_of_safe fs (fun f hf1 => hp.scalar _ (hf f hf1).2)
  have h2 : fs.length > 0 := List.length_pos.mpr hne
  simp only [convertField, h1, h2, and_self, if_true, spacing, valuesText, List.nil_append,
    List.append_assoc, List.cons_append]

theorem goodLine_object {p : Value → Bool} (hp : ScalarClass p) (k : Str)
    (fs : List (Str × Value)) (hk : isWordName k = true)
    (hfs : isSafeFlatObject p fs = true) :
    GoodLine k (.obj fs) (k ++ '\x7b' :: (join [','] (fs.map Prod.fst) ++
      '\x7d' :: ':' :: ' ' :: valuesText fs)) := by
  obtain ⟨hne, hf, hnd⟩ := isSafeFlatObject_iff.mp hfs
  obtain ⟨hkne, hw⟩ := isWordName_iff.mp hk
  have hkeysne : fs.map Prod.fst ≠ [] := by simpa using hne
  have hkeysw : ∀ x ∈ fs.map Prod.fst, isWordName x = true := by
    intro x hx
    obtain ⟨f, hf1, rfl⟩ := List.mem_map.mp hx
    exact (isFieldName_iff.mp (hf f hf1).1).1
  have hkeysp : ∀ f ∈ fs, f.1 ≠ protoKey := fun f hf1 => (isFieldName_iff.mp (hf f hf1).1).2
  obtain ⟨hkt1, hkt2, hkt3⟩ := keysText_spec _ hkeysne hkeysw
  obtain ⟨hvt1, hvt2, hvt3⟩ := valuesText_spec fs hne (fun f hf1 => hp.text _ (hf f hf1).2)
  have htrim0 := trim_word_line k ('\x7b' :: (join [','] (fs.map Prod.fst) ++ ['\x7d', ':', ' ']))
    (valuesText fs) hk hvt1 (fun c hc => hvt2 c (List.mem_of_mem_getLast? hc))
  have htrim : trim (k ++ '\x7b' :: (join [','] (fs.map Prod.fst) ++
      '\x7d' :: ':' :: ' ' :: valuesText fs)) = k ++ '\x7b' :: (join [','] (fs.map Prod.fst) ++
      '\x7d' :: ':' :: ' ' :: valuesText fs) := by
    simpa using htrim0
  have hvt := valueTail_space (valuesText fs)
    (fun c hc => hvt2 c (List.mem_of_mem_head? hc))
    (fun c hc => not_isLineTerminator_of_not_isSpace (hvt2 c hc))
  obtain ⟨hm1, hm2⟩ := objectMatch_line k (join [','] (fs.map Prod.fst)) (valuesText fs) hk hkt1
    (keysText_no_brace _ hkeysne hkeysw) hvt
  refine ⟨?_, by rw [htrim]; simp [hkne], ?_⟩
  · intro hm
    rcases List.mem_append.mp hm with h | h
    · exact word_no_lineFeed hk h
    · rcases List.mem_cons.mp h with h | h
      · revert h; decide
      rcases List.mem_append.mp h with h | h
      · exact keysText_no_lineFeed _ hkeysne hkeysw h
      rcases List.mem_cons.mp h with h | h
      · revert h; decide
      rcases List.mem_cons.mp h with h | h
      · revert h; decide
      rcases List.mem_cons.mp h with h | h
      · revert h; decide
      · exact noSpace_no_lineFeed hvt2 h
  · intro st root hpop
    refine ⟨⟨{ root with obj := setProp root.obj k (.obj fs) }, []⟩, ?_, rfl⟩
    unfold processLine
    dsimp only
    rw [htrim, lineIndent_word k _ hk, hpop, hm1, hm2]
    simp only [hkt3, rowObject_roundtrip fs hne hnd hkeysp
      (fun f hf1 => hp.text _ (hf f hf1).2), Option.map_some', assign]


theorem lookup_isSome (fs : List (Str × Value)) (k : Str) (h : k ∈ fs.map Prod.fst) :
    (fs.lookup k).isSome = true := by
  induction fs with
  | nil => simp at h
  | cons f rest ih =>
    obtain ⟨k1, v1⟩ := f
    by_cases e : k = k1
    · simp [List.lookup, e]
    · have hb : (k == k1) = false := by simpa using e
      simp only [List.map_cons, List.mem_cons] at h
      simp only [List.lookup, hb]
      exact ih (h.resolve_left e)

theorem goodLine_array {p : Value → Bool} (hp : ScalarClass p) (k : Str)
    (items : List Value) (hk : isWordName k = true) (h : isUniformArray p items = true) :
    ∃ line, convertField k (.arr items) 0 = some (line ++ ['\n']) ∧
      GoodLine k (.arr items) line := by
  obtain ⟨K, hKne, hKnd, hKf, hine, -, hrows⟩ := isUniformArray_spec h
  have hKw : ∀ k ∈ K, isWordName k = true := fun k hk => (isFieldName_iff.mp (hKf k hk)).1
  have hKp : ∀ k ∈ K, k ≠ protoKey := fun k hk => (isFieldName_iff.mp (hKf k hk)).2
  obtain ⟨hkne, hw⟩ := isWordName_iff.mp hk
  have hobj : ∀ it ∈ items, isPlainObject it = true := by
    intro it hit
    obtain ⟨fs, rfl, -⟩ := hrows it hit
    rfl
  have hunion : unionKeys items = K := by
    apply unionKeys_uniform items K hine hKnd
    intro it hit
    obtain ⟨fs, rfl, hfs, -⟩ := hrows it hit
    exact hfs
  -- the facts on each row
  have hrow : ∀ it ∈ items, specRow K it ≠ [] ∧ (∀ c ∈ specRow K it, isSpace c = false) ∧
      rowObject K (specRow K it) = some it := by
    intro it hit
    obtain ⟨fs, rfl, hfs, hfne, hsafe⟩ := hrows it hit
    have hnd : (fs.map Prod.fst).Nodup := by rw [hfs]; exact hKnd
    have e : specRow K (.obj fs) = valuesText fs := by
      rw [← hfs]; exact specRow_uniform fs hnd
    have hst : ∀ f ∈ fs, SafeText f.2 (formatValue f.2) := fun f hf => hp.text _ (hsafe f hf)
    obtain ⟨h1, h2, -⟩ := valuesText_spec fs hfne hst
    rw [e]
    refine ⟨h1, h2, ?_⟩
    rw [← hfs]
    exact rowObject_roundtrip fs hfne hnd
      (fun f hf => hKp f.1 (hfs ▸ List.mem_map_of_mem Prod.fst hf)) hst
  have hrowsne : items.map (specRow K) ≠ [] := by simpa using hine
  have hrowsText_ne : join [' '] (items.map (specRow K)) ≠ [] := by
    obtain ⟨it0, rest, rfl⟩ := List.exists_cons_of_ne_nil hine
    exact join_ne_nil _ _ (specRow K it0) (by simp) (hrow it0 (List.mem_cons_self _ _)).1
  have hrowsText_chars : ∀ c ∈ join [' '] (items.map (specRow K)),
      c = ' ' ∨ isSpace c = false := by
    intro c hc
    rcases mem_join hc with hc | ⟨t, ht, hct⟩
    · rw [List.mem_singleton] at hc; exact Or.inl hc
    · obtain ⟨it, hit, rfl⟩ := List.mem_map.mp ht
      exact Or.inr ((hrow it hit).2.1 c hct)
  have hrowsText_head : ∀ c ∈ (join [' '] (items.map (specRow K))).head?,
      isSpace c = false := by
    intro c hc
    obtain ⟨it0, rest, rfl⟩ := List.exists_cons_of_ne_nil hine
    obtain ⟨hr1, hr2, -⟩ := hrow it0 (List.mem_cons_self _ _)
    obtain ⟨c0, r0, hc0⟩ := List.exists_cons_of_ne_nil hr1
    have hhead : (join [' '] ((it0 :: rest).map (specRow K))).head? = some c0 := by
      cases rest with
      | nil => simp [join_singleton, hc0]
      | cons b t => simp [List.map_cons, join_cons_cons, hc0]
    rw [hhead] at hc
    simp at hc
    subst hc
    exact hr2 c0 (by rw [hc0]; simp)
  have hrowsText_last : ∀ c ∈ (join [' '] (items.map (specRow K))).getLast?,
      isSpace c = false := by
    intro c hc
    obtain ⟨r, hr, hlast⟩ := join_getLast [' '] (items.map (specRow K)) hrowsne (by
      intro l hl
      obtain ⟨it, hit, rfl⟩ := List.mem_map.mp hl
      exact (hrow it hit).1)
    rw [hlast] at hc
    obtain ⟨it, hit, rfl⟩ := List.mem_map.mp hr
    exact (hrow it hit).2.1 c (List.mem_of_mem_getLast? hc)
  have hsplit : split ' ' (join [' '] (items.map (specRow K))) = items.map (specRow K) := by
    apply split_join _ _ hrowsne
    intro l hl hmem
    obtain ⟨it, hit, rfl⟩ := List.mem_map.mp hl
    have := (hrow it hit).2.1 _ hmem
    revert this; decide
  obtain ⟨hkt1, hkt2, hkt3⟩ := keysText_spec K hKne hKw
  have hvt := valueTail_space (join [' '] (items.map (specRow K))) hrowsText_head (by
    intro c hc
    rcases hrowsText_chars c hc with rfl | hns
    · rfl
    · exact not_isLineTerminator_of_not_isSpace hns)
  have hm := arrayMatch_line k (natToString items.length) (join [','] K)
    (join [' '] (items.map (specRow K))) hk (natToString_ne_nil _) (natToString_isDigit _)
    hkt1 (keysText_no_brace K hKne hKw) hvt
  have htrim0 := trim_word_line k
    ('[' :: (natToString items.length ++ ']' :: '\x7b' :: (join [','] K ++ ['\x7d', ':', ' '])))
    (join [' '] (items.map (specRow K))) hk hrowsText_ne hrowsText_last
  have htrim : trim (k ++ '[' :: (natToString items.length ++ ']' :: '\x7b' ::
      (join [','] K ++ '\x7d' :: ':' :: ' ' :: join [' '] (items.map (specRow K))))) =
      k ++ '[' :: (natToString items.length ++ ']' :: '\x7b' ::
      (join [','] K ++ '\x7d' :: ':' :: ' ' :: join [' '] (items.map (specRow K)))) := by
    simpa using htrim0
  refine ⟨k ++ '[' :: (natToString items.length ++ ']' :: '\x7b' ::
      (join [','] K ++ '\x7d' :: ':' :: ' ' :: join [' '] (items.map (specRow K)))), ?_, ?_, ?_, ?_⟩
  · have hown : ∀ it ∈ items, lacksNoMember (unionKeys items) it = true := by
      intro it hit
      obtain ⟨fs, rfl, hfs, -, -⟩ := hrows it hit
      rw [hunion, ← hfs]
      simp only [lacksNoMember, List.all_eq_true, Bool.or_eq_true]
      intro x hx
      exact Or.inl (lookup_isSome fs x hx)
    rw [convertField_plainArray k items 0 hine hobj hown, hunion]
    simp [spacing]
  · intro hmem
    rcases List.mem_append.mp hmem with h | h
    · exact word_no_lineFeed hk h
    rcases List.mem_cons.mp h with h | h
    · revert h; decide
    rcases List.mem_append.mp h with h | h
    · have := natToString_isDigit _ _ h
      revert this; decide
    rcases List.mem_cons.mp h with h | h
    · revert h; decide
    rcases List.mem_cons.mp h with h | h
    · revert h; decide
    rcases List.mem_append.mp h with h | h
    · exact keysText_no_lineFeed K hKne hKw h
    rcases List.mem_cons.mp h with h | h
    · revert h; decide
    rcases List.mem_cons.mp h with h | h
    · revert h; decide
    rcases List.mem_cons.mp h with h | h
    · revert h; decide
    rcases hrowsText_chars _ h with h | h
    · revert h; decide
    · revert h; decide
  · rw [htrim]; simp [hkne]
  · intro st root hpop
    refine ⟨⟨{ root with obj := setProp root.obj k (.arr items) }, []⟩, ?_, rfl⟩
    unfold processLine
    dsimp only
    rw [htrim, lineIndent_word k _ hk, hpop, hm]
    simp only [hkt3, hsplit, mapThrow_map (rowObject K) (specRow K) items
      (fun it hit => (hrow it hit).2.2), Option.map_some', assign]



theorem roundTripField_line {p : Value → Bool} (hp : ScalarClass p) (k : Str) (v : Value)
    (hk : isWordName k = true) (hv : isRoundTripField p v = true) :
    ∃ line, convertField k v 0 = some (line ++ ['\n']) ∧ GoodLine k v line := by
  by_cases hs : p v = true
  · exact ⟨_, scalar_convertField k v (hp.scalar v hs), goodLine_scalar k v hk (hp.text v hs)⟩
  · simp only [isRoundTripField, hs, Bool.false_or] at hv
    cases v with
    | obj fs => exact ⟨_, convertField_safeObject hp k fs hv, goodLine_object hp k fs hk hv⟩
    | arr items => exact goodLine_array hp k items hk hv
    | null => simp at hv
    | undefined => simp at hv
    | bool b => simp at hv
    | num x => simp at hv
    | str s => simp at hv

theorem flatMap_lines_eq_join (lines : List Str) :
    lines.flatMap (fun l => l ++ ['\n']) = join ['\n'] (lines ++ [[]]) := by
  induction lines with
  | nil => rfl
  | cons l rest ih =>
    rw [List.flatMap_cons, ih]
    cases hr : rest ++ [[]] with
    | nil => simp at hr
    | cons b t =>
      rw [List.cons_append, hr, join_cons_cons]

theorem isSafeScalar_class : ScalarClass isSafeScalar where
  scalar := by
    intro v hv
    cases v <;> first | rfl | (simp [isSafeScalar] at hv)
  text := fun _ hv => safeText_of_isSafeScalar hv

theorem isPlainScalar_class : ScalarClass isPlainScalar where
  scalar := by
    intro v hv
    cases v <;> first | rfl | (simp [isPlainScalar] at hv)
  text := by
    intro v hv
    cases v with
    | null => exact ⟨by decide, by decide, by decide, rfl⟩
    | undefined => simp [isPlainScalar] at hv
    | bool b => cases b <;> exact ⟨by decide, by decide, by decide, rfl⟩
    | arr xs => simp [isPlainScalar] at hv
    | obj fs => simp [isPlainScalar] at hv
    | num x => exact safeText_of_isNormalNum x hv
    | str s =>
      simp only [isPlainScalar, Bool.and_eq_true] at hv
      exact safeText_of_isSafeScalar (v := .str s) hv.1

theorem roundTrip_fields (q : Value → Bool)
    (hq : ∀ k v, isWordName k = true → q v = true →
      ∃ line, convertField k v 0 = some (line ++ ['\n']) ∧ GoodLine k v line)
    (O : List (Str × Value)) (h : ∀ f ∈ O, isWordName f.1 = true ∧ q f.2 = true) :
    ∃ lines : List Str,
      convertFields O 0 = some (lines.flatMap (fun l => l ++ ['\n'])) ∧
      (∀ l ∈ lines, '\n' ∉ l ∧ trim l ≠ []) ∧
      ∀ (st : Stack) (root : Frame), popFrames 0 st.top st.below = ⟨root, []⟩ →
        ∃ st1, processLines st lines = some st1 ∧
          popFrames 0 st1.top st1.below =
            ⟨{ root with obj := O.foldl (fun a f => setProp a f.1 f.2) root.obj }, []⟩ := by
  induction O with
  | nil => exact ⟨[], rfl, by simp, fun st root hpop => ⟨st, rfl, hpop⟩⟩
  | cons f rest ih =>
    obtain ⟨k, v⟩ := f
    obtain ⟨hk, hv⟩ := h (k, v) (List.mem_cons_self _ _)
    obtain ⟨line, hline, hgood⟩ := hq k v hk hv
    obtain ⟨lines, hconv, hlines, hdec⟩ := ih (fun g hg => h g (List.mem_cons_of_mem _ hg))
    refine ⟨line :: lines, ?_, ?_, ?_⟩
    · simp only [convertFields, hline, hconv, Option.map_some', List.flatMap_cons]
    · intro l hl
      rcases List.mem_cons.mp hl with rfl | hl
      · exact ⟨hgood.noLineFeed, hgood.notBlank⟩
      · exact hlines l hl
    · intro st root hpop
      obtain ⟨st1, hst1, hpop1⟩ := hgood.decode st root hpop
      obtain ⟨st2, hst2, hpop2⟩ := hdec st1 _ hpop1
      exact ⟨st2, by simp only [processLines, hst1, hst2], hpop2⟩

theorem roundTrip_tree (q : Value → Bool)
    (hq : ∀ k v, isWordName k = true → q v = true →
      ∃ line, convertField k v 0 = some (line ++ ['\n']) ∧ GoodLine k v line)
    (O : List (Str × Value)) (hfields : ∀ f ∈ O, isFieldName f.1 = true ∧ q f.2 = true)
    (hnd : (O.map Prod.fst).Nodup) :
    ∃ text, convertToToon (.obj O) 0 = some text ∧ parseToon text = some (.obj O) := by
  obtain ⟨lines, hconv, hlines, hdec⟩ := roundTrip_fields q hq O
    (fun f hf => ⟨(isFieldName_iff.mp (hfields f hf).1).1, (hfields f hf).2⟩)
  refine ⟨_, by simp only [convertToToon]; exact hconv, ?_⟩
  rw [flatMap_lines_eq_join]
  unfold parseToon
  rw [nonBlankLines_join_lines]
  · have hfilter : (lines ++ [[]]).filter (fun line => trim line != []) = lines := by
      rw [List.filter_append]
      have h1 : lines.filter (fun line => trim line != []) = lines := by
        rw [List.filter_eq_self]
        intro l hl
        simpa using (hlines l hl).2
      rw [h1]
      simp [show trim [] = [] from rfl]
    obtain ⟨st1, hst1, hpop1⟩ := hdec ⟨⟨[], [], -1⟩, []⟩ ⟨[], [], -1⟩ rfl
    rw [hfilter, hst1]
    simp only [Option.map_some']
    rw [← rootObject_popFrames 0 st1.top st1.below, hpop1]
    simp only [rootObject]
    rw [foldl_setProp O [] hnd (fun f hf => (isFieldName_iff.mp (hfields f hf).1).2)
      (by simp)]
    rfl
  · intro l hl
    rcases List.mem_append.mp hl with hl | hl
    · exact (hlines l hl).1
    · simp at hl; subst hl; simp

theorem roundTrip_object {p : Value → Bool} (hp : ScalarClass p) (O : List (Str × Value))
    (h : isRoundTripObject p O = true) :
    ∃ text, convertToToon (.obj O) 0 = some text ∧ parseToon text = some (.obj O) := by
  simp only [isRoundTripObject, Bool.and_eq_true, List.all_eq_true, decide_eq_true_eq] at h
  exact roundTrip_tree (isRoundTripField p) (fun k v hk hv => roundTripField_line hp k v hk hv)
    O h.1 h.2

theorem storeProp_idem (fs : List (Str × Value)) (k : Str) (v : Value) :
    storeProp (storeProp fs k v) k v = storeProp fs k v := by
  induction fs with
  | nil => simp [storeProp]
  | cons f rest ih =>
    obtain ⟨k1, v1⟩ := f
    by_cases h : k1 = k
    · simp [storeProp, h]
    · simp [storeProp, h, ih]

theorem setProp_idem (fs : List (Str × Value)) (k : Str) (v : Value) :
    setProp (setProp fs k v) k v = setProp fs k v := by
  unfold setProp
  by_cases hk : k = protoKey
  · simp [hk]
  · simp only [if_neg hk]
    exact storeProp_idem fs k v

theorem goodLine_emptyObject (k : Str) (hk : isWordName k = true) :
    convertField k (.obj []) 0 = some ((k ++ [':']) ++ ['\n']) ∧
    GoodLine k (.obj []) (k ++ [':']) := by
  obtain ⟨hkne, hw⟩ := isWordName_iff.mp hk
  have htrim : trim (k ++ [':']) = k ++ [':'] := by
    apply noSpace_trim
    intro c hc
    rcases List.mem_append.mp hc with hc | hc
    · exact isWord_not_isSpace (hw c hc)
    · rw [List.mem_singleton] at hc; subst hc; decide
  refine ⟨by simp [convertField, isFlat, convertFields, spacing], ?_, ?_, ?_⟩
  · intro hm
    rcases List.mem_append.mp hm with h | h
    · exact word_no_lineFeed hk h
    · revert h; decide
  · rw [htrim]; simp [hkne]
  · intro st root hpop
    refine ⟨_, processLine_opener k hk st root hpop, ?_⟩
    simp only [popFrames, ge_iff_le, le_refl, if_true, attach, setProp_idem]

theorem plainField_line (k : Str) (v : Value) (hk : isWordName k = true)
    (hv : isPlainField v = true) :
    ∃ line, convertField k v 0 = some (line ++ ['\n']) ∧ GoodLine k v line := by
  by_cases h : isRoundTripField isPlainScalar v = true
  · exact roundTripField_line isPlainScalar_class k v hk h
  · simp only [isPlainField, h, Bool.false_or, decide_eq_true_eq] at hv
    subst hv
    exact ⟨_, (goodLine_emptyObject k hk).1, (goodLine_emptyObject k hk).2⟩


/-- Claim C4, refuted as stated: `__proto__` is a word-character name, yet the
line `__proto__:` followed by the indented text `a: 1` decodes to the empty
object: the assignment `parent["__proto__"] = newObj` runs the setter of
`Object.prototype` and stores no field. -/
theorem C4_counterexample :
    isWordName protoKey = true ∧
    parseToon "a: 1".toList = some (.obj [("a".toList, .num (.int 1))]) ∧
    parseToon (protoKey ++ ':' :: '\n' :: indentLines "a: 1".toList) = some (.obj []) ∧
    parseToon (protoKey ++ ':' :: '\n' :: indentLines "a: 1".toList) ≠
      (parseToon "a: 1".toList).map (fun v => Value.obj [(protoKey, v)]) := by
  decide

/-- Claim C4, amended: for a word-character name `k` other than `__proto__`
and a text `T`, `parseToon` of the line `k:` followed by `T` with each line
prefixed by two spaces is the object with the one field `k` holding
`parseToon(T)`, and it raises exactly when `parseToon(T)` raises; in
particular the text `"a:\n  b:\n    c: 1\n"` decodes to the tree
`a: b: c: 1`. -/
theorem C4_nested_opener_populated (k T : Str) (hkf : isFieldName k = true) :
    parseToon (k ++ ':' :: '\n' :: indentLines T) =
      (parseToon T).map (fun v => Value.obj [(k, v)]) ∧
    parseToon "a:\n  b:\n    c: 1\n".toList = some nestedExample := by
  refine ⟨?_, by decide⟩
  obtain ⟨hk, hkp⟩ := isFieldName_iff.mp hkf
  obtain ⟨hne, hw⟩ := isWordName_iff.mp hk
  have hshift_ne : (split '\n' T).map (fun line => ' ' :: ' ' :: line) ≠ [] := by
    simpa using split_ne_nil '\n' T
  have htext : k ++ ':' :: '\n' :: indentLines T =
      join ['\n'] ((k ++ [':']) :: (split '\n' T).map (fun line => ' ' :: ' ' :: line)) := by
    obtain ⟨a, t, hat⟩ := List.exists_cons_of_ne_nil hshift_ne
    rw [indentLines, hat, join_cons_cons]
    simp
  have hnl : ∀ l ∈ (k ++ [':']) :: (split '\n' T).map (fun line => ' ' :: ' ' :: line),
      '\n' ∉ l := by
    intro l hl
    rcases List.mem_cons.mp hl with rfl | hl
    · intro hmem
      rcases List.mem_append.mp hmem with h | h
      · have := hw _ h; revert this; decide
      · simp at h
    · obtain ⟨p, hp, rfl⟩ := List.mem_map.mp hl
      have := split_no_sep '\n' T p hp
      simpa using this
  have hfirst : (trim (k ++ [':']) != []) = true := by
    have : trim (k ++ [':']) = k ++ [':'] := by
      apply noSpace_trim
      intro c hc
      rcases List.mem_append.mp hc with hc | hc
      · exact isWord_not_isSpace (hw c hc)
      · rw [List.mem_singleton] at hc; subst hc; decide
    rw [this]; simp
  have hlines : nonBlankLines (k ++ ':' :: '\n' :: indentLines T) =
      (k ++ [':']) :: (nonBlankLines T).map (fun line => ' ' :: ' ' :: line) := by
    rw [htext, nonBlankLines_join _ (by simp) hnl, List.filter_cons, if_pos hfirst]
    congr 1
    unfold nonBlankLines
    rw [List.filter_map]
    congr 1
  unfold parseToon
  rw [hlines]
  simp only [processLines]
  rw [processLine_opener k hk ⟨⟨[], [], -1⟩, []⟩ ⟨[], [], -1⟩ rfl]
  have hlift : (⟨⟨k, [], 0⟩, [{ (⟨[], [], -1⟩ : Frame) with
      obj := setProp [] k (.obj []) }]⟩ : Stack) = liftStack k ⟨⟨[], [], -1⟩, []⟩ := by
    rw [setProp_new [] k _ hkp (by simp)]
    rfl
  simp only []
  rw [hlift, processLines_lift k _ _ (by
    intro l hl
    have := (List.mem_filter.mp hl).2
    simpa using this)]
  cases processLines ⟨⟨[], [], -1⟩, []⟩ (nonBlankLines T) with
  | none => rfl
  | some st =>
    simp only [Option.map_some', liftStack, rootObject_lift k hkp]

/-- Witness of C4 at the key `a` and the text `"b:\n  c: 1"`. -/
theorem C4_nested_opener_populated_witness :
    isFieldName "a".toList = true ∧
    parseToon ("a".toList ++ ':' :: '\n' :: indentLines "b:\n  c: 1".toList) =
      (parseToon "b:\n  c: 1".toList).map (fun v => Value.obj [("a".toList, v)]) :=
  ⟨by decide, (C4_nested_opener_populated "a".toList "b:\n  c: 1".toList (by decide)).1⟩


/-- Claim C10, refuted as stated: in the text `"a:\n!\n  c: 2"` the line `!`
matches no grammar class, yet deleting it changes the result, because the
line closes the object opened by `a:`. -/
theorem C10_counterexample :
    isUnmatched "!".toList = true ∧
    parseToon "a:\n!\n  c: 2".toList
      = some (.obj [("a".toList, .obj []), ("c".toList, .num (.int 2))]) ∧
    parseToon "a:\n  c: 2".toList
      = some (.obj [("a".toList, .obj [("c".toList, .num (.int 2))])]) := by
  decide

/-- Claim C10, amended: a line that matches none of the four grammar classes
never causes a failure and assigns no field, its only effect being to close
the frames at its indent or deeper; and `parseToon` returns the same result as
on the text with that line deleted whenever the line is the last non-blank
line or the next non-blank line is indented no deeper than it. -/
theorem C10_unmatched_line_ignored (pre post : List Str) (line : Str)
    (hu : isUnmatched line = true) (hnl : ∀ l ∈ pre ++ line :: post, '\n' ∉ l)
    (hnext : ∀ m ∈ (post.filter (fun l => trim l != [])).head?,
      lineIndent m ≤ lineIndent line) :
    (∀ st : Stack, ∃ st1, processLine st line = some st1 ∧
      rootObject st1.top st1.below = rootObject st.top st.below) ∧
    parseToon (join ['\n'] (pre ++ line :: post)) = parseToon (join ['\n'] (pre ++ post)) := by
  refine ⟨fun st => ⟨_, processLine_unmatched st line hu, rootObject_popFrames _ _ _⟩, ?_⟩
  have hnl2 : ∀ l ∈ pre ++ post, '\n' ∉ l := by
    intro l hl
    apply hnl l
    rcases List.mem_append.mp hl with h | h
    · exact List.mem_append_left _ h
    · exact List.mem_append_right _ (List.mem_cons_of_mem _ h)
  unfold parseToon
  rw [nonBlankLines_join_lines _ hnl, nonBlankLines_join_lines _ hnl2]
  simp only [List.filter_append, List.filter_cons]
  by_cases hb : (trim line != []) = true
  · rw [if_pos hb, processLines_append, processLines_append]
    cases processLines ⟨⟨[], [], -1⟩, []⟩ (pre.filter (fun l => trim l != [])) with
    | none => rfl
    | some st =>
      simp only [Option.some_bind, processLines, processLine_unmatched st line hu]
      cases hp : post.filter (fun l => trim l != []) with
      | nil =>
        simp only [processLines, Option.map_some', rootObject_popFrames]
      | cons m rest =>
        rw [hp] at hnext
        simp only [processLines]
        rw [processLine_after_pop st _ m (hnext m rfl)]
  · rw [if_neg hb]

/-- Witness of C10: the unmatched line `  !` inside the block opened by `a:`,
followed by a line at the same indent. -/
theorem C10_unmatched_line_ignored_witness :
    (∀ st : Stack, ∃ st1, processLine st "  !".toList = some st1 ∧
      rootObject st1.top st1.below = rootObject st.top st.below) ∧
    parseToon (join ['\n'] (["a:".toList, "  b: 1".toList] ++ "  !".toList :: ["  c: 2".toList]))
      = parseToon (join ['\n'] (["a:".toList, "  b: 1".toList] ++ ["  c: 2".toList])) :=
  C10_unmatched_line_ignored ["a:".toList, "  b: 1".toList] ["  c: 2".toList] "  !".toList
    (by decide) (by decide) (by decide)

/-- Claim C1, refuted as stated: the object `a: "42"` holds one string scalar
free of commas, colons and spaces, yet decoding its encoding gives the number
42 for the field `a`, not the string; and the object `__proto__: 1` holds one
number, yet decoding its encoding gives the empty object, because the
assignment `root["__proto__"] = 1` stores no field. -/
theorem C1_counterexample :
    isStatedObject [("a".toList, .str "42".toList)] = true ∧
    convertToToon (.obj [("a".toList, .str "42".toList)]) 0 = some "a: 42\n".toList ∧
    parseToon "a: 42\n".toList = some (.obj [("a".toList, .num (.int 42))]) ∧
    lookupProp [("a".toList, .num (.int 42))] "a".toList
      ≠ lookupProp [("a".toList, .str "42".toList)] "a".toList ∧
    isStatedObject [(protoKey, .num (.int 1))] = true ∧
    convertToToon (.obj [(protoKey, .num (.int 1))]) 0 = some "__proto__: 1\n".toList ∧
    parseToon "__proto__: 1\n".toList = some (.obj []) := by
  decide

/-- Claim C1, amended: for every object whose keys at every level are
distinct word-character names other than `__proto__` and whose fields are
plain scalars (Numbers, booleans, `null`, and non-empty strings free of
commas, colons and white space that `parseValue` maps to themselves), flat
sub-objects of such scalars, and non-empty arrays of non-empty uniform objects
of such scalars, `parseToon(convertToToon(O))` is an object equal to `O` field
for field. -/
theorem C1_round_trip_fields (O : List (Str × Value)) (h : isPlainTree O = true) :
    ∃ text, convertToToon (.obj O) 0 = some text ∧
      ∃ R, parseToon text = some (.obj R) ∧ R.map Prod.fst = O.map Prod.fst ∧
        ∀ k, lookupProp R k = lookupProp O k := by
  simp only [isPlainTree, Bool.and_eq_true, List.all_eq_true, decide_eq_true_eq] at h
  obtain ⟨text, h1, h2⟩ := roundTrip_tree isPlainField plainField_line O h.1 h.2
  exact ⟨text, h1, O, h2, rfl, fun _ => rfl⟩

/-- Witness of C1 on an object with a string, the number 1.5, a uniform array,
an empty sub-object and a flat sub-object. -/
theorem C1_round_trip_fields_witness :
    isPlainTree plainExample = true ∧
    ∃ text, convertToToon (.obj plainExample) 0 = some text ∧
      ∃ R, parseToon text = some (.obj R) ∧ R.map Prod.fst = plainExample.map Prod.fst ∧
        ∀ k, lookupProp R k = lookupProp plainExample k :=
  ⟨by decide, C1_round_trip_fields plainExample (by decide)⟩

/-- Claim C2, refuted as stated: the object `__proto__: 1` has one key, a
non-empty word-character name, and one field, a safe scalar, yet decoding its
encoding gives the empty object: the assignment `root["__proto__"] = 1` runs
the setter of `Object.prototype` and stores no field. -/
theorem C2_counterexample :
    isWordName protoKey = true ∧
    isSafeScalar (.num (.int 1)) = true ∧
    convertToToon (.obj [(protoKey, .num (.int 1))]) 0 = some "__proto__: 1\n".toList ∧
    parseToon "__proto__: 1\n".toList = some (.obj []) ∧
    parseToon "__proto__: 1\n".toList ≠ some (.obj [(protoKey, .num (.int 1))]) := by
  decide

/-- Claim C2, amended: for every object of the round-trip class over the safe
scalars (distinct word-character keys other than `__proto__` at every level;
each top-level field a safe scalar, a non-empty object of safe scalars, or a
non-empty array of non-empty objects with one key list and safe-scalar
fields; a safe scalar that is an integer being a Number), `convertToToon`
returns a text and `parseToon` of that text is the object itself. -/
theorem C2_round_trip (O : List (Str × Value))
    (h : isRoundTripObject isSafeScalar O = true) :
    ∃ text, convertToToon (.obj O) 0 = some text ∧ parseToon text = some (.obj O) :=
  roundTrip_object isSafeScalar_class O h

/-- Witness of C2: the constant `exampleData` of the source and the
users/metadata object of the specification are in the round-trip class, and
decoding their encodings returns them. -/
theorem C2_round_trip_witness :
    (isRoundTripObject isSafeScalar exampleData = true ∧
      ∃ text, convertToToon (.obj exampleData) 0 = some text ∧
        parseToon text = some (.obj exampleData)) ∧
    (isRoundTripObject isSafeScalar usersExample = true ∧
      ∃ text, convertToToon (.obj usersExample) 0 = some text ∧
        parseToon text = some (.obj usersExample)) :=
  ⟨⟨by decide, C2_round_trip exampleData (by decide)⟩,
   ⟨by decide, C2_round_trip usersExample (by decide)⟩⟩

theorem convertFields_append (O1 O2 : List (Str × Value)) (n : Nat) :
    convertFields (O1 ++ O2) n =
      match convertFields O1 n, convertFields O2 n with
      | some a, some b => some (a ++ b)
      | _, _ => none := by
  induction O1 with
  | nil =>
    rw [List.nil_append]
    cases h : convertFields O2 n <;> simp [convertFields]
  | cons f rest ih =>
    obtain ⟨k, v⟩ := f
    rw [List.cons_append]
    simp only [convertFields]
    rw [ih]
    cases convertField k v n with
    | none => rfl
    | some g =>
      cases convertFields rest n with
      | none => rfl
      | some a =>
        cases convertFields O2 n with
        | none => rfl
        | some b => simp

theorem parseToon_blank (text : Str) (h : ∀ l ∈ split '\n' text, trim l = []) :
    parseToon text = some (.obj []) := by
  have : nonBlankLines text = [] := by
    unfold nonBlankLines
    rw [List.filter_eq_nil_iff]
    intro l hl
    simp [h l hl]
  simp [parseToon, this, processLines, rootObject]

/-- Claim C11, refuted as stated: on the top-level number 5, `convertToToon`
reports no failure; it returns the text `5`. -/
theorem C11_counterexample :
    convertToToon (.num (.int 5)) 0 = some "5".toList ∧
    convertToToon (.num (.int 5)) 0 ≠ none := by
  decide

/-- Claim C11, amended: for every top-level value that is not an object (a
number, a string, a boolean, `null` or `undefined`), `convertToToon` reports
no failure and returns the text `String(value)`, at every indent. -/
theorem C11_non_object_returns_string (v : Value) (n : Nat) (h : isObjectLike v = false) :
    convertToToon v n = some (toStringValue v) := by
  cases v with
  | arr xs => simp [isObjectLike] at h
  | obj fs => simp [isObjectLike] at h
  | null => rfl
  | undefined => rfl
  | bool b => rfl
  | num x => rfl
  | str s => rfl

/-- Witness of C11 on the top-level string `hi`. -/
theorem C11_non_object_returns_string_witness :
    convertToToon (.str "hi".toList) 3 = some "hi".toList :=
  C11_non_object_returns_string (.str "hi".toList) 3 (by decide)

theorem isKeyOrdered_of_no_index (fs : List (Str × Value))
    (h : ∀ f ∈ fs, isArrayIndex f.1 = false) : isKeyOrdered fs = true := by
  have h1 : fs.filter (fun f => isArrayIndex f.1) = [] := by
    rw [List.filter_eq_nil_iff]
    intro f hf
    simp [h f hf]
  have h2 : fs.filter (fun f => !isArrayIndex f.1) = fs := by
    rw [List.filter_eq_self]
    intro f hf
    simp [h f hf]
  simp [isKeyOrdered, keyOrder, h1, h2]

/-- Claim C12, refuted as stated: the objects `b: 1` and `1: 2` have disjoint
key sets, yet the encoding of the object that holds the field of the first
followed by the field of the second is not the two encodings in that order:
`Object.keys` lists the integer-like key `1` first. -/
theorem C12_counterexample :
    keyOrder ([("b".toList, .num (.int 1))] ++ [("1".toList, .num (.int 2))]) =
      [("1".toList, .num (.int 2)), ("b".toList, .num (.int 1))] ∧
    convertToToon (.obj (keyOrder
      ([("b".toList, .num (.int 1))] ++ [("1".toList, .num (.int 2))]))) 0 =
        some "1: 2\nb: 1\n".toList ∧
    convertToToon (.obj [("b".toList, .num (.int 1))]) 0 = some "b: 1\n".toList ∧
    convertToToon (.obj [("1".toList, .num (.int 2))]) 0 = some "1: 2\n".toList ∧
    convertToToon (.obj (keyOrder
      ([("b".toList, .num (.int 1))] ++ [("1".toList, .num (.int 2))]))) 0 ≠
        some ("b: 1\n".toList ++ "1: 2\n".toList) := by
  decide

/-- Claim C12, amended: `convertToToon` emits one group of lines per key, in
the key order of the object: for objects `O1` and `O2` with disjoint key sets
such that the fields of `O1` followed by those of `O2` are in the order in
which `Object.keys` enumerates them (as they are when no key is
integer-like), the encoding at indent `n` of the object holding the fields of
`O1` followed by those of `O2` is the encoding of `O1` followed by the
encoding of `O2` (and it throws when one of the two does). -/
theorem C12_one_group_per_key (O1 O2 : List (Str × Value)) (n : Nat)
    (_hdisj : ∀ k ∈ O1.map Prod.fst, k ∉ O2.map Prod.fst)
    (hord : isKeyOrdered (O1 ++ O2) = true) :
    convertToToon (.obj (keyOrder (O1 ++ O2))) n =
      match convertToToon (.obj O1) n, convertToToon (.obj O2) n with
      | some a, some b => some (a ++ b)
      | _, _ => none := by
  unfold isKeyOrdered at hord
  rw [of_decide_eq_true hord]
  simp only [convertToToon]
  exact convertFields_append O1 O2 n

/-- Witness of C12 at indent 1 on the fields `a`, `b` followed by the fields
`c`, `d`. -/
theorem C12_one_group_per_key_witness :
    convertToToon (.obj (keyOrder (firstFields ++ secondFields))) 1 =
      some ("  a: 1\n  b: true\n".toList ++ "  c[1]\x7bx\x7d: 2\n  d\x7be\x7d: null\n".toList) :=
  C12_one_group_per_key firstFields secondFields 1 (by decide) (by decide)

/-- Claim C13: the encoding of the empty object is the empty string at every
indent level, `parseToon("")` is the empty object, and so is `parseToon` of
every text whose lines are all blank. -/
theorem C13_empty_object_empty_text (n : Nat) (text : Str)
    (h : ∀ l ∈ split '\n' text, trim l = []) :
    convertToToon (.obj []) n = some [] ∧
    parseToon [] = some (.obj []) ∧
    parseToon text = some (.obj []) :=
  ⟨rfl, by decide, parseToon_blank text h⟩

/-- Witness of C13 at indent 4 and on a text of three blank lines. -/
theorem C13_empty_object_empty_text_witness :
    convertToToon (.obj []) 4 = some [] ∧
    parseToon [] = some (.obj []) ∧
    parseToon "  \n\t\n ".toList = some (.obj []) :=
  C13_empty_object_empty_text 4 "  \n\t\n ".toList (by decide)


theorem processLine_congr (st : Stack) (a b : Str) (hi : lineIndent a = lineIndent b)
    (ht : trim a = trim b) : processLine st a = processLine st b := by
  unfold processLine
  simp only [hi, ht]

theorem trim_word_colon_space (k : Str) (hk : isWordName k = true) :
    trim (k ++ [':', ' ']) = k ++ [':'] := by
  obtain ⟨hne, hw⟩ := isWordName_iff.mp hk
  obtain ⟨c, t, rfl⟩ := List.exists_cons_of_ne_nil hne
  have hc : isSpace c = false := isWord_not_isSpace (hw c (List.mem_cons_self _ _))
  have h1 : isSpace ' ' = true := by decide
  have h2 : isSpace ':' = false := by decide
  simp [trim, List.dropWhile, hc, h1, h2]

theorem parseToon_single_line (line : Str) (hnl : '\n' ∉ line) (hnb : trim line ≠ []) :
    parseToon (line ++ ['\n']) =
      (processLine ⟨⟨[], [], -1⟩, []⟩ line).map (fun st => .obj (rootObject st.top st.below)) := by
  have hj : line ++ ['\n'] = join ['\n'] [line, []] := by
    simp [join, List.intercalate]
  have hb : trim ([] : Str) = [] := by decide
  unfold parseToon
  rw [hj, nonBlankLines_join_lines [line, []] (by
    intro l hl
    simp only [List.mem_cons, List.mem_singleton, List.not_mem_nil, or_false] at hl
    rcases hl with rfl | rfl
    · exact hnl
    · simp)]
  have hf : [line, []].filter (fun l => trim l != []) = [line] := by
    have hd : (trim line != []) = true := by simpa using hnb
    simp [List.filter, hb, hd]
  rw [hf]
  simp only [processLines]
  cases processLine ⟨⟨[], [], -1⟩, []⟩ line <;> rfl

theorem word_no_lf (k : Str) (hk : isWordName k = true) : '\n' ∉ k := by
  intro h
  have := (isWordName_iff.mp hk).2 _ h
  revert this
  decide

/-- Claim C18, refuted as stated: `__proto__` is a non-empty word-character
key, yet `parseToon` of the line `__proto__: ` returns the empty object and
not the object with the field `__proto__`: the assignment
`parent["__proto__"] = newObj` of the nested-opener stores no field. -/
theorem C18_counterexample :
    isWordName protoKey = true ∧
    convertToToon (.obj [(protoKey, .str [])]) 0 = some "__proto__: \n".toList ∧
    parseToon "__proto__: \n".toList = some (.obj []) ∧
    parseToon "__proto__: \n".toList ≠ some (.obj [(protoKey, .obj [])]) := by
  decide

/-- Claim C18, amended: an empty-string field does not survive a round trip:
for every non-empty word-character key `k` other than `__proto__`, the
encoding of `{k: ""}` is the line `k: `, and `parseToon` of it returns
`{k: {}}`, because the trimmed line `k:` is classified as a nested-opener
(neither header class matches it, and the primitive class is tried only after
the nested-opener class). -/
theorem C18_empty_string_field (k : Str) (hkf : isFieldName k = true) :
    convertToToon (.obj [(k, .str [])]) 0 = some (k ++ [':', ' '] ++ ['\n']) ∧
    parseToon (k ++ [':', ' '] ++ ['\n']) = some (.obj [(k, .obj [])]) ∧
    trim (k ++ [':', ' ']) = k ++ [':'] ∧
    arrayMatch (k ++ [':']) = none ∧ objectMatch (k ++ [':']) = none ∧
    nestedMatch (k ++ [':']) = some k := by
  obtain ⟨hk, hkp⟩ := isFieldName_iff.mp hkf
  obtain ⟨hne, hw⟩ := isWordName_iff.mp hk
  have hsp := wordSpan k [':'] hk (by intro c hc; simp at hc; subst hc; decide)
  have htrim := trim_word_colon_space k hk
  refine ⟨?_, ?_, htrim, ?_, ?_, ?_⟩
  · rw [convertToToon_single]
    simp [convertField, spacing, formatValue]
  · rw [parseToon_single_line _ (by
      intro h
      rcases List.mem_append.mp h with h | h
      · exact word_no_lf k hk h
      · revert h; decide) (by rw [htrim]; simp)]
    have htc : trim (k ++ [':']) = k ++ [':'] := by
      apply noSpace_trim
      intro c hc
      rcases List.mem_append.mp hc with hc | hc
      · exact isWord_not_isSpace (hw c hc)
      · rw [List.mem_singleton] at hc; subst hc; decide
    rw [processLine_congr _ (k ++ [':', ' ']) (k ++ [':'])
      (by rw [lineIndent_word k _ hk, lineIndent_word k _ hk]) (by rw [htrim, htc]),
      processLine_opener k hk ⟨⟨[], [], -1⟩, []⟩ ⟨[], [], -1⟩ rfl]
    simp [rootObject, attach, setProp, storeProp, hkp]
  · simp [arrayMatch, hsp.1, hsp.2, hne]
  · simp [objectMatch, hsp.1, hsp.2, hne]
  · simp [nestedMatch, hsp.1, hsp.2, hne]

/-- Witness of C18 on the key `name`. -/
theorem C18_empty_string_field_witness :
    convertToToon (.obj [("name".toList, .str [])]) 0 = some "name: \n".toList ∧
    parseToon "name: \n".toList = some (.obj [("name".toList, .obj [])]) ∧
    trim "name: ".toList = "name:".toList ∧
    arrayMatch "name:".toList = none ∧ objectMatch "name:".toList = none ∧
    nestedMatch "name:".toList = some "name".toList :=
  C18_empty_string_field "name".toList (by decide)

/-- Claim C19, refuted as stated: `__proto__` is a non-empty word-character
key, yet `parseToon` of the line `__proto__: []` returns the empty object and
not the object with the field `__proto__`: the assignment
`parent["__proto__"] = [""]` stores no field. -/
theorem C19_counterexample :
    isWordName protoKey = true ∧
    convertToToon (.obj [(protoKey, .arr [])]) 0 = some "__proto__: []\n".toList ∧
    parseToon "__proto__: []\n".toList = some (.obj []) ∧
    parseToon "__proto__: []\n".toList ≠ some (.obj [(protoKey, .arr [.str []])]) := by
  decide

/-- Claim C19, amended: an empty-array field does not survive a round trip:
for every non-empty word-character key `k` other than `__proto__`, the
encoding of `{k: []}` is the line `k: []`, and `parseToon` of it returns
`{k: [""]}`, an array holding one empty string, since `parseValue("[]")` is
`[""]`. -/
theorem C19_empty_array_field (k : Str) (hkf : isFieldName k = true) :
    convertToToon (.obj [(k, .arr [])]) 0 = some (k ++ [':', ' ', '[', ']'] ++ ['\n']) ∧
    parseToon (k ++ [':', ' ', '[', ']'] ++ ['\n']) = some (.obj [(k, .arr [.str []])]) ∧
    parseValue (some ['[', ']']) = some (.arr [.str []]) := by
  obtain ⟨hk, hkp⟩ := isFieldName_iff.mp hkf
  obtain ⟨hkne, hw⟩ := isWordName_iff.mp hk
  have hline : k ++ [':', ' ', '[', ']'] = k ++ ([':', ' '] ++ ['[', ']']) := rfl
  have htrim := trim_word_line k [':', ' '] ['[', ']'] hk (by simp)
    (by intro c hc; simp at hc; subst hc; decide)
  have hsp := wordSpan k ([':', ' '] ++ ['[', ']']) hk
    (by intro c hc; simp at hc; subst hc; decide)
  refine ⟨?_, ?_, by decide⟩
  · rw [convertToToon_single]
    simp [convertField, spacing, formatValue, formatValues, join, List.intercalate]
  · rw [hline, parseToon_single_line _ (by
      intro h
      rcases List.mem_append.mp h with h | h
      · exact word_no_lf k hk h
      · revert h; decide) (by rw [htrim]; simp [hkne])]
    have h1 : arrayMatch (k ++ ([':', ' '] ++ ['[', ']'])) = none := by
      unfold arrayMatch; dsimp only; rw [hsp.1, hsp.2, if_neg hkne]; rfl
    have h2 : objectMatch (k ++ ([':', ' '] ++ ['[', ']'])) = none := by
      unfold objectMatch; dsimp only; rw [hsp.1, hsp.2, if_neg hkne]; rfl
    have h3 : nestedMatch (k ++ ([':', ' '] ++ ['[', ']'])) = none := by
      unfold nestedMatch; dsimp only; rw [hsp.1, hsp.2, if_neg hkne]; rfl
    have hvt : valueTail [' ', '[', ']'] = some ['[', ']'] := by decide
    have h4 : primitiveMatch (k ++ ([':', ' '] ++ ['[', ']'])) = some (k, ['[', ']']) := by
      unfold primitiveMatch; dsimp only; rw [hsp.1, hsp.2, if_neg hkne]
      show (valueTail [' ', '[', ']']).map _ = _
      rw [hvt]; rfl
    have hpv : parseValue (some ['[', ']']) = some (.arr [.str []]) := by decide
    unfold processLine
    dsimp only
    rw [htrim, lineIndent_word k _ hk, h1, h2, h3, h4]
    simp only [hpv, Option.map_some', assign, popFrames, rootObject, setProp, storeProp,
      if_neg hkp]

/-- Witness of C19 on the key `tags`. -/
theorem C19_empty_array_field_witness :
    convertToToon (.obj [("tags".toList, .arr [])]) 0 = some "tags: []\n".toList ∧
    parseToon "tags: []\n".toList = some (.obj [("tags".toList, .arr [.str []])]) ∧
    parseValue (some "[]".toList) = some (.arr [.str []]) :=
  C19_empty_array_field "tags".toList (by decide)


theorem mapThrow_eq_none {α β : Type} (f : α → Option β) (l : List α) :
    mapThrow f l = none ↔ ∃ x ∈ l, f x = none := by
  induction l with
  | nil => simp [mapThrow]
  | cons x xs ih =>
    simp only [mapThrow, List.mem_cons, exists_eq_or_imp]
    cases hx : f x with
    | none => simp
    | some y =>
      simp only [false_or]
      rw [← ih]
      cases mapThrow f xs <;> simp

theorem fillObject_eq_none (vals : List Str) :
    ∀ (keys : List Str) (idx : Nat) (acc : List (Str × Value)), idx ≤ vals.length →
      (fillObject vals keys idx acc = none ↔ vals.length < idx + keys.length) := by
  intro keys
  induction keys with
  | nil => intro idx acc h; simp [fillObject]; omega
  | cons k ks ih =>
    intro idx acc h
    rcases Nat.lt_or_ge idx vals.length with hlt | hge
    · have hv : vals[idx]? = some vals[idx] := List.getElem?_eq_getElem hlt
      simp only [fillObject, hv, parseValue, List.length_cons]
      rw [ih (idx + 1) _ hlt]
      omega
    · have hv : vals[idx]? = none := List.getElem?_eq_none hge
      simp only [fillObject, hv, parseValue, List.length_cons, true_iff]
      omega

theorem rowObject_eq_none (keys : List Str) (row : Str) :
    rowObject keys row = none ↔ (split ',' row).length < keys.length := by
  unfold rowObject
  rw [Option.map_eq_none', fillObject_eq_none _ keys 0 [] (Nat.zero_le _)]
  simp

theorem processLine_eq_none (st : Stack) (line : Str) :
    processLine st line = none ↔ lineRaises line = true := by
  unfold processLine lineRaises
  dsimp only
  cases h1 : arrayMatch (trim line) with
  | some m =>
    obtain ⟨key, fields, valuesStr⟩ := m
    simp only [Option.map_eq_none', mapThrow_eq_none, rowObject_eq_none, List.any_eq_true,
      hasFewerValues, decide_eq_true_eq]
  | none =>
    cases h2 : objectMatch (trim line) with
    | some m =>
      obtain ⟨key, fields, vals⟩ := m
      simp only [Option.map_eq_none', rowObject_eq_none, hasFewerValues, decide_eq_true_eq]
    | none =>
      simp only
      cases h3 : nestedMatch (trim line) with
      | some key => simp
      | none =>
        cases h4 : primitiveMatch (trim line) with
        | some m => obtain ⟨key, val⟩ := m; simp [parseValue]
        | none => simp

theorem processLines_eq_none (lines : List Str) :
    ∀ st, processLines st lines = none ↔ ∃ l ∈ lines, lineRaises l = true := by
  induction lines with
  | nil => intro st; simp [processLines]
  | cons l rest ih =>
    intro st
    simp only [processLines, List.mem_cons, exists_eq_or_imp]
    cases h : processLine st l with
    | none => simp [(processLine_eq_none st l).mp h]
    | some st1 =>
      have hl : ¬ lineRaises l = true := fun hr => by
        rw [(processLine_eq_none st l).mpr hr] at h; cases h
      rw [ih st1]
      simp [hl]

/-- Claim C17: `parseToon` raises an error on a text if and only if some
non-blank line of it is classified as an array-header and has a
space-separated row with fewer comma-separated values than the header has
fields, or is classified as an object-header and has fewer comma-separated
values than the header has fields; on every other text it returns an
object. -/
theorem C17_error_iff_short_row (text : Str) :
    (parseToon text = none ↔
      ∃ line ∈ split '\n' text, trim line ≠ [] ∧ lineRaises line = true) ∧
    ((¬ ∃ line ∈ split '\n' text, trim line ≠ [] ∧ lineRaises line = true) →
      ∃ fs, parseToon text = some (.obj fs)) := by
  have hiff : parseToon text = none ↔
      ∃ line ∈ split '\n' text, trim line ≠ [] ∧ lineRaises line = true := by
    unfold parseToon
    rw [Option.map_eq_none', processLines_eq_none]
    unfold nonBlankLines
    constructor
    · rintro ⟨l, hl, hr⟩
      rw [List.mem_filter] at hl
      exact ⟨l, hl.1, by simpa using hl.2, hr⟩
    · rintro ⟨l, hl, hnb, hr⟩
      exact ⟨l, List.mem_filter.mpr ⟨hl, by simpa using hnb⟩, hr⟩
  refine ⟨hiff, fun hno => ?_⟩
  have hne : parseToon text ≠ none := fun h => hno (hiff.mp h)
  unfold parseToon at hne ⊢
  cases h : processLines ⟨⟨[], [], -1⟩, []⟩ (nonBlankLines text) with
  | none => rw [h] at hne; exact absurd rfl hne
  | some st => exact ⟨_, rfl⟩


theorem dropWhile_append_stop {p : Char → Bool} (a b : Str) (hne : b ≠ [])
    (hb : ∀ c ∈ b.head?, p c = false) : (a ++ b).dropWhile p = a.dropWhile p ++ b := by
  induction a with
  | nil =>
    obtain ⟨c, t, rfl⟩ := List.exists_cons_of_ne_nil hne
    have hc : p c = false := hb c rfl
    simp [List.dropWhile, hc]
  | cons x xs ih =>
    by_cases hx : p x = true
    · simp [List.dropWhile, hx, ih]
    · simp [List.dropWhile, hx]

theorem trim_decompose (line : Str) :
    ∃ tws : Str, (∀ c ∈ tws, isSpace c = true) ∧
      line = line.takeWhile isSpace ++ (trim line ++ tws) := by
  refine ⟨((line.dropWhile isSpace).reverse.takeWhile isSpace).reverse, ?_, ?_⟩
  · intro c hc
    rw [List.mem_reverse] at hc
    exact List.mem_takeWhile_imp hc
  · unfold trim
    rw [← List.reverse_append, List.takeWhile_append_dropWhile, List.reverse_reverse,
      List.takeWhile_append_dropWhile]

theorem arrayMatch_shape (t key fields valuesStr : Str)
    (h : arrayMatch t = some (key, fields, valuesStr)) :
    ∃ ds r2, t = key ++ '[' :: (ds ++ ']' :: r2) ∧ isWordName key = true ∧ ds ≠ [] ∧
      (∀ c ∈ ds, isDigit c = true) := by
  unfold arrayMatch at h
  dsimp only at h
  have ht := (List.takeWhile_append_dropWhile isWord t).symm
  split at h
  · cases h
  · rename_i hname
    split at h
    · rename_i r1 hr1
      split at h
      · cases h
      · rename_i hds
        split at h
        · rename_i r2 hr2
          split at h
          · cases h
          · split at h
            · rename_i r3 hr3
              cases hv : valueTail r3 with
              | none => rw [hv] at h; cases h
              | some v =>
                rw [hv] at h
                simp only [Option.map_some', Option.some.injEq, Prod.mk.injEq] at h
                obtain ⟨hk, -, -⟩ := h
                refine ⟨r1.takeWhile isDigit, '\x7b' :: r2, ?_, ?_, hds, ?_⟩
                · rw [← hk, ← hr2, List.takeWhile_append_dropWhile, ← hr1]; exact ht
                · rw [isWordName_iff, ← hk]
                  exact ⟨hname, fun c hc => List.mem_takeWhile_imp hc⟩
                · intro c hc; exact List.mem_takeWhile_imp hc
            · cases h
        · cases h
    · cases h


theorem arrayMatch_count (key ds ds2 rest : Str) (hk : isWordName key = true)
    (hne : ds ≠ []) (hd : ∀ c ∈ ds, isDigit c = true)
    (hne2 : ds2 ≠ []) (hd2 : ∀ c ∈ ds2, isDigit c = true) :
    arrayMatch (key ++ '[' :: (ds2 ++ ']' :: rest)) =
      arrayMatch (key ++ '[' :: (ds ++ ']' :: rest)) := by
  obtain ⟨hkne, hw⟩ := isWordName_iff.mp hk
  have hb : ∀ (x : Str) (c : Char), c ∈ ('[' :: x).head? → isWord c = false := by
    intro x c hc; simp at hc; subst hc; decide
  have hc : ∀ c ∈ (']' :: rest).head?, isDigit c = false := by
    intro c hc; simp at hc; subst hc; decide
  have s1 := wordSpan key ('[' :: (ds ++ ']' :: rest)) hk (hb _)
  have s2 := wordSpan key ('[' :: (ds2 ++ ']' :: rest)) hk (hb _)
  have d1 := takeWhile_append_stop ds (']' :: rest) hd hc
  have d2 := takeWhile_append_stop ds2 (']' :: rest) hd2 hc
  unfold arrayMatch
  dsimp only
  rw [s1.1, s1.2, s2.1, s2.2]
  simp only [d1.1, d1.2, d2.1, d2.2, hne, hne2, if_false]

theorem trim_header (ind key ds b : Str) (hi : ∀ c ∈ ind, isSpace c = true)
    (hk : isWordName key = true) :
    trim (ind ++ (key ++ '[' :: (ds ++ ']' :: b))) =
      key ++ '[' :: (ds ++ ']' :: (b.reverse.dropWhile isSpace).reverse) ∧
    lineIndent (ind ++ (key ++ '[' :: (ds ++ ']' :: b))) = ind.length ∧
    (ind ++ (key ++ '[' :: (ds ++ ']' :: b))).takeWhile isSpace = ind ∧
    (ind ++ (key ++ '[' :: (ds ++ ']' :: b))).dropWhile isSpace =
      key ++ '[' :: (ds ++ ']' :: b) := by
  obtain ⟨hkne, hw⟩ := isWordName_iff.mp hk
  obtain ⟨c, kt, rfl⟩ := List.exists_cons_of_ne_nil hkne
  have hc : isSpace c = false := isWord_not_isSpace (hw c (List.mem_cons_self _ _))
  have hsp := takeWhile_append_stop ind (c :: kt ++ '[' :: (ds ++ ']' :: b)) hi
    (by intro x hx; simp at hx; subst hx; exact hc)
  refine ⟨?_, ?_, hsp.1, hsp.2⟩
  · unfold trim
    rw [hsp.2]
    have hrev : (c :: kt ++ '[' :: (ds ++ ']' :: b)).reverse =
        b.reverse ++ (']' :: (ds.reverse ++ '[' :: (c :: kt).reverse)) := by
      simp
    rw [hrev, dropWhile_append_stop _ _ (by simp)
      (by intro x hx; simp at hx; subst hx; decide)]
    simp
  · unfold lineIndent
    have hall : (ind ++ (c :: kt ++ '[' :: (ds ++ ']' :: b))).all isSpace = false := by
      simp [hc]
    rw [hall, hsp.1]
    simp

theorem replaceCount_header (ind key ds digits rest : Str)
    (hi : ∀ c ∈ ind, isSpace c = true) (hk : isWordName key = true)
    (hd : ∀ c ∈ ds, isDigit c = true) :
    replaceCount digits (ind ++ (key ++ '[' :: (ds ++ ']' :: rest))) =
      ind ++ (key ++ '[' :: (digits ++ ']' :: rest)) := by
  have hh := trim_header ind key ds rest hi hk
  have s1 := wordSpan key ('[' :: (ds ++ ']' :: rest)) hk
    (by intro c hc; simp at hc; subst hc; decide)
  have d1 := takeWhile_append_stop ds (']' :: rest) hd
    (by intro c hc; simp at hc; subst hc; decide)
  unfold replaceCount
  dsimp only
  rw [hh.2.2.1, hh.2.2.2, s1.1, s1.2]
  simp only [d1.2]

theorem header_shape (line key fields valuesStr : Str)
    (hh : arrayMatch (trim line) = some (key, fields, valuesStr)) :
    ∃ ind ds rest, (∀ c ∈ ind, isSpace c = true) ∧ isWordName key = true ∧ ds ≠ [] ∧
      (∀ c ∈ ds, isDigit c = true) ∧ line = ind ++ (key ++ '[' :: (ds ++ ']' :: rest)) := by
  obtain ⟨ds, r2, ht, hk, hdne, hdd⟩ := arrayMatch_shape _ _ _ _ hh
  obtain ⟨tws, -, hl⟩ := trim_decompose line
  refine ⟨line.takeWhile isSpace, ds, r2 ++ tws, fun c hc => List.mem_takeWhile_imp hc,
    hk, hdne, hdd, ?_⟩
  rw [ht] at hl
  simpa using hl

theorem processLines_congr_line (a b : Str) (h : ∀ st, processLine st a = processLine st b)
    (pre post : List Str) :
    ∀ st, processLines st (pre ++ a :: post) = processLines st (pre ++ b :: post) := by
  induction pre with
  | nil => intro st; simp only [List.nil_append, processLines, h st]
  | cons l rest ih =>
    intro st
    simp only [List.cons_append, processLines]
    cases processLine st l with
    | none => rfl
    | some st1 => exact ih st1

theorem mapThrow_rowObject (keys : List Str) (rows : List Str) :
    (mapThrow (rowObject keys) rows).map (List.map isPlainObject) =
      if rows.any (fun row => decide ((split ',' row).length < keys.length)) then none
      else some (List.replicate rows.length true) := by
  induction rows with
  | nil => rfl
  | cons r rest ih =>
    simp only [mapThrow, List.any_cons, List.length_cons, List.replicate_succ]
    cases hr : rowObject keys r with
    | none =>
      have := (rowObject_eq_none keys r).mp hr
      simp [this]
    | some o =>
      have hlt : ¬ (split ',' r).length < keys.length := fun hlt => by
        rw [(rowObject_eq_none keys r).mpr hlt] at hr; cases hr
      have ho : isPlainObject o = true := by
        unfold rowObject at hr
        cases hf : fillObject (split ',' r) keys 0 [] with
        | none => rw [hf] at hr; cases hr
        | some fs => rw [hf] at hr; cases hr; rfl
      simp only [hlt, decide_False, Bool.false_or]
      cases hm : mapThrow (rowObject keys) rest with
      | none =>
        rw [hm] at ih
        simp only [Option.map_none'] at ih ⊢
        split at ih
        · simp [*]
        · cases ih
      | some os =>
        rw [hm] at ih
        simp only [Option.map_some'] at ih ⊢
        split at ih
        · cases ih
        · simp only [Option.some.injEq] at ih
          simp [*]

theorem processLine_array (st : Stack) (line key fields valuesStr : Str)
    (hh : arrayMatch (trim line) = some (key, fields, valuesStr)) :
    processLine st line =
      (mapThrow (rowObject (split ',' fields)) (split ' ' valuesStr)).map
        (fun rows => assign (popFrames (lineIndent line) st.top st.below) key (.arr rows)) := by
  unfold processLine
  dsimp only
  rw [hh]

/-- Claim C14: the declared count of an array-header is not validated and has
no effect.  In a text, replacing the digits between the brackets of an
array-header line by any other non-empty digit string leaves the result of
`parseToon` unchanged: the line is still an array-header with the same key,
fields and rows, and it is decoded to the same assignment.  The decoded array
holds one object per space-separated row, whatever count is declared (and the
line raises an error exactly when a row is too short). -/
theorem C14_declared_count_ignored (pre post : List Str)
    (line digits key fields valuesStr : Str) (st : Stack)
    (hlines : ∀ l ∈ pre ++ line :: post, '\n' ∉ l)
    (hh : arrayMatch (trim line) = some (key, fields, valuesStr))
    (hne : digits ≠ []) (hd : ∀ c ∈ digits, isDigit c = true) :
    (∃ ind ds rest, ds ≠ [] ∧ (∀ c ∈ ds, isDigit c = true) ∧
      line = ind ++ (key ++ '[' :: (ds ++ ']' :: rest)) ∧
      replaceCount digits line = ind ++ (key ++ '[' :: (digits ++ ']' :: rest))) ∧
    parseToon (join ['\n'] (pre ++ replaceCount digits line :: post)) =
      parseToon (join ['\n'] (pre ++ line :: post)) ∧
    arrayMatch (trim (replaceCount digits line)) = some (key, fields, valuesStr) ∧
    processLine st (replaceCount digits line) =
      (mapThrow (rowObject (split ',' fields)) (split ' ' valuesStr)).map
        (fun rows => assign (popFrames (lineIndent line) st.top st.below) key (.arr rows)) ∧
    (mapThrow (rowObject (split ',' fields)) (split ' ' valuesStr)).map
        (List.map isPlainObject) =
      if lineRaises line then none
      else some (List.replicate (split ' ' valuesStr).length true) := by
  obtain ⟨ind, ds, rest, hi, hk, hdne, hdd, hline⟩ := header_shape line key fields valuesStr hh
  have hrep := replaceCount_header ind key ds digits rest hi hk hdd
  have t1 := trim_header ind key ds rest hi hk
  have t2 := trim_header ind key digits rest hi hk
  have hcount := arrayMatch_count key ds digits (rest.reverse.dropWhile isSpace).reverse hk
    hdne hdd hne hd
  rw [← hline] at hrep t1
  rw [← hrep] at t2
  have hh2 : arrayMatch (trim (replaceCount digits line)) = some (key, fields, valuesStr) := by
    rw [t2.1, hcount, ← t1.1]; exact hh
  have hind : lineIndent (replaceCount digits line) = lineIndent line := by
    rw [t2.2.1, t1.2.1]
  have hproc : ∀ s, processLine s (replaceCount digits line) = processLine s line := by
    intro s
    rw [processLine_array s _ key fields valuesStr hh2, processLine_array s _ key fields
      valuesStr hh, hind]
  have hnb : ∀ l : Str, (arrayMatch (trim l)).isSome = true → (trim l != []) = true := by
    intro l hl
    by_cases he : trim l = []
    · rw [he] at hl; exact absurd hl (by decide)
    · simpa using he
  have hnl : '\n' ∉ replaceCount digits line := by
    have hl : '\n' ∉ line := hlines line (by simp)
    rw [hrep]
    rw [hline] at hl
    intro hm
    apply hl
    simp only [List.mem_append, List.mem_cons] at hm ⊢
    rcases hm with h | h | h | h | h | h
    · exact Or.inl h
    · exact Or.inr (Or.inl h)
    · exact Or.inr (Or.inr (Or.inl h))
    · exact absurd (hd _ h) (by decide)
    · exact Or.inr (Or.inr (Or.inr (Or.inr (Or.inl h))))
    · exact Or.inr (Or.inr (Or.inr (Or.inr (Or.inr h))))
  refine ⟨⟨ind, ds, rest, hdne, hdd, hline, hrep⟩, ?_, hh2, ?_, ?_⟩
  · unfold parseToon
    rw [nonBlankLines_join_lines _ hlines, nonBlankLines_join_lines _ (by
      intro l hl
      rcases List.mem_append.mp hl with h | h
      · exact hlines l (List.mem_append_left _ h)
      · rcases List.mem_cons.mp h with h | h
        · rw [h]; exact hnl
        · exact hlines l (List.mem_append_right _ (List.mem_cons_of_mem _ h)))]
    simp only [List.filter_append, List.filter_cons, hnb _ (by rw [hh2]; rfl),
      hnb _ (by rw [hh]; rfl), if_true]
    rw [processLines_congr_line _ _ hproc]
  · rw [processLine_array st _ key fields valuesStr hh2, hind]
  · rw [mapThrow_rowObject]
    unfold lineRaises
    rw [hh]
    rfl

/-- Witness of C14: the header `  u[2]` of three rows, between two other lines,
with the count replaced by `7`. -/
theorem C14_declared_count_ignored_witness :
    (∃ ind ds rest, ds ≠ [] ∧ (∀ c ∈ ds, isDigit c = true) ∧
      "  u[2]\x7bid,name\x7d: 1,Al 2,Bo 3,Cy".toList =
        ind ++ ("u".toList ++ '[' :: (ds ++ ']' :: rest)) ∧
      replaceCount "7".toList "  u[2]\x7bid,name\x7d: 1,Al 2,Bo 3,Cy".toList =
        ind ++ ("u".toList ++ '[' :: ("7".toList ++ ']' :: rest))) ∧
    parseToon (join ['\n'] (["a:".toList] ++
        replaceCount "7".toList "  u[2]\x7bid,name\x7d: 1,Al 2,Bo 3,Cy".toList ::
          ["b: 2".toList])) =
      parseToon (join ['\n'] (["a:".toList] ++
        "  u[2]\x7bid,name\x7d: 1,Al 2,Bo 3,Cy".toList :: ["b: 2".toList])) ∧
    arrayMatch (trim (replaceCount "7".toList "  u[2]\x7bid,name\x7d: 1,Al 2,Bo 3,Cy".toList)) =
      some ("u".toList, "id,name".toList, "1,Al 2,Bo 3,Cy".toList) ∧
    processLine ⟨⟨[], [], -1⟩, []⟩
        (replaceCount "7".toList "  u[2]\x7bid,name\x7d: 1,Al 2,Bo 3,Cy".toList) =
      (mapThrow (rowObject (split ',' "id,name".toList))
          (split ' ' "1,Al 2,Bo 3,Cy".toList)).map
        (fun rows => assign
          (popFrames (lineIndent "  u[2]\x7bid,name\x7d: 1,Al 2,Bo 3,Cy".toList) ⟨[], [], -1⟩ [])
          "u".toList (.arr rows)) ∧
    (mapThrow (rowObject (split ',' "id,name".toList))
        (split ' ' "1,Al 2,Bo 3,Cy".toList)).map (List.map isPlainObject) =
      if lineRaises "  u[2]\x7bid,name\x7d: 1,Al 2,Bo 3,Cy".toList then none
      else some (List.replicate (split ' ' "1,Al 2,Bo 3,Cy".toList).length true) :=
  C14_declared_count_ignored ["a:".toList] ["b: 2".toList]
    "  u[2]\x7bid,name\x7d: 1,Al 2,Bo 3,Cy".toList "7".toList "u".toList "id,name".toList
    "1,Al 2,Bo 3,Cy".toList ⟨⟨[], [], -1⟩, []⟩ (by decide) (by decide) (by decide) (by decide)

theorem replaceCount_example :
    replaceCount "7".toList "  u[2]\x7bid,name\x7d: 1,Al 2,Bo 3,Cy".toList =
      "  u[7]\x7bid,name\x7d: 1,Al 2,Bo 3,Cy".toList ∧
    parseToon "a:\n  u[7]\x7bid,name\x7d: 1,Al 2,Bo 3,Cy\nb: 2".toList =
      some (.obj [("a".toList, .obj [("u".toList, .arr [
        .obj [("id".toList, .num (.int 1)), ("name".toList, .str "Al".toList)],
        .obj [("id".toList, .num (.int 2)), ("name".toList, .str "Bo".toList)],
        .obj [("id".toList, .num (.int 3)), ("name".toList, .str "Cy".toList)]])]),
        ("b".toList, .num (.int 2))]) := by
  decide


theorem stackShape_popFrames (i : Int) (hi : 0 ≤ i) :
    ∀ (below : List Frame) (top : Frame),
      ((top :: below).map (fun f => f.indent)).getLast? = some (-1) →
      stackShape (popFrames i top below) =
        (stackShape ⟨top, below⟩).dropWhile (fun o => decide (i ≤ o.2)) := by
  intro below
  induction below with
  | nil =>
    intro top h
    simp only [List.map_cons, List.map_nil, List.getLast?_singleton, Option.some.injEq] at h
    have hf : decide (i ≤ top.indent) = false := by
      rw [h]; simp; omega
    simp [popFrames, stackShape, List.dropWhile, hf]
  | cons p rest ih =>
    intro top h
    have h2 : (((attach top p) :: rest).map (fun f => f.indent)).getLast? = some (-1) := by
      simpa [attach, List.getLast?_cons_cons] using h
    have hs : stackShape ⟨attach top p, rest⟩ = stackShape ⟨p, rest⟩ := by
      simp [stackShape, attach]
    by_cases hge : top.indent ≥ i
    · have hd : decide (i ≤ top.indent) = true := by simpa using hge
      rw [popFrames, if_pos hge, ih _ h2, hs]
      simp [stackShape, List.dropWhile, hd]
    · have hd : decide (i ≤ top.indent) = false := by simpa using hge
      rw [popFrames, if_neg hge]
      simp [stackShape, List.dropWhile, hd]

theorem processLine_frames (st st1 : Stack) (line : Str) (h : processLine st line = some st1) :
    (isOpener line = false ∧ ∃ obj,
      st1 = ⟨{ (popFrames (lineIndent line) st.top st.below).top with obj := obj },
        (popFrames (lineIndent line) st.top st.below).below⟩) ∨
    (isOpener line = true ∧ ∃ obj,
      st1 = ⟨⟨openerKey line, [], lineIndent line⟩,
        { (popFrames (lineIndent line) st.top st.below).top with obj := obj } ::
          (popFrames (lineIndent line) st.top st.below).below⟩) := by
  unfold processLine at h
  dsimp only at h
  unfold isOpener openerKey
  cases h1 : arrayMatch (trim line) with
  | some m =>
    obtain ⟨key, fields, valuesStr⟩ := m
    rw [h1] at h
    dsimp only at h
    left
    refine ⟨by simp, ?_⟩
    cases hm : mapThrow (rowObject (split ',' fields)) (split ' ' valuesStr) with
    | none => rw [hm] at h; cases h
    | some rows =>
      rw [hm] at h
      simp only [Option.map_some', Option.some.injEq] at h
      exact ⟨_, h.symm⟩
  | none =>
    rw [h1] at h
    cases h2 : objectMatch (trim line) with
    | some m =>
      obtain ⟨key, fields, vals⟩ := m
      rw [h2] at h
      dsimp only at h
      left
      refine ⟨by simp, ?_⟩
      cases hm : rowObject (split ',' fields) vals with
      | none => rw [hm] at h; cases h
      | some o =>
        rw [hm] at h
        simp only [Option.map_some', Option.some.injEq] at h
        exact ⟨_, h.symm⟩
    | none =>
      rw [h2] at h
      cases h3 : nestedMatch (trim line) with
      | some key =>
        rw [h3] at h
        dsimp only at h
        right
        refine ⟨by simp, ?_⟩
        simp only [Option.some.injEq] at h
        exact ⟨_, h.symm⟩
      | none =>
        rw [h3] at h
        dsimp only at h
        left
        refine ⟨by simp, ?_⟩
        cases h4 : primitiveMatch (trim line) with
        | some m =>
          obtain ⟨key, val⟩ := m
          rw [h4] at h
          dsimp only at h
          simp only [parseValue, Option.map_some', Option.some.injEq] at h
          exact ⟨_, h.symm⟩
        | none =>
          rw [h4] at h
          dsimp only at h
          simp only [Option.some.injEq] at h
          exact ⟨_, h.symm⟩

theorem stackShape_processLine (st st1 : Stack) (line : Str)
    (h : processLine st line = some st1) :
    stackShape st1 =
      (if isOpener line then [(openerKey line, lineIndent line)] else []) ++
        stackShape (popFrames (lineIndent line) st.top st.below) := by
  rcases processLine_frames st st1 line h with ⟨ho, obj, rfl⟩ | ⟨ho, obj, rfl⟩
  · simp [ho, stackShape]
  · simp [ho, stackShape]

theorem openOpeners_snoc (lines : List Str) (l : Str) :
    openOpeners (lines ++ [l]) =
      (openOpeners lines).filter (fun o => decide (o.2 < lineIndent l)) ++
        (if isOpener l then [(openerKey l, lineIndent l)] else []) := by
  induction lines with
  | nil =>
    cases ho : isOpener l <;> simp [openOpeners, ho]
  | cons x rest ih =>
    simp only [List.cons_append, openOpeners, List.all_append, List.all_cons, List.all_nil,
      Bool.and_true, ih]
    by_cases hc : (isOpener x && rest.all (fun later => decide (lineIndent x < lineIndent later)))
        = true
    · by_cases hx : lineIndent x < lineIndent l
      · simp [hc, hx, ih]
      · simp [hc, hx, ih]
    · simp only [Bool.not_eq_true] at hc
      by_cases hx : lineIndent x < lineIndent l
      · simp [hc, hx, ih]
      · simp [hc, hx, ih]

theorem openOpeners_mem (lines : List Str) :
    ∀ o ∈ openOpeners lines, ∃ m ∈ lines, o.2 = lineIndent m := by
  induction lines with
  | nil => intro o ho; simp [openOpeners] at ho
  | cons x rest ih =>
    intro o ho
    simp only [openOpeners] at ho
    split at ho
    · rcases List.mem_cons.mp ho with rfl | ho
      · exact ⟨x, List.mem_cons_self _ _, rfl⟩
      · obtain ⟨m, hm, e⟩ := ih o ho
        exact ⟨m, List.mem_cons_of_mem _ hm, e⟩
    · obtain ⟨m, hm, e⟩ := ih o ho
      exact ⟨m, List.mem_cons_of_mem _ hm, e⟩

theorem openOpeners_sorted (lines : List Str) :
    (openOpeners lines).Pairwise (fun a b => a.2 < b.2) := by
  induction lines with
  | nil => simp [openOpeners]
  | cons x rest ih =>
    simp only [openOpeners]
    split
    · rename_i hc
      rw [Bool.and_eq_true, List.all_eq_true] at hc
      refine List.Pairwise.cons ?_ ih
      intro o ho
      obtain ⟨m, hm, e⟩ := openOpeners_mem rest o ho
      rw [e]
      simpa using hc.2 m hm
    · exact ih

theorem dropWhile_eq_filter (i : Int) :
    ∀ Y : List (Str × Int), Y.Pairwise (fun a b => b.2 < a.2) →
      Y.dropWhile (fun o => decide (i ≤ o.2)) = Y.filter (fun o => decide (o.2 < i)) := by
  intro Y
  induction Y with
  | nil => intro _; rfl
  | cons y ys ih =>
    intro h
    rw [List.pairwise_cons] at h
    by_cases hy : i ≤ y.2
    · have h1 : decide (i ≤ y.2) = true := by simpa using hy
      have h2 : decide (y.2 < i) = false := by simp; omega
      simp only [List.dropWhile, h1, List.filter, h2]
      exact ih h.2
    · have h1 : decide (i ≤ y.2) = false := by simpa using hy
      have h2 : decide (y.2 < i) = true := by simp; omega
      simp only [List.dropWhile, h1, List.filter, h2]
      congr 1
      symm
      rw [List.filter_eq_self]
      intro o ho
      have := h.1 o ho
      simp; omega

theorem openShape_sorted (lines : List Str) (hnb : ∀ l ∈ lines, trim l ≠ []) :
    ((openOpeners lines).reverse ++ [(([] : Str), (-1 : Int))]).Pairwise
      (fun a b => b.2 < a.2) := by
  rw [List.pairwise_append]
  refine ⟨?_, List.pairwise_singleton _ _, ?_⟩
  · rw [List.pairwise_reverse]
    exact openOpeners_sorted lines
  · intro a ha b hb
    rw [List.mem_singleton] at hb
    subst hb
    obtain ⟨m, hm, e⟩ := openOpeners_mem lines a (List.mem_reverse.mp ha)
    have := lineIndent_nonneg m (hnb m hm)
    show (-1 : Int) < a.2
    omega

theorem pop_openShape (lines : List Str) (hnb : ∀ l ∈ lines, trim l ≠ []) (i : Int)
    (hi : 0 ≤ i) (st : Stack)
    (hst : stackShape st = (openOpeners lines).reverse ++ [([], -1)]) :
    stackShape (popFrames i st.top st.below) =
      ((openOpeners lines).filter (fun o => decide (o.2 < i))).reverse ++ [([], -1)] := by
  have hlast : ((st.top :: st.below).map (fun f => f.indent)).getLast? = some (-1) := by
    have h2 : (stackShape st).map Prod.snd = (st.top :: st.below).map (fun f => f.indent) := by
      simp [stackShape]
    rw [← h2, hst]
    simp
  rw [stackShape_popFrames i hi st.below st.top hlast]
  show (stackShape st).dropWhile _ = _
  rw [hst, dropWhile_eq_filter i _ (openShape_sorted lines hnb), List.filter_append,
    List.filter_reverse]
  have hr : decide ((-1 : Int) < i) = true := by simp; omega
  simp [List.filter, hr]

theorem stackShape_processLines (lines : List Str) (hnb : ∀ l ∈ lines, trim l ≠ []) :
    ∀ st, processLines ⟨⟨[], [], -1⟩, []⟩ lines = some st →
      stackShape st = (openOpeners lines).reverse ++ [([], -1)] := by
  induction lines using List.reverseRecOn with
  | nil =>
    intro st h
    simp only [processLines, Option.some.injEq] at h
    subst h
    rfl
  | append_singleton l a ih =>
    intro st1 h
    have hl : ∀ x ∈ l, trim x ≠ [] := fun x hx => hnb x (List.mem_append_left _ hx)
    have ha : trim a ≠ [] := hnb a (by simp)
    rw [processLines_append] at h
    cases hp : processLines ⟨⟨[], [], -1⟩, []⟩ l with
    | none => rw [hp] at h; cases h
    | some st =>
      rw [hp] at h
      simp only [Option.some_bind, processLines] at h
      cases hq : processLine st a with
      | none => rw [hq] at h; cases h
      | some st2 =>
        rw [hq] at h
        simp only [Option.some.injEq] at h
        subst h
        rw [stackShape_processLine st st2 a hq,
          pop_openShape l hl _ (lineIndent_nonneg a ha) st (ih hl st hp), openOpeners_snoc]
        cases isOpener a <;> simp

theorem head_reverse_append (X : List (Str × Int)) (r : Str × Int) :
    (X.reverse ++ [r]).head? = some (X.getLast?.getD r) := by
  induction X using List.reverseRecOn with
  | nil => rfl
  | append_singleton l a _ => simp

/-- Claim C16: the decoder stack invariant.  After each line processed by
`parseToon` the stack (never empty: it has a top frame) has the root frame, of
indent -1, at its bottom, and the indents of its frames strictly increase from
bottom to top; its frames above the root are exactly the nested-openers that
no later line of indent less than or equal to their own has closed.
Consequently the parent a line is assigned into (the top frame left by the
pops, the only frame whose object the line changes) is the most recently
opened nested-opener that is still open and whose indent is strictly less
than that of the line, or the root when there is none. -/
theorem C16_stack_invariant (text : Str) (done rest : List Str) (line : Str)
    (st st1 : Stack)
    (hsplit : nonBlankLines text = done ++ line :: rest)
    (hdone : processLines ⟨⟨[], [], -1⟩, []⟩ done = some st)
    (hline : processLine st line = some st1) :
    stackInvariant st1 = true ∧
    stackShape st1 = (openOpeners (done ++ [line])).reverse ++ [([], -1)] ∧
    ((popFrames (lineIndent line) st.top st.below).top.key,
      (popFrames (lineIndent line) st.top st.below).top.indent) =
        parentOf done (lineIndent line) ∧
    ((∃ obj, st1 =
        ⟨{ (popFrames (lineIndent line) st.top st.below).top with obj := obj },
          (popFrames (lineIndent line) st.top st.below).below⟩) ∨
      (∃ obj, st1 =
        ⟨⟨openerKey line, [], lineIndent line⟩,
          { (popFrames (lineIndent line) st.top st.below).top with obj := obj } ::
            (popFrames (lineIndent line) st.top st.below).below⟩)) := by
  have hnb : ∀ l ∈ done ++ line :: rest, trim l ≠ [] := by
    intro l hl
    rw [← hsplit] at hl
    unfold nonBlankLines at hl
    simpa using (List.mem_filter.mp hl).2
  have hd : ∀ l ∈ done, trim l ≠ [] := fun l hl => hnb l (List.mem_append_left _ hl)
  have hln : trim line ≠ [] := hnb line (by simp)
  have hdl : ∀ l ∈ done ++ [line], trim l ≠ [] := by
    intro l hl
    rcases List.mem_append.mp hl with h | h
    · exact hd l h
    · rw [List.mem_singleton] at h; rw [h]; exact hln
  have hall : processLines ⟨⟨[], [], -1⟩, []⟩ (done ++ [line]) = some st1 := by
    rw [processLines_append, hdone]
    simp only [Option.some_bind, processLines, hline]
  have hshape := stackShape_processLines (done ++ [line]) hdl st1 hall
  have hpop := pop_openShape done hd _ (lineIndent_nonneg line hln) st
    (stackShape_processLines done hd st hdone)
  refine ⟨?_, hshape, ?_, ?_⟩
  · unfold stackInvariant
    rw [hshape]
    simp only [Bool.and_eq_true, decide_eq_true_eq]
    exact ⟨by simp, openShape_sorted _ hdl⟩
  · have hh := head_reverse_append
      ((openOpeners done).filter (fun o => decide (o.2 < lineIndent line))) ([], -1)
    rw [← hpop] at hh
    simp only [stackShape, List.map_cons, List.head?_cons, Option.some.injEq] at hh
    exact hh
  · rcases processLine_frames st st1 line hline with ⟨-, obj, h⟩ | ⟨-, obj, h⟩
    · exact Or.inl ⟨obj, h⟩
    · exact Or.inr ⟨obj, h⟩

/-- Witness of C16 on the text `"a:\n  b:\n    c: 1\n\n  d: 2\ne: 3"`, at its line
`  d: 2`: the line closes the opener `b` and is assigned into the opener
`a`. -/
theorem C16_stack_invariant_witness :
    stackInvariant ⟨⟨"a".toList, [("b".toList, .obj [("c".toList, .num (.int 1))]),
        ("d".toList, .num (.int 2))], 0⟩, [⟨[], [("a".toList, .obj [])], -1⟩]⟩ = true ∧
    stackShape ⟨⟨"a".toList, [("b".toList, .obj [("c".toList, .num (.int 1))]),
        ("d".toList, .num (.int 2))], 0⟩, [⟨[], [("a".toList, .obj [])], -1⟩]⟩ =
      (openOpeners (["a:".toList, "  b:".toList, "    c: 1".toList] ++
        ["  d: 2".toList])).reverse ++ [([], -1)] ∧
    ((popFrames (lineIndent "  d: 2".toList) ⟨"b".toList, [("c".toList, .num (.int 1))], 2⟩
        [⟨"a".toList, [("b".toList, .obj [])], 0⟩, ⟨[], [("a".toList, .obj [])], -1⟩]).top.key,
      (popFrames (lineIndent "  d: 2".toList) ⟨"b".toList, [("c".toList, .num (.int 1))], 2⟩
        [⟨"a".toList, [("b".toList, .obj [])], 0⟩,
          ⟨[], [("a".toList, .obj [])], -1⟩]).top.indent) =
        parentOf ["a:".toList, "  b:".toList, "    c: 1".toList] (lineIndent "  d: 2".toList) ∧
    ((∃ obj, (⟨⟨"a".toList, [("b".toList, .obj [("c".toList, .num (.int 1))]),
        ("d".toList, .num (.int 2))], 0⟩, [⟨[], [("a".toList, .obj [])], -1⟩]⟩ : Stack) =
        ⟨{ (popFrames (lineIndent "  d: 2".toList)
              ⟨"b".toList, [("c".toList, .num (.int 1))], 2⟩
              [⟨"a".toList, [("b".toList, .obj [])], 0⟩,
                ⟨[], [("a".toList, .obj [])], -1⟩]).top with obj := obj },
          (popFrames (lineIndent "  d: 2".toList)
              ⟨"b".toList, [("c".toList, .num (.int 1))], 2⟩
              [⟨"a".toList, [("b".toList, .obj [])], 0⟩,
                ⟨[], [("a".toList, .obj [])], -1⟩]).below⟩) ∨
      (∃ obj, (⟨⟨"a".toList, [("b".toList, .obj [("c".toList, .num (.int 1))]),
        ("d".toList, .num (.int 2))], 0⟩, [⟨[], [("a".toList, .obj [])], -1⟩]⟩ : Stack) =
        ⟨⟨openerKey "  d: 2".toList, [], lineIndent "  d: 2".toList⟩,
          { (popFrames (lineIndent "  d: 2".toList)
              ⟨"b".toList, [("c".toList, .num (.int 1))], 2⟩
              [⟨"a".toList, [("b".toList, .obj [])], 0⟩,
                ⟨[], [("a".toList, .obj [])], -1⟩]).top with obj := obj } ::
            (popFrames (lineIndent "  d: 2".toList)
              ⟨"b".toList, [("c".toList, .num (.int 1))], 2⟩
              [⟨"a".toList, [("b".toList, .obj [])], 0⟩,
                ⟨[], [("a".toList, .obj [])], -1⟩]).below⟩)) :=
  C16_stack_invariant "a:\n  b:\n    c: 1\n\n  d: 2\ne: 3".toList
    ["a:".toList, "  b:".toList, "    c: 1".toList] ["e: 3".toList] "  d: 2".toList
    ⟨⟨"b".toList, [("c".toList, .num (.int 1))], 2⟩,
      [⟨"a".toList, [("b".toList, .obj [])], 0⟩, ⟨[], [("a".toList, .obj [])], -1⟩]⟩
    ⟨⟨"a".toList, [("b".toList, .obj [("c".toList, .num (.int 1))]),
        ("d".toList, .num (.int 2))], 0⟩, [⟨[], [("a".toList, .obj [])], -1⟩]⟩
    (by decide) rfl rfl

theorem parentOf_example :
    parentOf ["a:".toList, "  b:".toList, "    c: 1".toList] 2 = ("a".toList, 0) ∧
    parentOf ["a:".toList, "  b:".toList, "    c: 1".toList] 4 = ("b".toList, 2) ∧
    parentOf ["a:".toList, "  b:".toList, "    c: 1".toList] 0 = ([], -1) ∧
    openOpeners ["a:".toList, "  b:".toList, "    c: 1".toList, "  d: 2".toList] =
      [("a".toList, 0)] := by
  decide


theorem digit_ne_lf {c : Char} (h : isDigit c = true) : c ≠ '\n' := by
  intro e; subst e; revert h; decide

theorem natToString_noLF (n : Nat) : '\n' ∉ natToString n :=
  fun h => digit_ne_lf (natToString_isDigit n _ h) rfl

theorem positiveToString_noLF (s : Str) (n : Int) (hs : '\n' ∉ s) :
    '\n' ∉ positiveToString s n := by
  unfold positiveToString
  split
  · intro h
    rcases List.mem_append.mp h with h | h
    · exact hs h
    · exact absurd (List.eq_of_mem_replicate h) (by decide)
  · split
    · intro h
      rcases List.mem_append.mp h with h | h
      · exact hs (List.mem_of_mem_take h)
      · rcases List.mem_cons.mp h with h | h
        · exact absurd h (by decide)
        · exact hs (List.mem_of_mem_drop h)
    · split
      · intro h
        rcases List.mem_cons.mp h with h | h
        · exact absurd h (by decide)
        · rcases List.mem_cons.mp h with h | h
          · exact absurd h (by decide)
          · rcases List.mem_append.mp h with h | h
            · exact absurd (List.eq_of_mem_replicate h) (by decide)
            · exact hs h
      · intro h
        rcases List.mem_append.mp h with h | h
        · have hm : ∀ c ∈ mantissa s, c ∈ s ∨ c = '.' := by
            intro c hc
            unfold mantissa at hc
            split at hc
            · simp at hc
            · exact Or.inl hc
            · rcases List.mem_cons.mp hc with hc | hc
              · exact Or.inl (hc ▸ List.mem_cons_self _ _)
              · rcases List.mem_cons.mp hc with hc | hc
                · exact Or.inr hc
                · exact Or.inl (List.mem_cons_of_mem _ hc)
          rcases hm _ h with h | h
          · exact hs h
          · exact absurd h (by decide)
        · unfold expSuffix at h
          rcases List.mem_cons.mp h with h | h
          · exact absurd h (by decide)
          · rcases List.mem_cons.mp h with h | h
            · split at h <;> exact absurd h (by decide)
            · exact natToString_noLF _ h

theorem numberToString_noLF (x : JSNum) : '\n' ∉ numberToString x := by
  cases x with
  | int n =>
    have hb := positiveToString_noLF (stripZeros (natToString n.natAbs))
      (natToString n.natAbs).length
      (fun h => natToString_noLF _ (stripZeros_subset _ _ h))
    simp only [numberToString]
    split
    · decide
    · split
      · intro h
        rcases List.mem_cons.mp h with h | h
        · exact absurd h (by decide)
        · exact hb h
      · exact hb
  | dec m k =>
    have hb := positiveToString_noLF (natToString m.natAbs)
      (((natToString m.natAbs).length : Int) - ((k : Int) + 1)) (natToString_noLF _)
    simp only [numberToString]
    split
    · intro h
      rcases List.mem_cons.mp h with h | h
      · exact absurd h (by decide)
      · exact hb h
    · exact hb
  | inf neg =>
    cases neg <;> decide

theorem quoteChar_noLF (c : Char) : '\n' ∉ quoteChar c := by
  have hh : ∀ d : Nat, d < 16 →
      (if d < 10 then digitChar d else Char.ofNat (87 + d)) ≠ '\n' := by
    decide
  unfold quoteChar
  split
  · decide
  · split
    · decide
    · split
      · decide
      · split
        · decide
        · split
          · decide
          · split
            · decide
            · split
              · decide
              · split
                · intro h
                  unfold hex4 at h
                  simp only [List.mem_cons, List.mem_singleton, List.not_mem_nil,
                    or_false] at h
                  rcases h with h | h | h | h | h | h
                  · exact absurd h (by decide)
                  · exact absurd h (by decide)
                  · exact hh _ (Nat.mod_lt _ (by decide)) h.symm
                  · exact hh _ (Nat.mod_lt _ (by decide)) h.symm
                  · exact hh _ (Nat.mod_lt _ (by decide)) h.symm
                  · exact hh _ (Nat.mod_lt _ (by decide)) h.symm
                · rename_i h10 _ _ _
                  intro h
                  rw [List.mem_singleton] at h
                  apply h10
                  rw [← h]
                  rfl

theorem quoteString_noLF (s : Str) : '\n' ∉ quoteString s := by
  unfold quoteString
  intro h
  rcases List.mem_cons.mp h with h | h
  · exact absurd h (by decide)
  · rcases List.mem_append.mp h with h | h
    · obtain ⟨c, -, hc⟩ := List.mem_flatMap.mp h
      exact quoteChar_noLF c hc
    · exact absurd (List.mem_singleton.mp h) (by decide)

theorem join_noLF (sep : Str) (ls : List Str) (hs : '\n' ∉ sep) (h : ∀ l ∈ ls, '\n' ∉ l) :
    '\n' ∉ join sep ls := by
  intro hm
  rcases mem_join hm with hm | ⟨l, hl, hm⟩
  · exact hs hm
  · exact h l hl hm

mutual
theorem stringify_noLF : ∀ (v : Value) (out : Str), stringify v = some out → '\n' ∉ out
  | .null, out, h => by
    simp only [stringify, Option.some.injEq] at h; subst h; decide
  | .undefined, out, h => by simp [stringify] at h
  | .bool b, out, h => by
    simp only [stringify, Option.some.injEq] at h; subst h; cases b <;> decide
  | .num x, out, h => by
    cases x with
    | inf neg => simp only [stringify, Option.some.injEq] at h; subst h; decide
    | int n => simp only [stringify, Option.some.injEq] at h; subst h; exact numberToString_noLF _
    | dec m k =>
      simp only [stringify, Option.some.injEq] at h; subst h; exact numberToString_noLF _
  | .str s, out, h => by
    simp only [stringify, Option.some.injEq] at h; subst h; exact quoteString_noLF s
  | .arr xs, out, h => by
    simp only [stringify, Option.some.injEq] at h
    subst h
    intro hm
    rcases List.mem_cons.mp hm with hm | hm
    · exact absurd hm (by decide)
    · rcases List.mem_append.mp hm with hm | hm
      · exact join_noLF _ _ (by decide) (stringifyItems_noLF xs) hm
      · exact absurd (List.mem_singleton.mp hm) (by decide)
  | .obj fs, out, h => by
    simp only [stringify, Option.some.injEq] at h
    subst h
    intro hm
    rcases List.mem_cons.mp hm with hm | hm
    · exact absurd hm (by decide)
    · rcases List.mem_append.mp hm with hm | hm
      · exact join_noLF _ _ (by decide) (stringifyFields_noLF fs) hm
      · exact absurd (List.mem_singleton.mp hm) (by decide)
theorem stringifyItems_noLF : ∀ (xs : List Value), ∀ t ∈ stringifyItems xs, '\n' ∉ t
  | [], t, h => by simp [stringifyItems] at h
  | x :: xs, t, h => by
    simp only [stringifyItems, List.mem_cons] at h
    rcases h with h | h
    · subst h
      cases hx : stringify x with
      | none => simp only [Option.getD_none]; decide
      | some o => simp only [Option.getD_some]; exact stringify_noLF x o hx
    · exact stringifyItems_noLF xs t h
theorem stringifyFields_noLF : ∀ (fs : List (Str × Value)), ∀ t ∈ stringifyFields fs, '\n' ∉ t
  | [], t, h => by simp [stringifyFields] at h
  | (k, v) :: rest, t, h => by
    simp only [stringifyFields] at h
    cases hv : stringify v with
    | none =>
      rw [hv] at h
      exact stringifyFields_noLF rest t h
    | some o =>
      rw [hv] at h
      rcases List.mem_cons.mp h with h | h
      · subst h
        intro hm
        rcases List.mem_append.mp hm with hm | hm
        · exact quoteString_noLF k hm
        · rcases List.mem_cons.mp hm with hm | hm
          · exact absurd hm (by decide)
          · exact stringify_noLF v o hv hm
      · exact stringifyFields_noLF rest t h
end


theorem all_ne_lf {s : Str} : s.all (fun c => c != '\n') = true ↔ '\n' ∉ s := by
  rw [List.all_eq_true]
  constructor
  · intro h hm
    have := h _ hm
    simp at this
  · intro h c hc
    have : c ≠ '\n' := fun e => h (e ▸ hc)
    simpa using this

mutual
theorem formatValue_noLF : ∀ (v : Value), noLineBreak v = true → '\n' ∉ formatValue v
  | .null, _ => by decide
  | .undefined, _ => by simp [formatValue]
  | .bool b, _ => by cases b <;> decide
  | .num x, _ => by simp only [formatValue]; exact numberToString_noLF x
  | .str s, h => by
    simp only [noLineBreak] at h
    simp only [formatValue]
    exact all_ne_lf.mp h
  | .obj fs, _ => by
    simp only [formatValue]
    cases hs : stringify (.obj fs) with
    | none => simp
    | some o => simp only [Option.getD_some]; exact stringify_noLF _ o hs
  | .arr xs, h => by
    simp only [noLineBreak] at h
    simp only [formatValue]
    intro hm
    rcases List.mem_cons.mp hm with hm | hm
    · exact absurd hm (by decide)
    · rcases List.mem_append.mp hm with hm | hm
      · exact join_noLF _ _ (by decide) (formatValues_noLF xs h) hm
      · exact absurd (List.mem_singleton.mp hm) (by decide)
theorem formatValues_noLF : ∀ (xs : List Value), noLineBreakItems xs = true →
    ∀ t ∈ formatValues xs, '\n' ∉ t
  | [], _, t, h => by simp [formatValues] at h
  | x :: xs, hx, t, h => by
    simp only [noLineBreakItems, Bool.and_eq_true] at hx
    simp only [formatValues, List.mem_cons] at h
    rcases h with h | h
    · subst h; exact formatValue_noLF x hx.1
    · exact formatValues_noLF xs hx.2 t h
end

theorem noLineBreakItems_iff (xs : List Value) :
    noLineBreakItems xs = true ↔ ∀ x ∈ xs, noLineBreak x = true := by
  induction xs with
  | nil => simp [noLineBreakItems]
  | cons x xs ih => simp [noLineBreakItems, ih]

theorem noLineBreakFields_iff (fs : List (Str × Value)) :
    noLineBreakFields fs = true ↔ ∀ f ∈ fs, '\n' ∉ f.1 ∧ noLineBreak f.2 = true := by
  induction fs with
  | nil => simp [noLineBreakFields]
  | cons f rest ih =>
    obtain ⟨k, v⟩ := f
    simp only [noLineBreakFields, Bool.and_eq_true, ih, all_ne_lf, List.mem_cons,
      forall_eq_or_imp, and_assoc]

theorem lookupProp_noLF (fs : List (Str × Value)) (k : Str)
    (h : noLineBreakFields fs = true) : noLineBreak (lookupProp fs k) = true := by
  unfold lookupProp
  cases hl : fs.lookup k with
  | none => by_cases hk : k = protoKey <;> simp [hk, noLineBreak, noLineBreakFields]
  | some v =>
    have hm : (k, v) ∈ fs := by
      induction fs with
      | nil => simp at hl
      | cons f rest ih =>
        obtain ⟨k1, v1⟩ := f
        simp only [List.lookup] at hl
        split at hl
        · rename_i heq
          simp only [Option.some.injEq] at hl
          have : k = k1 := by simpa using heq
          subst this; subst hl
          exact List.mem_cons_self _ _
        · simp only [noLineBreakFields, Bool.and_eq_true] at h
          exact List.mem_cons_of_mem _ (ih h.2 hl)
    exact ((noLineBreakFields_iff fs).mp h _ hm).2

theorem indexProp_mem (xs : List Value) (k : Str) :
    ∀ (i : Nat) (v : Value), indexProp xs i k = some v → v ∈ xs := by
  induction xs with
  | nil => intro i v h; simp [indexProp] at h
  | cons x rest ih =>
    intro i v h
    simp only [indexProp] at h
    split at h
    · simp only [Option.some.injEq] at h
      subst h
      exact List.mem_cons_self _ _
    · exact List.mem_cons_of_mem _ (ih _ _ h)

theorem getProp_noLF (v : Value) (k : Str) (w : Value) (h : noLineBreak v = true)
    (hg : getProp v k = some w) : noLineBreak w = true := by
  cases v with
  | null => simp [getProp] at hg
  | undefined => simp [getProp] at hg
  | bool b =>
    simp only [getProp, Option.some.injEq] at hg; subst hg
    by_cases hk : k = protoKey <;> simp [hk, noLineBreak]
  | num x =>
    simp only [getProp, Option.some.injEq] at hg; subst hg
    by_cases hk : k = protoKey <;> simp [hk, noLineBreak]
  | obj fs =>
    simp only [getProp, Option.some.injEq] at hg
    subst hg
    exact lookupProp_noLF fs k h
  | arr xs =>
    simp only [getProp] at hg
    split at hg
    · simp only [Option.some.injEq] at hg; subst hg; rfl
    · simp only [Option.some.injEq] at hg
      subst hg
      cases hi : indexProp xs 0 k with
      | none => by_cases hk : k = protoKey <;> simp [hk, noLineBreak, noLineBreakItems]
      | some x =>
        simp only [Option.getD_some]
        exact (noLineBreakItems_iff xs).mp h x (indexProp_mem xs k 0 x hi)
  | str s =>
    simp only [getProp] at hg
    split at hg
    · simp only [Option.some.injEq] at hg; subst hg; rfl
    · simp only [Option.some.injEq] at hg
      subst hg
      cases hi : indexProp (s.map (fun c => Value.str [c])) 0 k with
      | none => by_cases hk : k = protoKey <;> simp [hk, noLineBreak]
      | some x =>
        simp only [Option.getD_some]
        have hm := indexProp_mem _ k 0 x hi
        obtain ⟨c, hc, rfl⟩ := List.mem_map.mp hm
        simp only [noLineBreak] at h ⊢
        rw [all_ne_lf] at h ⊢
        intro hx
        rw [List.mem_singleton] at hx
        exact h (hx ▸ hc)

theorem indexKeys_noLF : ∀ (n i : Nat), ∀ k ∈ indexKeys n i, '\n' ∉ k
  | 0, _, k, h => by simp [indexKeys] at h
  | n + 1, i, k, h => by
    simp only [indexKeys, List.mem_cons] at h
    rcases h with h | h
    · subst h; exact natToString_noLF i
    · exact indexKeys_noLF n (i + 1) k h

theorem objectKeys_noLF (v : Value) (h : noLineBreak v = true) :
    ∀ k ∈ objectKeys v, '\n' ∉ k := by
  intro k hk
  cases v with
  | obj fs =>
    simp only [objectKeys] at hk
    obtain ⟨f, hf, rfl⟩ := List.mem_map.mp hk
    exact ((noLineBreakFields_iff fs).mp h f hf).1
  | arr xs => exact indexKeys_noLF _ _ k hk
  | null => simp [objectKeys] at hk
  | undefined => simp [objectKeys] at hk
  | bool b => simp [objectKeys] at hk
  | num x => simp [objectKeys] at hk
  | str s => simp [objectKeys] at hk

theorem foldl_addKey_subset (ks : List Str) :
    ∀ (acc : List Str), ∀ k ∈ ks.foldl addKey acc, k ∈ acc ∨ k ∈ ks := by
  induction ks with
  | nil => intro acc k h; exact Or.inl h
  | cons x rest ih =>
    intro acc k h
    simp only [List.foldl_cons] at h
    rcases ih _ k h with h | h
    · unfold addKey at h
      split at h
      · exact Or.inl h
      · rcases List.mem_append.mp h with h | h
        · exact Or.inl h
        · exact Or.inr (by rw [List.mem_singleton] at h; rw [h]; exact List.mem_cons_self _ _)
    · exact Or.inr (List.mem_cons_of_mem _ h)

theorem collectKeys_noLF (items : List Value) (h : noLineBreakItems items = true) :
    ∀ k ∈ collectKeys items, '\n' ∉ k := by
  intro k hk
  unfold collectKeys at hk
  rw [collectKeys_foldl] at hk
  rcases foldl_addKey_subset _ [] k hk with hk | hk
  · simp at hk
  · obtain ⟨item, hi, hk⟩ := List.mem_flatMap.mp hk
    exact objectKeys_noLF item ((noLineBreakItems_iff items).mp h item hi) k hk

theorem formatRow_noLF (subKeys : List Str) (item : Value) (row : Str)
    (h : noLineBreak item = true) (hr : formatRow subKeys item = some row) : '\n' ∉ row := by
  unfold formatRow at hr
  cases hm : mapThrow (fun k => (getProp item k).map formatValue) subKeys with
  | none => rw [hm] at hr; cases hr
  | some cells =>
    rw [hm] at hr
    simp only [Option.map_some', Option.some.injEq] at hr
    subst hr
    apply join_noLF _ _ (by decide)
    have : ∀ (ks : List Str) (cs : List Str),
        mapThrow (fun k => (getProp item k).map formatValue) ks = some cs →
        ∀ c ∈ cs, '\n' ∉ c := by
      intro ks
      induction ks with
      | nil => intro cs h0 c hc; simp [mapThrow] at h0; subst h0; simp at hc
      | cons k rest ih =>
        intro cs h0 c hc
        simp only [mapThrow] at h0
        cases hg : getProp item k with
        | none => rw [hg] at h0; simp at h0
        | some w =>
          rw [hg] at h0
          simp only [Option.map_some'] at h0
          cases hrest : mapThrow (fun k => (getProp item k).map formatValue) rest with
          | none => rw [hrest] at h0; simp at h0
          | some cs1 =>
            rw [hrest] at h0
            simp only [Option.map_some', Option.some.injEq] at h0
            subst h0
            rcases List.mem_cons.mp hc with hc | hc
            · subst hc; exact formatValue_noLF w (getProp_noLF item k w h hg)
            · exact ih cs1 hrest c hc
    exact this subKeys cells hm


theorem indentFrom_false (l rest : Str) (h : '\n' ∉ l) :
    indentFrom false (l ++ '\n' :: rest) = l ++ '\n' :: indentFrom true rest := by
  induction l with
  | nil => simp [indentFrom]
  | cons c cs ih =>
    have hc : (c == '\n') = false := by
      have : c ≠ '\n' := fun e => h (e ▸ List.mem_cons_self _ _)
      simpa using this
    have hcs : '\n' ∉ cs := fun hm => h (List.mem_cons_of_mem _ hm)
    simp only [List.cons_append, indentFrom, hc]
    simp
    exact ih hcs

theorem indentFrom_line (l rest : Str) (h : '\n' ∉ l) :
    indentFrom true (l ++ '\n' :: rest) = ' ' :: ' ' :: (l ++ '\n' :: indentFrom true rest) := by
  cases l with
  | nil => simp [indentFrom]
  | cons c cs =>
    have hc : (c == '\n') = false := by
      have : c ≠ '\n' := fun e => h (e ▸ List.mem_cons_self _ _)
      simpa using this
    have hcs : '\n' ∉ cs := fun hm => h (List.mem_cons_of_mem _ hm)
    simp only [List.cons_append, indentFrom, hc]
    simp
    exact indentFrom_false cs rest hcs

theorem indentEach_lines (ls : List Str) (h : ∀ l ∈ ls, '\n' ∉ l) :
    indentEach (ls.flatMap (fun l => l ++ ['\n'])) =
      (ls.map (fun l => ' ' :: ' ' :: l)).flatMap (fun l => l ++ ['\n']) := by
  unfold indentEach
  induction ls with
  | nil => rfl
  | cons l rest ih =>
    have hl := h l (List.mem_cons_self _ _)
    have hr := ih (fun x hx => h x (List.mem_cons_of_mem _ hx))
    simp only [List.flatMap_cons, List.map_cons, List.append_assoc, List.singleton_append,
      List.cons_append, indentFrom_line l _ hl, List.nil_append, hr]

theorem textLines_lines (ls : List Str) (h : ∀ l ∈ ls, '\n' ∉ l) :
    textLines (ls.flatMap (fun l => l ++ ['\n'])) = ls := by
  unfold textLines
  rw [flatMap_lines_eq_join, split_join '\n' (ls ++ [[]]) (by simp) (by
    intro l hl
    rcases List.mem_append.mp hl with hl | hl
    · exact h l hl
    · rw [List.mem_singleton] at hl; rw [hl]; simp)]
  simp

theorem spacing_add (n d : Nat) : spacing (n + d) = spacing n ++ spacing d := by
  induction n with
  | zero => simp [spacing]
  | succ n ih =>
    have : n + 1 + d = (n + d) + 1 := by omega
    rw [this]
    simp only [spacing, ih, List.cons_append]

theorem spacing_noLF (n : Nat) : '\n' ∉ spacing n := by
  induction n with
  | zero => simp [spacing]
  | succ n ih =>
    intro h
    simp only [spacing, List.mem_cons] at h
    rcases h with h | h | h
    · exact absurd h (by decide)
    · exact absurd h (by decide)
    · exact ih h

theorem mapThrow_mem {α β : Type} (f : α → Option β) :
    ∀ (l : List α) (ys : List β), mapThrow f l = some ys →
      ∀ y ∈ ys, ∃ x ∈ l, f x = some y := by
  intro l
  induction l with
  | nil => intro ys h y hy; simp [mapThrow] at h; subst h; simp at hy
  | cons x xs ih =>
    intro ys h y hy
    simp only [mapThrow] at h
    cases hx : f x with
    | none => rw [hx] at h; simp at h
    | some z =>
      rw [hx] at h
      cases hm : mapThrow f xs with
      | none => rw [hm] at h; simp at h
      | some zs =>
        rw [hm] at h
        simp only [Option.map_some', Option.some.injEq] at h
        subst h
        rcases List.mem_cons.mp hy with hy | hy
        · subst hy; exact ⟨x, List.mem_cons_self _ _, hx⟩
        · obtain ⟨a, ha, e⟩ := ih zs hm y hy
          exact ⟨a, List.mem_cons_of_mem _ ha, e⟩

theorem single_row (k tail : Str) (v : Value) (f : Nat → Option Str)
    (hv : valueLines v = []) (hk : '\n' ∉ k) (ht : '\n' ∉ tail)
    (h : ∀ n, f n = some (spacing n ++ (k ++ tail) ++ ['\n'])) :
    (∀ n, f n = none) ∨
    ∃ rows : List (Nat × Str × Str),
      rows.map (fun r => (r.1, r.2.1)) = (0, k) :: valueLines v ∧
      (∀ r ∈ rows, '\n' ∉ r.2.1 ++ r.2.2) ∧
      ∀ n, f n = some ((rows.map (fun r => spacing (n + r.1) ++ (r.2.1 ++ r.2.2))).flatMap
        (fun l => l ++ ['\n'])) := by
  refine Or.inr ⟨[(0, k, tail)], by simp [hv], ?_, ?_⟩
  · intro r hr
    rw [List.mem_singleton] at hr
    subst hr
    intro hm
    rcases List.mem_append.mp hm with hm | hm
    · exact hk hm
    · exact ht hm
  · intro n
    rw [h n]
    simp

theorem primitive_rows (k : Str) (v : Value) (hk : '\n' ∉ k) (hv : noLineBreak v = true)
    (hl : valueLines v = [])
    (h : ∀ n, convertField k v n =
      some (spacing n ++ k ++ ':' :: ' ' :: formatValue v ++ ['\n'])) :
    (∀ n, convertField k v n = none) ∨
    ∃ rows : List (Nat × Str × Str),
      rows.map (fun r => (r.1, r.2.1)) = (0, k) :: valueLines v ∧
      (∀ r ∈ rows, '\n' ∉ r.2.1 ++ r.2.2) ∧
      ∀ n, convertField k v n =
        some ((rows.map (fun r => spacing (n + r.1) ++ (r.2.1 ++ r.2.2))).flatMap
          (fun l => l ++ ['\n'])) := by
  apply single_row k (':' :: ' ' :: formatValue v) v (convertField k v) hl hk
  · intro hm
    rcases List.mem_cons.mp hm with hm | hm
    · exact absurd hm (by decide)
    · rcases List.mem_cons.mp hm with hm | hm
      · exact absurd hm (by decide)
      · exact formatValue_noLF v hv hm
  · intro n
    rw [h n]
    simp

theorem array_rows (k : Str) (items : List Value) (hk : '\n' ∉ k)
    (hv : noLineBreak (.arr items) = true) :
    (∀ n, convertField k (.arr items) n = none) ∨
    ∃ rows : List (Nat × Str × Str),
      rows.map (fun r => (r.1, r.2.1)) = (0, k) :: valueLines (.arr items) ∧
      (∀ r ∈ rows, '\n' ∉ r.2.1 ++ r.2.2) ∧
      ∀ n, convertField k (.arr items) n =
        some ((rows.map (fun r => spacing (n + r.1) ++ (r.2.1 ++ r.2.2))).flatMap
          (fun l => l ++ ['\n'])) := by
  have hprim : (∀ n, convertField k (.arr items) n =
      some (spacing n ++ k ++ ':' :: ' ' :: formatValue (.arr items) ++ ['\n'])) → _ :=
    primitive_rows k (.arr items) hk hv (by simp [valueLines])
  cases items with
  | nil => exact hprim (fun n => by simp [convertField])
  | cons first more =>
    by_cases hf : isObjectLike first = true
    · have hitems : noLineBreakItems (first :: more) = true := by
        simpa [noLineBreak] using hv
      cases hm : mapThrow (formatRow (collectKeys (first :: more))) (first :: more) with
      | none =>
        left
        intro n
        simp only [convertField, hf, if_true, arrayOfObjects, hm, Option.map_none']
      | some rows =>
        apply single_row k ('[' :: natToString (first :: more).length ++ ']' :: '\x7b' ::
          join [','] (collectKeys (first :: more)) ++ '\x7d' :: ':' :: ' ' :: join [' '] rows)
          (.arr (first :: more)) (convertField k (.arr (first :: more)))
          (by simp [valueLines]) hk
        · intro hmem
          simp only [List.mem_cons, List.mem_append, or_assoc] at hmem
          rcases hmem with h | h | h | h | h | h | h | h
          · exact absurd h (by decide)
          · exact natToString_noLF _ h
          · exact absurd h (by decide)
          · exact absurd h (by decide)
          · exact join_noLF _ _ (by decide) (collectKeys_noLF _ hitems) h
          · exact absurd h (by decide)
          · exact absurd h (by decide)
          · rcases h with h | h
            · exact absurd h (by decide)
            · refine join_noLF _ _ (by decide) ?_ h
              intro r hr
              obtain ⟨item, hi, e⟩ := mapThrow_mem _ _ _ hm r hr
              exact formatRow_noLF _ item r ((noLineBreakItems_iff _).mp hitems item hi) e
        · intro n
          simp only [convertField, hf, if_true, arrayOfObjects, hm, Option.map_some']
          simp
    · exact hprim (fun n => by simp only [convertField, hf]; simp)

theorem inline_rows (k : Str) (sub : List (Str × Value)) (hk : '\n' ∉ k)
    (hv : noLineBreak (.obj sub) = true) (hflat : isFlat sub ∧ sub.length > 0) :
    (∀ n, convertField k (.obj sub) n = none) ∨
    ∃ rows : List (Nat × Str × Str),
      rows.map (fun r => (r.1, r.2.1)) = (0, k) :: valueLines (.obj sub) ∧
      (∀ r ∈ rows, '\n' ∉ r.2.1 ++ r.2.2) ∧
      ∀ n, convertField k (.obj sub) n =
        some ((rows.map (fun r => spacing (n + r.1) ++ (r.2.1 ++ r.2.2))).flatMap
          (fun l => l ++ ['\n'])) := by
  have hfs : noLineBreakFields sub = true := by simpa [noLineBreak] using hv
  have hmem := (noLineBreakFields_iff sub).mp hfs
  apply single_row k ('\x7b' :: join [','] (sub.map Prod.fst) ++
      '\x7d' :: ':' :: ' ' :: join [','] (sub.map (fun f => formatValue f.2)))
    (.obj sub) (convertField k (.obj sub)) (by simp only [valueLines, if_pos hflat]) hk
  · intro h
    simp only [List.mem_cons, List.mem_append, or_assoc] at h
    rcases h with h | h | h | h | h | h
    · exact absurd h (by decide)
    · refine join_noLF _ _ (by decide) ?_ h
      intro l hl
      obtain ⟨f, hf, rfl⟩ := List.mem_map.mp hl
      exact (hmem f hf).1
    · exact absurd h (by decide)
    · exact absurd h (by decide)
    · exact absurd h (by decide)
    · refine join_noLF _ _ (by decide) ?_ h
      intro l hl
      obtain ⟨f, hf, rfl⟩ := List.mem_map.mp hl
      exact formatValue_noLF _ (hmem f hf).2
  · intro n
    simp only [convertField, if_pos hflat]
    simp


mutual
theorem convertField_rows : ∀ (v : Value) (k : Str), '\n' ∉ k → noLineBreak v = true →
    ((∀ n, convertField k v n = none) ∨
    ∃ rows : List (Nat × Str × Str),
      rows.map (fun r => (r.1, r.2.1)) = (0, k) :: valueLines v ∧
      (∀ r ∈ rows, '\n' ∉ r.2.1 ++ r.2.2) ∧
      ∀ n, convertField k v n =
        some ((rows.map (fun r => spacing (n + r.1) ++ (r.2.1 ++ r.2.2))).flatMap
          (fun l => l ++ ['\n'])))
  | .null, k, hk, hv => primitive_rows k .null hk hv rfl (fun _ => rfl)
  | .undefined, k, hk, hv => primitive_rows k .undefined hk hv rfl (fun _ => rfl)
  | .bool b, k, hk, hv => primitive_rows k (.bool b) hk hv rfl (fun _ => rfl)
  | .num x, k, hk, hv => primitive_rows k (.num x) hk hv rfl (fun _ => rfl)
  | .str s, k, hk, hv => primitive_rows k (.str s) hk hv rfl (fun _ => rfl)
  | .arr items, k, hk, hv => array_rows k items hk hv
  | .obj sub, k, hk, hv => by
    by_cases hflat : isFlat sub ∧ sub.length > 0
    · exact inline_rows k sub hk hv hflat
    · have hfs : noLineBreakFields sub = true := by simpa [noLineBreak] using hv
      rcases convertFields_rows sub hfs with hnone | ⟨rows, hmap, hfree, hconv⟩
      · left
        intro n
        simp only [convertField, if_neg hflat, hnone (n + 1), Option.map_none']
      · right
        refine ⟨(0, k, [':']) :: rows.map (fun r => (r.1 + 1, r.2)), ?_, ?_, ?_⟩
        · simp only [List.map_cons, List.map_map, valueLines, if_neg hflat, ← hmap]
          rfl
        · intro r hr
          rcases List.mem_cons.mp hr with hr | hr
          · subst hr
            intro hm
            rcases List.mem_append.mp hm with hm | hm
            · exact hk hm
            · exact absurd (List.mem_singleton.mp hm) (by decide)
          · obtain ⟨r0, hr0, rfl⟩ := List.mem_map.mp hr
            exact hfree r0 hr0
        · intro n
          simp only [convertField, if_neg hflat, hconv (n + 1), Option.map_some',
            List.map_cons, List.map_map, List.flatMap_cons]
          have hfun : (fun r : Nat × Str × Str => spacing (n + 1 + r.1) ++ (r.2.1 ++ r.2.2)) =
              ((fun r : Nat × Str × Str => spacing (n + r.1) ++ (r.2.1 ++ r.2.2)) ∘
                fun r => (r.1 + 1, r.2)) := by
            funext r
            have : n + 1 + r.1 = n + (r.1 + 1) := by omega
            simp only [Function.comp, this]
          rw [hfun]
          simp
theorem convertFields_rows : ∀ (fs : List (Str × Value)), noLineBreakFields fs = true →
    ((∀ n, convertFields fs n = none) ∨
    ∃ rows : List (Nat × Str × Str),
      rows.map (fun r => (r.1, r.2.1)) = fieldLines fs ∧
      (∀ r ∈ rows, '\n' ∉ r.2.1 ++ r.2.2) ∧
      ∀ n, convertFields fs n =
        some ((rows.map (fun r => spacing (n + r.1) ++ (r.2.1 ++ r.2.2))).flatMap
          (fun l => l ++ ['\n'])))
  | [], _ => Or.inr ⟨[], rfl, by simp, fun _ => rfl⟩
  | (k, v) :: rest, h => by
    simp only [noLineBreakFields, Bool.and_eq_true] at h
    obtain ⟨⟨hk, hv⟩, hrest⟩ := h
    rcases convertField_rows v k (all_ne_lf.mp hk) hv with h1 | ⟨rows1, hmap1, hfree1, hconv1⟩
    · left
      intro n
      simp only [convertFields, h1 n]
    · rcases convertFields_rows rest hrest with h2 | ⟨rows2, hmap2, hfree2, hconv2⟩
      · left
        intro n
        simp only [convertFields, hconv1 n, h2 n, Option.map_none']
      · right
        refine ⟨rows1 ++ rows2, ?_, ?_, ?_⟩
        · simp only [List.map_append, hmap1, hmap2, fieldLines, List.cons_append]
        · intro r hr
          rcases List.mem_append.mp hr with hr | hr
          · exact hfree1 r hr
          · exact hfree2 r hr
        · intro n
          simp only [convertFields, hconv1 n, hconv2 n, Option.map_some', List.map_append,
            List.flatMap_append]
end

theorem rows_noLF (rows : List (Nat × Str × Str)) (n : Nat)
    (hfree : ∀ r ∈ rows, '\n' ∉ r.2.1 ++ r.2.2) :
    ∀ l ∈ rows.map (fun r => spacing (n + r.1) ++ (r.2.1 ++ r.2.2)), '\n' ∉ l := by
  intro l hl
  obtain ⟨r, hr, rfl⟩ := List.mem_map.mp hl
  intro hm
  rcases List.mem_append.mp hm with hm | hm
  · exact spacing_noLF _ hm
  · exact hfree r hr hm

/-- Claim C15: for every object in which no key and no string value contains
a line feed, and every indent `n`, the encoding at indent `n + 1` is the
encoding at indent `n` with two spaces prefixed to each of its lines (and one
throws when the other does).  Hence every line of the encoding at indent `n`
starts with `2n` spaces, and the lines are, in order, the lines of the fields
met by nesting: the line of a field at nesting depth `d` is `2(n + d)` spaces
followed by its key and the rest of the line. -/
theorem C15_indent_shift (fs : List (Str × Value)) (n : Nat)
    (h : noLineBreak (.obj fs) = true) :
    convertToToon (.obj fs) (n + 1) = (convertToToon (.obj fs) n).map indentEach ∧
    ∀ out, convertToToon (.obj fs) n = some out →
      (∀ l ∈ textLines out, spacing n <+: l) ∧
      List.Forall₂ (fun (f : Nat × Str) (l : Str) =>
        ∃ tail, l = spacing (n + f.1) ++ (f.2 ++ tail)) (fieldLines fs) (textLines out) := by
  have hfs : noLineBreakFields fs = true := by simpa [noLineBreak] using h
  simp only [convertToToon]
  rcases convertFields_rows fs hfs with hnone | ⟨rows, hmap, hfree, hconv⟩
  · refine ⟨by rw [hnone, hnone]; rfl, ?_⟩
    intro out ho
    rw [hnone] at ho
    cases ho
  · have hlines := rows_noLF rows n hfree
    refine ⟨?_, ?_⟩
    · rw [hconv (n + 1), hconv n, Option.map_some', indentEach_lines _ hlines, List.map_map]
      have hfun : (fun r : Nat × Str × Str => spacing (n + 1 + r.1) ++ (r.2.1 ++ r.2.2)) =
          ((fun l => ' ' :: ' ' :: l) ∘
            fun r : Nat × Str × Str => spacing (n + r.1) ++ (r.2.1 ++ r.2.2)) := by
        funext r
        have : n + 1 + r.1 = (n + r.1) + 1 := by omega
        simp only [Function.comp, this, spacing, List.cons_append]
      rw [hfun]
    · intro out ho
      rw [hconv n, Option.some.injEq] at ho
      subst ho
      rw [textLines_lines _ hlines]
      refine ⟨?_, ?_⟩
      · intro l hl
        obtain ⟨r, -, rfl⟩ := List.mem_map.mp hl
        rw [spacing_add, List.append_assoc]
        exact List.prefix_append _ _
      · rw [← hmap, List.forall₂_map_left_iff, List.forall₂_map_right_iff, List.forall₂_same]
        intro r _
        exact ⟨r.2.2, rfl⟩

/-- Witness of C15 at indent 1 on an object with a nested block, an inline
object, an empty object, an array of rows and a string. -/
theorem C15_indent_shift_witness :
    convertToToon (.obj shiftExample) (1 + 1) =
      (convertToToon (.obj shiftExample) 1).map indentEach ∧
    ∀ out, convertToToon (.obj shiftExample) 1 = some out →
      (∀ l ∈ textLines out, spacing 1 <+: l) ∧
      List.Forall₂ (fun (f : Nat × Str) (l : Str) =>
        ∃ tail, l = spacing (1 + f.1) ++ (f.2 ++ tail)) (fieldLines shiftExample)
          (textLines out) :=
  C15_indent_shift shiftExample 1 (by decide)

theorem shiftExample_lines :
    (convertToToon (.obj shiftExample) 1).map textLines =
      some ["  a:".toList, "    b\x7bc\x7d: 1".toList, "    d:".toList,
        "  e[1]\x7bx\x7d: p q".toList, "  f: two words".toList] ∧
    fieldLines shiftExample =
      [(0, "a".toList), (1, "b".toList), (1, "d".toList), (0, "e".toList),
        (0, "f".toList)] ∧
    convertToToon (.obj shiftExample) 2 =
      some ("    a:\n      b\x7bc\x7d: 1\n      d:\n".toList ++
        "    e[1]\x7bx\x7d: p q\n    f: two words\n".toList) := by
  decide

theorem lineFeed_not_shifted :
    noLineBreak (.obj [("a".toList, .str "x\ny".toList)]) = false ∧
    convertToToon (.obj [("a".toList, .str "x\ny".toList)]) 1 = some "  a: x\ny\n".toList ∧
    (convertToToon (.obj [("a".toList, .str "x\ny".toList)]) 0).map indentEach =
      some "  a: x\n  y\n".toList := by
  decide


end Toon
